import Mathlib

/-!
Verification of the cryptmalloc oblivious allocator against its specification.

The Rust source is shallowly embedded: ciphertexts produced by the external
homomorphic library (tfhe) are modelled by their plaintext values (the library
is treated as a correct encrypt/evaluate/decrypt oracle), machine integers are
natural numbers with explicit wrapping or saturation at the machine width
exactly where the source can wrap or saturate, SHA-256 digests over structured
plaintext are modelled as an injective function of the hashed fields, and
fallible Rust functions return `Except`.  Stateful operations return their
result together with the post-state, matching the fact that `?`-propagated
errors in the source leave any mutations already applied to the guarded state
in place.
-/

namespace Cryptmalloc

/-- `usize::MAX` on the 64-bit targets the crate builds for. -/
def USIZE_MAX : Nat := 2 ^ 64 - 1

/-- `u32::MAX`. -/
def U32MAX : Nat := 2 ^ 32 - 1

/-- Rust `usize::saturating_add`. -/
def satAddUsize (a b : Nat) : Nat := min (a + b) USIZE_MAX

/-- Rust `u32::saturating_add`. -/
def satAddU32 (a b : Nat) : Nat := min (a + b) U32MAX

/-- Rust `u64::saturating_add`. -/
def satAddU64 (a b : Nat) : Nat := min (a + b) (2 ^ 64 - 1)

/-- Rust `u64` wrapping addition (release-profile semantics of `+`). -/
def u64add (a b : Nat) : Nat := (a + b) % 2 ^ 64

/-- Rust `u32::is_power_of_two`, implemented the way the machine does it. -/
def isPow2 (n : Nat) : Bool := n != 0 && (n &&& (n - 1)) == 0

/-! ## Crypto error taxonomy (`src/crypto/error.rs`) -/

inductive CryptoError where
  | contextMismatch
  | noiseBudgetExceeded (consumed capacity required : Nat)
  | overflow (op : String)
  | invalidOperation (reason : String)
  | serialization (detail : String)
  deriving Repr, DecidableEq

/-! ## Noise accounting (`src/crypto/noise.rs`) -/

/-- `NoiseState`: consumed/capacity pair, both Rust `usize`. -/
structure NoiseState where
  consumed : Nat
  capacity : Nat
  deriving Repr, DecidableEq

namespace NoiseState

/-- `NoiseState::new`. -/
def new (capacity : Nat) : NoiseState := ⟨0, capacity⟩

/-- `NoiseState::consume`.  The required total is computed with
`usize::saturating_add` exactly as in the source. -/
def consume (s : NoiseState) (amount : Nat) : Except CryptoError NoiseState :=
  if amount = 0 then .ok s
  else
    let required := satAddUsize s.consumed amount
    if required > s.capacity then
      .error (.noiseBudgetExceeded s.consumed s.capacity amount)
    else .ok { s with consumed := required }

/-- `NoiseState::merge`: element-wise max of the consumed figures followed by
`consume cost`; mismatched capacities are rejected up front. -/
def merge (lhs rhs : NoiseState) (cost : Nat) : Except CryptoError NoiseState :=
  if lhs.capacity ≠ rhs.capacity then
    .error (.noiseBudgetExceeded (max lhs.consumed rhs.consumed)
      (min lhs.capacity rhs.capacity) cost)
  else
    consume ⟨max lhs.consumed rhs.consumed, lhs.capacity⟩ cost

end NoiseState

/-! ## Typed encrypted integers (`src/types/encrypted_int.rs`,
`src/crypto/operations.rs`, `src/types/comparison.rs`)

A ciphertext is modelled by the plaintext value it decrypts to together with
the identity of the owning context (contexts are compared by `Arc::ptr_eq`,
so a plain identifier is enough) and its noise state. -/

def COST_ADDITION : Nat := 4
def COST_SUBTRACTION : Nat := 4
def COST_MULTIPLICATION : Nat := 12
def COST_COMPARISON : Nat := 6

/-- Model of an `EncryptedUintN` wrapper: plaintext value of the cipher,
context identity, and noise state.  The modulus is carried by the operations,
mirroring the width-generic macro in the source. -/
structure EncInt where
  value : Nat
  ctx : Nat
  noise : NoiseState
  deriving Repr, DecidableEq

namespace EncInt

/-- `EncryptedUintN::encrypt`: fresh cipher with a fresh noise budget taken
from the context's `noise_capacity` (`ctxCap`). -/
def encrypt (value ctx ctxCap : Nat) : EncInt :=
  ⟨value, ctx, NoiseState.new ctxCap⟩

/-- `decrypt` through the owning context (infallible in the oracle model). -/
def decrypt (a : EncInt) : Nat := a.value

/-- The shared `binary_op` helper: context check, then the homomorphic
operation on the plaintext values reduced at the width, then noise merge. -/
def binaryOp (mod2w : Nat) (a b : EncInt) (cost : Nat) (f : Nat → Nat → Nat) :
    Except CryptoError EncInt :=
  if a.ctx ≠ b.ctx then .error .contextMismatch
  else
    match NoiseState.merge a.noise b.noise cost with
    | .error e => .error e
    | .ok noise => .ok ⟨f a.value b.value % mod2w, a.ctx, noise⟩

/-- `wrapping_add` at width `2^w = mod2w`. -/
def wrappingAdd (mod2w : Nat) (a b : EncInt) : Except CryptoError EncInt :=
  binaryOp mod2w a b COST_ADDITION (· + ·)

/-- `wrapping_sub`: two's-complement subtraction at the width. -/
def wrappingSub (mod2w : Nat) (a b : EncInt) : Except CryptoError EncInt :=
  binaryOp mod2w a b COST_SUBTRACTION (fun x y => x + (mod2w - y % mod2w))

/-- `wrapping_mul`. -/
def wrappingMul (mod2w : Nat) (a b : EncInt) : Except CryptoError EncInt :=
  binaryOp mod2w a b COST_MULTIPLICATION (· * ·)

/-- `checked_add` (`operations.rs`): decrypt both sides, reject overflow over
the width's max value, then fall through to `wrapping_add`. -/
def checkedAdd (mod2w : Nat) (a b : EncInt) : Except CryptoError EncInt :=
  if a.decrypt + b.decrypt > mod2w - 1 then .error (.overflow "checked_add")
  else wrappingAdd mod2w a b

/-- A comparison operator (`comparison.rs`): context check then noise merge at
`COST_COMPARISON`; the resulting encrypted bool is the plaintext comparison. -/
def cmpOp (a b : EncInt) (f : Nat → Nat → Bool) :
    Except CryptoError (Bool × NoiseState) :=
  if a.ctx ≠ b.ctx then .error .contextMismatch
  else
    match NoiseState.merge a.noise b.noise COST_COMPARISON with
    | .error e => .error e
    | .ok noise => .ok (f a.value b.value, noise)

end EncInt

/-! `EncryptedUint8` specialisation used by claim C8. -/

def EncryptedUint8.wrappingAdd (a b : EncInt) : Except CryptoError EncInt :=
  EncInt.wrappingAdd 256 a b

def EncryptedUint8.wrappingSub (a b : EncInt) : Except CryptoError EncInt :=
  EncInt.wrappingSub 256 a b

def EncryptedUint8.wrappingMul (a b : EncInt) : Except CryptoError EncInt :=
  EncInt.wrappingMul 256 a b

/-! ## Oblivious slab tier (`src/slab.rs`), key tables (`src/keys.rs`),
arena (`src/arena.rs`) and the top-level router (`src/allocator.rs`)

This half of the crate manages its own tfhe keys directly; all ciphertexts
live under the one key set built by `Keys::new`, so the context identity is
dropped and only the plaintext projections remain.  `EncryptedPtr` carries a
single `FheUint64` offset; `EncryptedOption` pairs a payload with an encrypted
flag. -/

/-- Plaintext projection of `EncryptedOption<EncryptedPtr>`. -/
structure EncOptionPtr where
  value : Nat
  isSome : Bool
  deriving Repr, DecidableEq

/-- `EncryptedOption::combine_with`: mux the payload on the right flag, or the
flags together. -/
def EncOptionPtr.combineWith (a b : EncOptionPtr) : EncOptionPtr :=
  { value := if b.isSome then b.value else a.value
    isSome := a.isSome || b.isSome }

/-- `Keys::build_enc_indices_u32`: the table entry for slot `idx` is the
encryption of `idx as u32`. -/
def buildEncIndicesU32 (count : Nat) : List Nat :=
  (List.range count).map (fun idx => idx % 2 ^ 32)

/-- `Keys::build_enc_offsets_u64`: the entry for slot `idx` encrypts
`(idx * block_size) as u64`. -/
def buildEncOffsetsU64 (count blockSize : Nat) : List Nat :=
  (List.range count).map (fun idx => idx * blockSize % 2 ^ 64)

/-- Plaintext projection of `SlabClass`.  `bitmap[i] = true` marks an
allocated slot. -/
structure SlabClass where
  blockSize : Nat
  numBlocks : Nat
  bitmap : List Bool
  baseOffset : Nat
  encIndices : List Nat
  encOffsets : List Nat
  deriving Repr, DecidableEq

namespace SlabClass

/-- `SlabClass::new`: all-free bitmap of `num_blocks` cells. -/
def new (blockSize numBlocks baseOffset : Nat) (encIndices encOffsets : List Nat) :
    SlabClass :=
  { blockSize, numBlocks, bitmap := List.replicate numBlocks false,
    baseOffset, encIndices, encOffsets }

/-- One iteration of the selection pass of `allocate_masked`. -/
def scanStep (s : SlabClass) (m : Bool) (acc : Bool × Nat × Nat) (i : Nat) :
    Bool × Nat × Nat :=
  let selected := acc.1
  let selIdx := acc.2.1
  let selVal := acc.2.2
  let isAllocated := s.bitmap.getD i false
  let isFree := !isAllocated
  let notSelected := !selected
  let canSelect := isFree && notSelected
  let shouldSel := canSelect && m
  let candidate := u64add s.baseOffset (s.encOffsets.getD i 0)
  (selected || shouldSel,
   if shouldSel then s.encIndices.getD i 0 else selIdx,
   if shouldSel then candidate else selVal)

/-- The selection pass of `allocate_masked`: a full scan of `0..num_blocks`
accumulating `(selected, selected_index, selected_ptrval)`. -/
def allocScan (s : SlabClass) (m : Bool) : Bool × Nat × Nat :=
  (List.range s.numBlocks).foldl (s.scanStep m) (false, 0, 0)

/-- One iteration of the write-back pass. -/
def wbStep (s : SlabClass) (selIdx : Nat) (accept : Bool) (bm : List Bool)
    (j : Nat) : List Bool :=
  let isTarget := s.encIndices.getD j 0 == selIdx
  let shouldMark := isTarget && accept
  bm.set j (if shouldMark then true else bm.getD j false)

/-- The write-back pass of `allocate_masked`: every slot is rewritten, a cell
is raised exactly when its index table entry equals the selected index and the
accept mask is up. -/
def writeback (s : SlabClass) (selIdx : Nat) (accept : Bool) : List Bool :=
  (List.range s.numBlocks).foldl (s.wbStep selIdx accept) s.bitmap

/-- `SlabClass::allocate_masked`. -/
def allocateMasked (s : SlabClass) (m : Bool) : SlabClass × EncOptionPtr :=
  let scan := s.allocScan m
  let selectedMask := scan.1 && m
  let bitmap := s.writeback scan.2.1 selectedMask
  ({ s with bitmap }, ⟨scan.2.2, selectedMask⟩)

end SlabClass

/-- Plaintext projection of `Arena` (`src/arena.rs`). -/
structure Arena where
  start : Nat
  stop : Nat
  cursor : Nat
  deriving Repr, DecidableEq

/-- `Arena::allocate`: bump the cursor when the request fits without passing
`end` and without wrapping `u64`. -/
def Arena.allocate (a : Arena) (size : Nat) : Arena × EncOptionPtr :=
  let newCursor := u64add a.cursor size
  let hasSpace := newCursor ≤ a.stop
  let wrapped := newCursor < a.cursor
  let ok := hasSpace && !wrapped
  let ptrVal := if ok then a.cursor else 0
  ({ a with cursor := if ok then newCursor else a.cursor }, ⟨ptrVal, ok⟩)

/-- The fixed slab tier layout of `CryptMalloc::new`. -/
def slabConfigs : List (Nat × Nat) :=
  [(16, 1024), (32, 512), (64, 256), (128, 128), (256, 64)]

/-- Plaintext projection of the top-level `CryptMalloc` allocator. -/
structure CryptMalloc where
  slabs : List SlabClass
  arena : Arena
  deriving Repr, DecidableEq

namespace CryptMalloc

/-- `CryptMalloc::new`: lay the five slab tiers out contiguously from offset 0
and put the arena after them. -/
def new (arenaSize : Nat) : CryptMalloc :=
  let step := fun (acc : Nat × List SlabClass) (cfg : Nat × Nat) =>
    let base := acc.1
    (base + cfg.1 * cfg.2,
     acc.2 ++ [SlabClass.new cfg.1 cfg.2 base
       (buildEncIndicesU32 cfg.2) (buildEncOffsetsU64 cfg.2 cfg.1)])
  let built := slabConfigs.foldl step (0, [])
  { slabs := built.2
    arena := { start := built.1, stop := built.1 + arenaSize, cursor := built.1 } }

/-- The size normalisation step of `CryptMalloc::allocate`:
`force_16 = (s == 0) OR (s < 16)`. -/
def normalizeSize (size : Nat) : Nat :=
  let isZero := size == 0
  let lt16 := decide (size < 16)
  let force16 := isZero || lt16
  if force16 then 16 else size

/-- The five one-hot tier masks computed from the normalised size. -/
def tierMasks (sizeCt : Nat) : List Bool :=
  let fits16 := decide (sizeCt ≤ 16)
  let fits32 := decide (sizeCt ≤ 32)
  let fits64 := decide (sizeCt ≤ 64)
  let fits128 := decide (sizeCt ≤ 128)
  let fits256 := decide (sizeCt ≤ 256)
  let mask0 := fits16
  let mask1 := fits32 && !fits16
  let used01 := fits16 || fits32
  let mask2 := fits64 && !used01
  let used012 := used01 || fits64
  let mask3 := fits128 && !used012
  let used0123 := used012 || fits128
  let mask4 := fits256 && !used0123
  [mask0, mask1, mask2, mask3, mask4]

/-- `CryptMalloc::allocate`: normalise, fan the masks out over the slabs,
gate the arena on `size_ct > 256`, and fold the encrypted options together. -/
def allocate (c : CryptMalloc) (size : Nat) : CryptMalloc × EncOptionPtr :=
  let sizeCt := normalizeSize size
  let masks := tierMasks sizeCt
  let slabStep := fun (acc : List SlabClass × List EncOptionPtr)
      (p : SlabClass × Bool) =>
    let r := p.1.allocateMasked p.2
    (acc.1 ++ [r.1], acc.2 ++ [r.2])
  let fanned := (c.slabs.zip masks).foldl slabStep ([], [])
  let useArena := decide (sizeCt > 256)
  let arenaSize := if useArena then sizeCt else 0
  let arenaOut := c.arena.allocate arenaSize
  let arenaMasked : EncOptionPtr :=
    ⟨arenaOut.2.value, arenaOut.2.isSome && useArena⟩
  let zero : EncOptionPtr := ⟨0, false⟩
  let combined := fanned.2.foldl EncOptionPtr.combineWith zero
  let result := combined.combineWith arenaMasked
  ({ slabs := fanned.1, arena := arenaOut.1 }, result)

end CryptMalloc

/-! ## Encrypted memory block (`src/allocator/block.rs`)

The block checksum is `truncate_to_u32(SHA-256(...))` over the plaintext
projections of eleven fields.  SHA-256 over that fixed field tuple is an
external primitive; it is modelled as an injective function of the hashed
fields, i.e. by the tuple itself. -/

def CURRENT_VERSION : Nat := 1

/-- The value fed to the block checksum: the eleven hashed plaintext fields,
with the `None` fallbacks (`0` for pointers, `u32::MAX` for handles) already
applied.  Standing in for `truncate_to_u32(SHA-256(bytes of these fields))`,
injectively. -/
structure ChecksumVal where
  address : Nat
  size : Nat
  allocated : Bool
  prevPtr : Nat
  nextPtr : Nat
  version : Nat
  selfH : Nat
  prevH : Nat
  nextH : Nat
  prevHC : Nat
  nextHC : Nat
  deriving Repr, DecidableEq

/-- Plaintext projection of the fields of `EncryptedMemoryBlock` other than
the in-memory linked clones.  `size` keeps its noise state because
`absorb_right` merges it through `checked_add`; every other cipher is only
ever freshly encrypted or decrypted.  `ctx`/`ctxCap` are the owning context's
identity and `noise_capacity`. -/
structure BlockCore where
  ctx : Nat
  ctxCap : Nat
  address : Nat
  size : EncInt
  allocated : Bool
  checksum : ChecksumVal
  version : Nat
  prevPointer : Option Nat
  nextPointer : Option Nat
  prevHandleEnc : Option Nat
  nextHandleEnc : Option Nat
  selfHandle : Option Nat
  prevHandle : Option Nat
  nextHandle : Option Nat
  deriving Repr, DecidableEq

/-- A full `EncryptedMemoryBlock`: core fields plus the two non-authoritative
linked clones, which are themselves clone-box snapshots (their own clone slots
are always empty, matching `link_clone_box`). -/
structure MemBlock where
  core : BlockCore
  prevBox : Option BlockCore
  nextBox : Option BlockCore
  deriving Repr, DecidableEq

namespace MemBlock

/-- `compute_checksum_value`: decrypt the fields and hash them with the
documented fallbacks. -/
def computeChecksumValue (c : BlockCore) : ChecksumVal :=
  { address := c.address
    size := c.size.value
    allocated := c.allocated
    prevPtr := c.prevPointer.getD 0
    nextPtr := c.nextPointer.getD 0
    version := c.version
    selfH := c.selfHandle.getD U32MAX
    prevH := c.prevHandle.getD U32MAX
    nextH := c.nextHandle.getD U32MAX
    prevHC := c.prevHandleEnc.getD U32MAX
    nextHC := c.nextHandleEnc.getD U32MAX }

/-- `refresh_checksum`: recompute and re-encrypt the checksum. -/
def refreshChecksum (b : MemBlock) : MemBlock :=
  { b with core := { b.core with checksum := computeChecksumValue b.core } }

/-- `with_layout` (through `from_parts`): encrypt the address and size fresh,
set the bookkeeping defaults and refresh the checksum. -/
def withLayout (ctx ctxCap address size handle : Nat) : MemBlock :=
  let core : BlockCore :=
    { ctx, ctxCap, address
      size := EncInt.encrypt size ctx ctxCap
      allocated := false
      checksum := ⟨0, 0, false, 0, 0, 0, 0, 0, 0, 0, 0⟩
      version := CURRENT_VERSION
      prevPointer := none, nextPointer := none
      prevHandleEnc := none, nextHandleEnc := none
      selfHandle := some handle, prevHandle := none, nextHandle := none }
  refreshChecksum { core := core, prevBox := none, nextBox := none }

/-- `set_prev`: plaintext handle, re-encrypted handle cipher, optional
re-encrypted neighbour address, checksum refresh. -/
def setPrev (b : MemBlock) (handle address : Option Nat) : MemBlock :=
  refreshChecksum { b with core :=
    { b.core with
      prevHandle := handle
      prevHandleEnc := handle
      prevPointer := address } }

/-- `set_next`. -/
def setNext (b : MemBlock) (handle address : Option Nat) : MemBlock :=
  refreshChecksum { b with core :=
    { b.core with
      nextHandle := handle
      nextHandleEnc := handle
      nextPointer := address } }

/-- `mark_allocated`. -/
def markAllocated (b : MemBlock) : MemBlock :=
  refreshChecksum { b with core := { b.core with allocated := true } }

/-- `mark_free`. -/
def markFree (b : MemBlock) : MemBlock :=
  refreshChecksum { b with core := { b.core with allocated := false } }

/-- `validate_integrity`: recompute and compare with the stored (decrypted)
checksum. -/
def validateIntegrity (b : MemBlock) : Bool :=
  computeChecksumValue b.core == b.core.checksum

/-- `EncryptedMemoryBlock::split_block`.  Returns the trailing block and the
post-state of `self`; on error `self` is returned unchanged, matching the
source where both guards run before any mutation. -/
def splitBlock (b : MemBlock) (leadingSize : EncInt) (newHandle newAddress : Nat) :
    Except CryptoError MemBlock × MemBlock :=
  let leadingPlain := leadingSize.decrypt
  let totalPlain := b.core.size.decrypt
  if leadingPlain = 0 ∨ leadingPlain ≥ totalPlain then
    (.error (.invalidOperation "split size invalid"), b)
  else
    let trailingPlain := totalPlain - leadingPlain
    let oldNextHandle := b.core.nextHandle
    let oldNextAddress := b.core.nextPointer
    let selfAddress := b.core.address
    let b1 := refreshChecksum
      { core :=
          { b.core with
            size := leadingSize
            nextHandle := some newHandle
            nextHandleEnc := some newHandle
            nextPointer := none }
        prevBox := b.prevBox
        nextBox := none }
    let t0 := withLayout b.core.ctx b.core.ctxCap newAddress trailingPlain newHandle
    let t1 := setPrev t0 b1.core.selfHandle (some selfAddress)
    let t2 := setNext t1 oldNextHandle oldNextAddress
    let t3 := refreshChecksum { t2 with prevBox := some b1.core, nextBox := none }
    let b2 := refreshChecksum
      { b1 with
        core := { b1.core with nextPointer := some t3.core.address }
        nextBox := some t3.core }
    (.ok t3, b2)

/-- `absorb_right`: context check, `checked_add` on the size ciphers (which
both bounds-checks against `u32::MAX` and merges noise), checksum refresh. -/
def absorbRight (b right : MemBlock) : Except CryptoError MemBlock :=
  if b.core.ctx ≠ right.core.ctx then .error .contextMismatch
  else
    match EncInt.checkedAdd (2 ^ 32) b.core.size right.core.size with
    | .error e => .error e
    | .ok combined => .ok (refreshChecksum { b with core := { b.core with size := combined } })

/-- `link_clone_box`: a snapshot copy with the clone slots dropped. -/
def linkCloneBox (b : MemBlock) : BlockCore := b.core

/-- The serde projection of `EncryptedMemoryBlock`: the only fields bincode
writes (`context` and everything `#[serde(skip)]` are omitted).  Any byte
sequence `deserialize` accepts parses to exactly one such record. -/
structure SerBlock where
  address : Nat
  size : EncInt
  allocated : Bool
  checksum : ChecksumVal
  version : Nat
  prevPointer : Option Nat
  nextPointer : Option Nat
  deriving Repr, DecidableEq

/-- `EncryptedMemoryBlock::serialize`: project the serialized fields. -/
def serializeBlock (b : MemBlock) : SerBlock :=
  { address := b.core.address, size := b.core.size, allocated := b.core.allocated
    checksum := b.core.checksum, version := b.core.version
    prevPointer := b.core.prevPointer, nextPointer := b.core.nextPointer }

/-- `EncryptedMemoryBlock::deserialize`: reconstruct with the skipped fields
at their serde defaults, rebind the given context, then `refresh_checksum`. -/
def deserializeBlock (sb : SerBlock) (ctx ctxCap : Nat) : MemBlock :=
  let core : BlockCore :=
    { ctx, ctxCap, address := sb.address
      size := { sb.size with ctx := ctx }
      allocated := sb.allocated, checksum := sb.checksum, version := sb.version
      prevPointer := sb.prevPointer, nextPointer := sb.nextPointer
      prevHandleEnc := none, nextHandleEnc := none
      selfHandle := none, prevHandle := none, nextHandle := none }
  refreshChecksum { core := core, prevBox := none, nextBox := none }

end MemBlock

/-! ## Context serialization envelope (`src/crypto/tfhe_context.rs`)

`export_keys` serializes `KeyPayload { config, descriptor, client_key,
server_key }` with bincode, prepends a 32-byte SHA-256 checksum of the payload
bytes, and bincode-serializes the resulting `KeyEnvelope`.  `from_serialized`
bincode-deserializes the envelope first and only then re-serializes the
payload and compares checksums.

The payload content is external (tfhe `Config`, `ClientKey`, `ServerKey` are
oracle types): `Config` is fully determined by the `ContextConfig` descriptor
via `build_config`, so the payload is modelled by the descriptor fields (an
enum with three variants and a bool, exactly the data bincode writes as a
`u32` variant tag and a `0/1` byte) plus the two keys as opaque length-
prefixed byte blobs.  bincode v1 fixint semantics: fixed-size integers are
little-endian, `[u8; 32]` is 32 raw bytes, enum tags are `u32` with invalid
variants rejected, bools must be `0` or `1`, and sequences carry a `u64`
length prefix.  SHA-256 over payload bytes is an oracle parameter `hash`. -/

abbrev Byte := Fin 256

/-- The byte flip used by the spec's tamper scenario (`exported[mid] ^= 0xFF`). -/
def byteFlip (b : Byte) : Byte := ⟨255 - b.val, by omega⟩

/-- Flip the byte at position `i` of an envelope. -/
def flipAt (bs : List Byte) (i : Nat) : List Byte :=
  bs.set i (byteFlip (bs.getD i 0))

/-- Write `n` (reduced mod `256^k`) as `k` little-endian bytes. -/
def natToBytesLE : Nat → Nat → List Byte
  | 0, _ => []
  | k + 1, n => ⟨n % 256, by omega⟩ :: natToBytesLE k (n / 256)

/-- Read a little-endian byte string as a natural number. -/
def bytesToNatLE : List Byte → Nat
  | [] => 0
  | b :: rest => b.val + 256 * bytesToNatLE rest

/-- `SecurityLevel` (`tfhe_context.rs`). -/
inductive SecurityLevel where
  | performance
  | balanced
  | secure
  deriving Repr, DecidableEq

/-- The bincode enum variant tag. -/
def SecurityLevel.tag : SecurityLevel → Nat
  | .performance => 0
  | .balanced => 1
  | .secure => 2

/-- Model of `KeyPayload`: the descriptor data plus the opaque key blobs. -/
structure KeyPayload where
  level : SecurityLevel
  compression : Bool
  clientKey : List Byte
  serverKey : List Byte
  deriving Repr, DecidableEq

/-- `TfheContextError` (string details elided). -/
inductive TfheContextError where
  | keyGeneration
  | encryption
  | serialization
  | integrityViolation
  | lockPoisoned
  deriving Repr, DecidableEq

/-- bincode of the `SecurityLevel` enum: `u32` little-endian variant tag. -/
def serLevel (l : SecurityLevel) : List Byte := natToBytesLE 4 l.tag

/-- bincode of a bool: one byte, `0` or `1`. -/
def serBool (b : Bool) : List Byte := [if b then (1 : Byte) else 0]

/-- bincode of an opaque key blob: `u64` length prefix then the bytes. -/
def serBlob (ks : List Byte) : List Byte := natToBytesLE 8 ks.length ++ ks

/-- bincode of the payload: fields in declaration order. -/
def serPayload (p : KeyPayload) : List Byte :=
  serLevel p.level ++ serBool p.compression ++
    serBlob p.clientKey ++ serBlob p.serverKey

/-- `TfheContext::export_keys`: checksum (32 bytes of `hash` over the payload
bytes) followed by the payload bytes. -/
def exportKeys (hash : List Byte → List Byte) (p : KeyPayload) : List Byte :=
  hash (serPayload p) ++ serPayload p

/-- Consume exactly `n` bytes. -/
def readBytes (n : Nat) (bs : List Byte) : Option (List Byte × List Byte) :=
  if n ≤ bs.length then some (bs.take n, bs.drop n) else none

/-- Parse the enum tag; invalid variants are a bincode error. -/
def parseLevel (bs : List Byte) : Option (SecurityLevel × List Byte) :=
  match readBytes 4 bs with
  | none => none
  | some (pre, rest) =>
    match bytesToNatLE pre with
    | 0 => some (.performance, rest)
    | 1 => some (.balanced, rest)
    | 2 => some (.secure, rest)
    | _ => none

/-- Parse a bool byte; bincode rejects anything but `0` and `1`. -/
def parseBool (bs : List Byte) : Option (Bool × List Byte) :=
  match bs with
  | [] => none
  | b :: rest =>
    if b.val = 0 then some (false, rest)
    else if b.val = 1 then some (true, rest)
    else none

/-- Parse a length-prefixed blob. -/
def parseBlob (bs : List Byte) : Option (List Byte × List Byte) :=
  match readBytes 8 bs with
  | none => none
  | some (lenBytes, rest) => readBytes (bytesToNatLE lenBytes) rest

/-- Parse the payload fields in order. -/
def parsePayload (bs : List Byte) : Option (KeyPayload × List Byte) :=
  match parseLevel bs with
  | none => none
  | some (level, r1) =>
    match parseBool r1 with
    | none => none
    | some (compression, r2) =>
      match parseBlob r2 with
      | none => none
      | some (clientKey, r3) =>
        match parseBlob r3 with
        | none => none
        | some (serverKey, r4) =>
          some (⟨level, compression, clientKey, serverKey⟩, r4)

/-- Parse a `KeyEnvelope`: 32 checksum bytes then the payload.  Trailing
bytes are tolerated, as by bincode's legacy `deserialize`. -/
def parseEnvelope (bs : List Byte) :
    Option (List Byte × KeyPayload × List Byte) :=
  match readBytes 32 bs with
  | none => none
  | some (checksum, rest) =>
    match parsePayload rest with
    | none => none
    | some (payload, r2) => some (checksum, payload, r2)

/-- `TfheContext::from_serialized`: deserialize the envelope (any bincode
failure surfaces as `Serialization`), re-serialize the payload, hash it, and
only then compare with the stored checksum. -/
def fromSerialized (hash : List Byte → List Byte) (bs : List Byte) :
    Except TfheContextError KeyPayload :=
  match parseEnvelope bs with
  | none => .error .serialization
  | some (checksum, payload, _) =>
    let payloadBytes := serPayload payload
    let expected := hash payloadBytes
    if checksum ≠ expected then .error .integrityViolation
    else .ok payload

/-! ## Virtual memory pool (`src/allocator/pool.rs`)

Every mutator is modelled as a function returning its `Result` together with
the post-state: in the source the mutators work through a write guard, so a
`?`-propagated error keeps whatever mutations were already applied.  SHA-256
over the plaintext metadata triple is modelled injectively by the triple. -/

inductive PoolError where
  | invalidSize
  | invalidAlignment
  | invalidOperation (reason : String)
  | integrityViolation
  | outOfMemory
  | handleSpaceExhausted
  | lockPoisoned
  | unknownHandle
  | doubleFree
  | crypto (e : CryptoError)
  deriving Repr, DecidableEq

/-- `BlockRecord`: the control-plane record the pool keeps per handle. -/
structure BlockRecord where
  handle : Nat
  block : MemBlock
  sizePlain : Nat
  startAddrPlain : Nat
  alignment : Nat
  free : Bool
  prev : Option Nat
  next : Option Nat
  hits : Nat
  deriving Repr, DecidableEq

/-- `PoolState`.  `vacantHandles` is the recycled-handle stack; `Vec::push`
/`Vec::pop` work at one end, modelled by the head of the list. -/
structure PoolState where
  blocks : List (Option BlockRecord)
  freeList : List Nat
  vacantHandles : List Nat
  accessLog : List (Nat × Nat)
  baseAddress : Nat
  usedBytes : Nat
  allocations : Nat
  deallocations : Nat
  nextHandle : Nat
  timestamp : Nat
  deriving Repr, DecidableEq

namespace PoolState

/-- `PoolState::new`. -/
def new (baseAddress : Nat) : PoolState :=
  { blocks := [], freeList := [], vacantHandles := [], accessLog := []
    baseAddress, usedBytes := 0, allocations := 0, deallocations := 0
    nextHandle := 0, timestamp := 0 }

/-- Fetch the record stored at a handle's slot. -/
def getRec (s : PoolState) (h : Nat) : Option BlockRecord :=
  s.blocks.getD h none

/-- `ensure_slot`: grow the sparse array with `None` up to the index. -/
def ensureSlot (blocks : List (Option BlockRecord)) (h : Nat) :
    List (Option BlockRecord) :=
  if h < blocks.length then blocks
  else blocks ++ List.replicate (h + 1 - blocks.length) none

/-- Apply an in-place update to the record at a handle, if present
(the `if let Some(r) = blocks[h].as_mut()` pattern). -/
def updBlock (s : PoolState) (h : Nat) (f : BlockRecord → BlockRecord) :
    PoolState :=
  match s.getRec h with
  | some r => { s with blocks := s.blocks.set h (some (f r)) }
  | none => s

/-- `alloc_handle`: recycle from the vacant stack first, then take the next
counter value while it still fits `u32`. -/
def allocHandle (s : PoolState) : Except PoolError Nat × PoolState :=
  match s.vacantHandles with
  | h :: rest => (.ok h, { s with vacantHandles := rest })
  | [] =>
    if s.nextHandle > U32MAX then (.error .handleSpaceExhausted, s)
    else (.ok s.nextHandle, { s with nextHandle := s.nextHandle + 1 })

/-- `release_handle`. -/
def releaseHandle (s : PoolState) (h : Nat) : PoolState :=
  { s with vacantHandles := h :: s.vacantHandles }

/-- `insert_block`: `ensure_slot` then store. -/
def insertBlock (s : PoolState) (r : BlockRecord) : PoolState :=
  { s with blocks := (ensureSlot s.blocks r.handle).set r.handle (some r) }

/-- `insert_into_free_list`: append unless already present. -/
def insertIntoFreeList (s : PoolState) (h : Nat) : PoolState :=
  if s.freeList.contains h then s else { s with freeList := s.freeList ++ [h] }

/-- `remove_from_free_list` (`Vec::retain`). -/
def removeFromFreeList (s : PoolState) (h : Nat) : PoolState :=
  { s with freeList := s.freeList.filter (fun c => c ≠ h) }

/-- The loop body of `find_fit` over the free list: head padding from the
alignment bitmask, first fit on `available ≥ padding + required`.  The `?` on
a missing record aborts the whole scan. -/
def findFitGo (s : PoolState) (size alignment : Nat) :
    List Nat → Option (Nat × Nat)
  | [] => none
  | h :: rest =>
    match s.getRec h with
    | none => none
    | some record =>
      let mask := alignment - 1
      let misalign := record.startAddrPlain &&& mask
      let padding := if misalign = 0 then 0 else alignment - misalign
      if record.sizePlain ≥ padding + size then some (h, padding)
      else findFitGo s size alignment rest

/-- `find_fit`. -/
def findFit (s : PoolState) (size alignment : Nat) : Option (Nat × Nat) :=
  findFitGo s size alignment s.freeList

/-- `rebuild_box_links`: snapshot every block core, then point each record's
clone slots at its neighbours' snapshots. -/
def rebuildBoxLinks (s : PoolState) : PoolState :=
  let snaps := s.blocks.map (Option.map (fun r => r.block.linkCloneBox))
  { s with blocks := s.blocks.map (Option.map (fun r =>
      { r with block :=
          { r.block with
            prevBox := r.prev.bind (fun h => snaps.getD h none)
            nextBox := r.next.bind (fun h => snaps.getD h none) } })) }

/-- `PoolState::split_block`: validate, allocate the trailing handle, split
the encrypted block, wire the record links, free-list the trailing half. -/
def splitBlockP (ctx ctxCap : Nat) (handle leadingSize : Nat) (s : PoolState) :
    Except PoolError Nat × PoolState :=
  match s.getRec handle with
  | none => (.error .unknownHandle, s)
  | some record0 =>
    if ¬ record0.free then (.error (.invalidOperation "block not free"), s)
    else if leadingSize = 0 ∨ leadingSize ≥ record0.sizePlain then
      (.error .invalidSize, s)
    else
      match s.allocHandle with
      | (.error e, s1) => (.error e, s1)
      | (.ok newHandle, s1) =>
        let leadingSizeEnc := EncInt.encrypt leadingSize ctx ctxCap
        match s1.getRec handle with
        | none => (.error .unknownHandle, s1)
        | some record =>
          let trailingAddress := u64add record.startAddrPlain leadingSize
          let trailingSize := record.sizePlain - leadingSize
          let oldNext := record.next
          let leadingAlignment := record.alignment
          let leadingStart := record.startAddrPlain
          match MemBlock.splitBlock record.block leadingSizeEnc newHandle
              trailingAddress with
          | (.error e, _) =>
            -- the block-level guards precede any mutation, so `self` is intact
            (.error (.crypto e), s1)
          | (.ok trailingBlock, selfB1) =>
            let selfB2 := MemBlock.setNext selfB1 (some newHandle)
              (some trailingAddress)
            let record1 :=
              { record with
                block := selfB2
                sizePlain := leadingSize
                next := some newHandle }
            let s2 := { s1 with blocks := s1.blocks.set handle (some record1) }
            let trailingRecord : BlockRecord :=
              { handle := newHandle
                block := trailingBlock
                sizePlain := trailingSize
                startAddrPlain := trailingAddress
                alignment := leadingAlignment
                free := true
                prev := some handle
                next := oldNext
                hits := 0 }
            let grown := (ensureSlot s2.blocks newHandle).set newHandle
              (some trailingRecord)
            let s3 := { s2 with blocks := grown }
            let s4 := s3.updBlock newHandle (fun tr =>
              let b := MemBlock.setPrev tr.block (some handle) (some leadingStart)
              { tr with block := b })
            let s5 :=
              match oldNext with
              | none => s4.updBlock newHandle (fun tr =>
                  { tr with block := MemBlock.setNext tr.block none none })
              | some nh =>
                let nextAddr :=
                  (s4.getRec nh).map (fun r : BlockRecord => r.startAddrPlain)
                s4.updBlock newHandle (fun tr =>
                  let b := MemBlock.setNext tr.block (some nh) nextAddr
                  { tr with block := b })
            let s6 :=
              match oldNext with
              | none => s5
              | some nh => s5.updBlock nh (fun nr =>
                  let b := MemBlock.setPrev nr.block (some newHandle)
                    (some trailingAddress)
                  { nr with prev := some newHandle, block := b })
            let s7 := s6.insertIntoFreeList newHandle
            (.ok newHandle, s7.rebuildBoxLinks)

/-- `PoolState::merge_adjacent`.  The right record is `take`n up front; the
two guard failures restore it, a later failure does not. -/
def mergeAdjacent (s : PoolState) (left right : Nat) :
    Except PoolError Nat × PoolState :=
  match s.getRec right with
  | none => (.error .unknownHandle, s)
  | some rightRecord =>
    let s1 := { s with blocks := s.blocks.set right none }
    let leftIsFree := ((s1.getRec left).map (·.free)).getD false
    if !leftIsFree || !rightRecord.free then
      (.error (.invalidOperation "merge requires free blocks"),
       { s1 with blocks := s1.blocks.set right (some rightRecord) })
    else
      let leftEnd := ((s1.getRec left).map
        (fun r => u64add r.startAddrPlain r.sizePlain)).getD s1.baseAddress
      if leftEnd ≠ rightRecord.startAddrPlain then
        (.error (.invalidOperation "blocks not adjacent"),
         { s1 with blocks := s1.blocks.set right (some rightRecord) })
      else
        match s1.getRec left with
        | none => (.error .unknownHandle, s1)
        | some leftRecord =>
          match MemBlock.absorbRight leftRecord.block rightRecord.block with
          | .error e => (.error (.crypto e), s1)
          | .ok leftB1 =>
            let newSize := satAddU32 leftRecord.sizePlain rightRecord.sizePlain
            let nextPointerPlain := rightRecord.block.core.nextPointer
            let leftB2 := MemBlock.setNext leftB1 rightRecord.next
              nextPointerPlain
            let leftRecord1 :=
              { leftRecord with
                block := leftB2
                sizePlain := newSize
                next := rightRecord.next }
            let s2 := { s1 with blocks := s1.blocks.set left (some leftRecord1) }
            let leftStart := leftRecord.startAddrPlain
            let s3 :=
              match rightRecord.next with
              | none => s2
              | some nh => s2.updBlock nh (fun nr =>
                  { nr with
                    prev := some left
                    block := MemBlock.setPrev nr.block (some left)
                      (some leftStart) })
            let s4 := s3.removeFromFreeList right
            let s5 := { s4 with blocks := s4.blocks.set right none }
            let s6 := s5.releaseHandle right
            (.ok left, s6.rebuildBoxLinks)

end PoolState

/-- Decrypted projections of the pool's encrypted metadata mirror. -/
structure PoolMeta where
  capacityVal : Nat
  baseVal : Nat
  minAlignment : Nat
  deriving Repr, DecidableEq

/-- `PlainMetadata`. -/
structure PlainMeta where
  totalBytes : Nat
  baseAddress : Nat
  minAlignment : Nat
  deriving Repr, DecidableEq

/-- SHA-256 over the little-endian bytes of the plaintext triple, modelled
injectively by the triple itself. -/
def computeDigest (p : PlainMeta) : Nat × Nat × Nat :=
  (p.totalBytes, p.baseAddress, p.minAlignment)

/-- `VirtualMemoryPool`. -/
structure Pool where
  ctx : Nat
  ctxCap : Nat
  metadata : PoolMeta
  plain : PlainMeta
  state : PoolState
  digest : Nat × Nat × Nat
  deriving Repr, DecidableEq

namespace Pool

/-- `verify_integrity`: decrypt the mirror, compare with the plaintext
triple, recompute the digest. -/
def verifyIntegrity (p : Pool) : Except PoolError Unit :=
  if p.metadata.capacityVal ≠ p.plain.totalBytes ∨
      p.metadata.baseVal ≠ p.plain.baseAddress then
    .error .integrityViolation
  else if p.metadata.minAlignment ≠ p.plain.minAlignment then
    .error .integrityViolation
  else if computeDigest p.plain ≠ p.digest then .error .integrityViolation
  else .ok ()

/-- `allocate_block`. -/
def allocateBlock (p : Pool) (size alignment : Nat) :
    Except PoolError Nat × PoolState :=
  if size = 0 then (.error .invalidSize, p.state)
  else
    match p.verifyIntegrity with
    | .error e => (.error e, p.state)
    | .ok _ =>
      let s := p.state
      let reqAlignment := max alignment p.plain.minAlignment
      if reqAlignment = 0 ∨ ¬ isPow2 reqAlignment then
        (.error .invalidAlignment, s)
      else
        match s.findFit size reqAlignment with
        | none => (.error .outOfMemory, s)
        | some (candidate, headPadding) =>
          let firstSplit :=
            if headPadding > 0 then
              if headPadding > U32MAX then
                (.error (.invalidOperation "padding exceeds 32-bit range"), s)
              else PoolState.splitBlockP p.ctx p.ctxCap candidate headPadding s
            else (.ok candidate, s)
          match firstSplit with
          | (.error e, s1) => (.error e, s1)
          | (.ok target, s1) =>
            let secondSplit :=
              if ((s1.getRec target).map
                  (fun r => decide (r.sizePlain > size))).getD false then
                PoolState.splitBlockP p.ctx p.ctxCap target size s1
              else (.ok target, s1)
            match secondSplit with
            | (.error e, s2) => (.error e, s2)
            | (.ok _, s2) =>
              match s2.getRec target with
              | none => (.error .unknownHandle, s2)
              | some record =>
                if ¬ record.free then
                  (.error (.invalidOperation "block already allocated"), s2)
                else
                  let record1 :=
                    { record with
                      free := false
                      alignment := reqAlignment
                      hits := 0
                      block := MemBlock.markAllocated record.block }
                  let sizePlain := record.sizePlain
                  let s3 :=
                    { s2 with blocks := s2.blocks.set target (some record1) }
                  let s4 := s3.removeFromFreeList target
                  let s5 := { s4 with
                    usedBytes := satAddU32 s4.usedBytes sizePlain
                    allocations := s4.allocations + 1 }
                  (.ok target, s5.rebuildBoxLinks)

/-- `release_block`. -/
def releaseBlock (p : Pool) (handle : Nat) :
    Except PoolError Unit × PoolState :=
  match p.verifyIntegrity with
  | .error e => (.error e, p.state)
  | .ok _ =>
    let s := p.state
    match s.getRec handle with
    | none => (.error .unknownHandle, s)
    | some record =>
      if record.free then (.error .doubleFree, s)
      else
        let record1 :=
          { record with
            free := true
            block := MemBlock.markFree record.block }
        let sizePlain := record.sizePlain
        let s1 := { s with blocks := s.blocks.set handle (some record1) }
        let s2 :=
          { s1 with
            usedBytes := s1.usedBytes - sizePlain
            deallocations := s1.deallocations + 1 }
        let mergeLeft : Except PoolError Nat × PoolState :=
          match (s2.getRec handle).bind (·.prev) with
          | none => (.ok handle, s2)
          | some prevHandle =>
            if ((s2.getRec prevHandle).map (·.free)).getD false then
              s2.mergeAdjacent prevHandle handle
            else (.ok handle, s2)
        match mergeLeft with
        | (.error e, s3) => (.error e, s3)
        | (.ok current, s3) =>
          let mergeRight : Except PoolError Nat × PoolState :=
            match (s3.getRec current).bind (·.next) with
            | none => (.ok current, s3)
            | some nextHandle =>
              if ((s3.getRec nextHandle).map (·.free)).getD false then
                s3.mergeAdjacent current nextHandle
              else (.ok current, s3)
          match mergeRight with
          | (.error e, s4) => (.error e, s4)
          | (.ok _, s4) =>
            let s5 := s4.insertIntoFreeList current
            (.ok (), s5.rebuildBoxLinks)

/-- `record_access`: note the absence of any integrity check; the timestamp
is bumped before the handle is even looked up. -/
def recordAccess (p : Pool) (handle : Nat) :
    Except PoolError Unit × PoolState :=
  let s := p.state
  let s1 := { s with timestamp := satAddU64 s.timestamp 1 }
  let ts := s1.timestamp
  match s1.getRec handle with
  | none => (.error .unknownHandle, s1)
  | some record =>
    let record1 := { record with hits := satAddU64 record.hits 1 }
    let address := record.block.core.address
    let s2 := { s1 with blocks := s1.blocks.set handle (some record1) }
    let s3 := { s2 with accessLog := s2.accessLog ++ [(address, ts)] }
    (.ok (), s3.rebuildBoxLinks)

end Pool

/-- `VirtualMemoryPoolBuilder::build`. -/
def buildPool (ctx ctxCap totalBytes baseAddress minAlignment : Nat) :
    Except PoolError Pool :=
  if totalBytes < 4 * 1024 ∨ totalBytes > 2 ^ 30 then .error .invalidSize
  else if minAlignment = 0 ∨ ¬ isPow2 minAlignment then .error .invalidAlignment
  else
    let metadata : PoolMeta := ⟨totalBytes, baseAddress, minAlignment⟩
    let plain : PlainMeta := ⟨totalBytes, baseAddress, minAlignment⟩
    let digest := computeDigest plain
    let s0 := PoolState.new baseAddress
    match s0.allocHandle with
    | (.error e, _) => .error e
    | (.ok initialHandle, s1) =>
      let b0 := MemBlock.withLayout ctx ctxCap baseAddress totalBytes
        initialHandle
      let b1 := MemBlock.setPrev b0 none none
      let b2 := MemBlock.setNext b1 none none
      let record : BlockRecord :=
        { handle := initialHandle, block := b2, sizePlain := totalBytes
          startAddrPlain := baseAddress, alignment := minAlignment
          free := true, prev := none, next := none, hits := 0 }
      let s2 := s1.insertBlock record
      let s3 := s2.insertIntoFreeList initialHandle
      let s4 := s3.rebuildBoxLinks
      let pool : Pool := { ctx, ctxCap, metadata, plain, state := s4, digest }
      match pool.verifyIntegrity with
      | .error e => .error e
      | .ok _ => .ok pool

/-- The operations claim C1 quantifies over. -/
inductive PoolOp where
  | alloc (size alignment : Nat)
  | release (handle : Nat)
  deriving Repr, DecidableEq

/-- Run one operation, keeping the result only when it succeeds. -/
def runOpOk (p : Pool) : PoolOp → Option Pool
  | .alloc size alignment =>
    match p.allocateBlock size alignment with
    | (.ok _, s) => some { p with state := s }
    | (.error _, _) => none
  | .release handle =>
    match p.releaseBlock handle with
    | (.ok _, s) => some { p with state := s }
    | (.error _, _) => none

/-- Run a sequence of operations that all succeed. -/
def runOpsOk (p : Pool) : List PoolOp → Option Pool
  | [] => some p
  | op :: rest =>
    match runOpOk p op with
    | none => none
    | some p1 => runOpsOk p1 rest

/-! # Theorems -/

/-! ## Block checksum basics -/

theorem MemBlock.computeChecksumValue_ignores_checksum (c : BlockCore) (cs : ChecksumVal) :
    MemBlock.computeChecksumValue { c with checksum := cs } =
      MemBlock.computeChecksumValue c := rfl

/-- A block whose last construction step refreshed the checksum passes
`validate_integrity`. -/
theorem MemBlock.validate_refreshChecksum (b : MemBlock) :
    (MemBlock.refreshChecksum b).validateIntegrity = true := by
  simp only [MemBlock.refreshChecksum, MemBlock.validateIntegrity]
  show (MemBlock.computeChecksumValue b.core ==
    MemBlock.computeChecksumValue b.core) = true
  simp

/-- C10: every byte sequence accepted by `EncryptedMemoryBlock::deserialize`
yields a block that passes `validate_integrity`, because `deserialize` ends in
`refresh_checksum`, which recomputes and re-encrypts the checksum from the
deserialized field values; the stored checksum is never compared, so two
serialized records differing only in the checksum field deserialize to the
same block and no tampering with the serialized fields is detected by the
block checksum. -/
theorem deserialize_always_validates (sb : MemBlock.SerBlock) (ctx ctxCap : Nat) :
    (MemBlock.deserializeBlock sb ctx ctxCap).validateIntegrity = true ∧
    ∀ cs : ChecksumVal,
      MemBlock.deserializeBlock { sb with checksum := cs } ctx ctxCap =
        MemBlock.deserializeBlock sb ctx ctxCap := by
  refine ⟨MemBlock.validate_refreshChecksum _, fun cs => ?_⟩
  simp [MemBlock.deserializeBlock, MemBlock.refreshChecksum,
    MemBlock.computeChecksumValue]

/-- C9: `split_block` with `0 < leading_size < total_size` leaves `self` at
its old address with the leading size, next-linked (handle and address) to
the returned trailing block; the trailing block covers the remaining
`total - leading` bytes at the caller-provided address, points back at
`self`, inherits `self`'s prior next-link, and both halves pass
`validate_integrity`.  With `leading_size = 0` or `leading_size ≥ total_size`
it fails `InvalidOperation` and `self` is unchanged. -/
theorem split_block_spec (b : MemBlock) (leading : EncInt)
    (newHandle newAddress : Nat) :
    (0 < leading.value → leading.value < b.core.size.value →
      ∃ t b', MemBlock.splitBlock b leading newHandle newAddress = (.ok t, b') ∧
        b'.core.address = b.core.address ∧
        b'.core.size = leading ∧
        b'.core.nextHandle = some newHandle ∧
        b'.core.nextPointer = some newAddress ∧
        t.core.address = newAddress ∧
        t.core.size.value = b.core.size.value - leading.value ∧
        t.core.selfHandle = some newHandle ∧
        t.core.prevHandle = b.core.selfHandle ∧
        t.core.prevPointer = some b.core.address ∧
        t.core.nextHandle = b.core.nextHandle ∧
        t.core.nextPointer = b.core.nextPointer ∧
        t.validateIntegrity = true ∧ b'.validateIntegrity = true) ∧
    ((leading.value = 0 ∨ b.core.size.value ≤ leading.value) →
      MemBlock.splitBlock b leading newHandle newAddress =
        (.error (.invalidOperation "split size invalid"), b)) := by
  constructor
  · intro hpos hlt
    have hguard : ¬ (leading.value = 0 ∨ leading.value ≥ b.core.size.value) := by
      omega
    simp only [MemBlock.splitBlock, EncInt.decrypt]
    rw [if_neg hguard]
    exact ⟨_, _, rfl, rfl, rfl, rfl, rfl, rfl, rfl, rfl, rfl, rfl, rfl, rfl,
      MemBlock.validate_refreshChecksum _, MemBlock.validate_refreshChecksum _⟩
  · intro hbad
    have hguard : leading.value = 0 ∨ leading.value ≥ b.core.size.value := hbad
    simp only [MemBlock.splitBlock, EncInt.decrypt]
    rw [if_pos hguard]

/-- Witness for C9 at the spec's S2 scenario: block at 0x2000, size 256,
handle 10, split with leading 128 into new handle 11 at 0x2080. -/
theorem split_block_spec_witness :
    0 < (EncInt.encrypt 128 0 48).value ∧
    (EncInt.encrypt 128 0 48).value <
      (MemBlock.withLayout 0 48 8192 256 10).core.size.value ∧
    ∃ t b', MemBlock.splitBlock (MemBlock.withLayout 0 48 8192 256 10)
        (EncInt.encrypt 128 0 48) 11 8320 = (.ok t, b') ∧
      b'.core.address = (MemBlock.withLayout 0 48 8192 256 10).core.address ∧
      b'.core.size = EncInt.encrypt 128 0 48 ∧
      b'.core.nextHandle = some 11 ∧
      b'.core.nextPointer = some 8320 ∧
      t.core.address = 8320 ∧
      t.core.size.value =
        (MemBlock.withLayout 0 48 8192 256 10).core.size.value -
          (EncInt.encrypt 128 0 48).value ∧
      t.core.selfHandle = some 11 ∧
      t.core.prevHandle = (MemBlock.withLayout 0 48 8192 256 10).core.selfHandle ∧
      t.core.prevPointer =
        some (MemBlock.withLayout 0 48 8192 256 10).core.address ∧
      t.core.nextHandle = (MemBlock.withLayout 0 48 8192 256 10).core.nextHandle ∧
      t.core.nextPointer =
        (MemBlock.withLayout 0 48 8192 256 10).core.nextPointer ∧
      t.validateIntegrity = true ∧ b'.validateIntegrity = true :=
  ⟨by decide, by decide,
    (split_block_spec (MemBlock.withLayout 0 48 8192 256 10)
      (EncInt.encrypt 128 0 48) 11 8320).1 (by decide) (by decide)⟩

/-! ## Noise accounting -/

/-- A successful `NoiseState::merge` with positive cost and non-saturating
capacity strictly increases both operands' consumed figures. -/
theorem NoiseState.merge_ok_strict (lhs rhs : NoiseState) (cost : Nat)
    (n : NoiseState) (hlt : lhs.capacity < USIZE_MAX) (hc : 0 < cost)
    (h : NoiseState.merge lhs rhs cost = .ok n) :
    lhs.consumed < n.consumed ∧ rhs.consumed < n.consumed := by
  unfold NoiseState.merge NoiseState.consume at h
  by_cases hcap : lhs.capacity ≠ rhs.capacity
  · simp [hcap] at h
  · rw [if_neg hcap] at h
    rw [if_neg (by omega : ¬ cost = 0)] at h
    simp only [satAddUsize] at h
    by_cases hover : min (max lhs.consumed rhs.consumed + cost) USIZE_MAX >
        lhs.capacity
    · rw [if_pos hover] at h
      exact absurd h (by simp)
    · rw [if_neg hover] at h
      have hn : n = ⟨min (max lhs.consumed rhs.consumed + cost) USIZE_MAX,
          lhs.capacity⟩ := by
        cases h
        rfl
      subst hn
      simp only [not_lt] at hover
      constructor <;> · simp only []; omega

/-- C7 (amended): with a common capacity strictly below `usize::MAX` and
operands respecting `consumed ≤ capacity`, `NoiseState::merge` yields
`max(lhs.consumed, rhs.consumed) + cost` at the common capacity and fails
`NoiseBudgetExceeded` when that sum exceeds the capacity; consequently every
successful binary ciphertext operation (`binary_op` with its positive cost,
and the comparison operators) yields noise strictly above both operands'. -/
theorem noise_merge_spec (lhs rhs : NoiseState) (cost : Nat)
    (hcap : lhs.capacity = rhs.capacity)
    (hlt : lhs.capacity < USIZE_MAX)
    (hl : lhs.consumed ≤ lhs.capacity) (hr : rhs.consumed ≤ rhs.capacity) :
    (max lhs.consumed rhs.consumed + cost ≤ lhs.capacity →
      NoiseState.merge lhs rhs cost =
        .ok ⟨max lhs.consumed rhs.consumed + cost, lhs.capacity⟩) ∧
    (lhs.capacity < max lhs.consumed rhs.consumed + cost →
      NoiseState.merge lhs rhs cost =
        .error (.noiseBudgetExceeded (max lhs.consumed rhs.consumed)
          lhs.capacity cost)) ∧
    (∀ (mod2w c : Nat) (f : Nat → Nat → Nat) (a b r : EncInt),
      a.noise = lhs → b.noise = rhs → 0 < c →
      EncInt.binaryOp mod2w a b c f = .ok r →
      lhs.consumed < r.noise.consumed ∧ rhs.consumed < r.noise.consumed) ∧
    (∀ (f : Nat → Nat → Bool) (a b : EncInt) (res : Bool × NoiseState),
      a.noise = lhs → b.noise = rhs →
      EncInt.cmpOp a b f = .ok res →
      lhs.consumed < res.2.consumed ∧ rhs.consumed < res.2.consumed) := by
  refine ⟨?_, ?_, ?_, ?_⟩
  · intro hle
    unfold NoiseState.merge NoiseState.consume
    rw [if_neg (by omega : ¬ lhs.capacity ≠ rhs.capacity)]
    by_cases hc : cost = 0
    · subst hc
      have hz : max lhs.consumed rhs.consumed + 0 = max lhs.consumed rhs.consumed := by
        omega
      rw [hz]
      simp
    · rw [if_neg hc]
      simp only [satAddUsize]
      have hmin : min (max lhs.consumed rhs.consumed + cost) USIZE_MAX =
          max lhs.consumed rhs.consumed + cost := by omega
      rw [hmin, if_neg (by omega)]
  · intro hgt
    unfold NoiseState.merge NoiseState.consume
    rw [if_neg (by omega : ¬ lhs.capacity ≠ rhs.capacity)]
    have hc : ¬ cost = 0 := by omega
    rw [if_neg hc]
    simp only [satAddUsize]
    rw [if_pos (by omega)]
  · intro mod2w c f a b r ha hb hc h
    unfold EncInt.binaryOp at h
    by_cases hctx : a.ctx ≠ b.ctx
    · simp [hctx] at h
    · rw [if_neg hctx] at h
      cases hm : NoiseState.merge a.noise b.noise c with
      | error e => rw [hm] at h; exact absurd h (by simp)
      | ok n =>
        rw [hm] at h
        have hr' : r.noise = n := by cases h; rfl
        rw [hr']
        rw [ha, hb] at hm
        exact NoiseState.merge_ok_strict lhs rhs c n hlt hc hm
  · intro f a b res ha hb h
    unfold EncInt.cmpOp at h
    by_cases hctx : a.ctx ≠ b.ctx
    · simp [hctx] at h
    · rw [if_neg hctx] at h
      cases hm : NoiseState.merge a.noise b.noise COST_COMPARISON with
      | error e => rw [hm] at h; exact absurd h (by simp)
      | ok n =>
        rw [hm] at h
        have hres : res.2 = n := by cases h; rfl
        rw [hres]
        rw [ha, hb] at hm
        exact NoiseState.merge_ok_strict lhs rhs COST_COMPARISON n hlt
          (by decide) hm

/-- Witness for C7 (amended) at a concrete pair of noise states. -/
theorem noise_merge_spec_witness :
    ((⟨10, 48⟩ : NoiseState).capacity = (⟨3, 48⟩ : NoiseState).capacity) ∧
    ((⟨10, 48⟩ : NoiseState).capacity < USIZE_MAX) ∧
    (max (10 : Nat) 3 + 4 ≤ 48 →
      NoiseState.merge ⟨10, 48⟩ ⟨3, 48⟩ 4 = .ok ⟨max (10 : Nat) 3 + 4, 48⟩) := by
  refine ⟨rfl, by decide, ?_⟩
  have h := noise_merge_spec ⟨10, 48⟩ ⟨3, 48⟩ 4 rfl (by decide) (by decide)
    (by decide)
  exact h.1

/-- C7 is false as literally stated: at the `usize` saturation boundary
(`capacity = usize::MAX`, both operands fully consumed) the saturating
addition inside `consume` clamps, so `merge` succeeds even though
`max(consumed) + cost` exceeds the capacity, and a successful `wrapping_add`
leaves `consumed` unchanged rather than strictly increased. -/
theorem noise_merge_saturation_counterexample :
    NoiseState.merge ⟨USIZE_MAX, USIZE_MAX⟩ ⟨USIZE_MAX, USIZE_MAX⟩ 4 =
      .ok ⟨USIZE_MAX, USIZE_MAX⟩ ∧
    max USIZE_MAX USIZE_MAX + 4 > USIZE_MAX ∧
    EncryptedUint8.wrappingAdd ⟨1, 0, ⟨USIZE_MAX, USIZE_MAX⟩⟩
        ⟨1, 0, ⟨USIZE_MAX, USIZE_MAX⟩⟩ =
      .ok ⟨2, 0, ⟨USIZE_MAX, USIZE_MAX⟩⟩ := by
  refine ⟨?_, by simp [USIZE_MAX], ?_⟩
  · unfold NoiseState.merge NoiseState.consume
    simp [satAddUsize]
  · unfold EncryptedUint8.wrappingAdd EncInt.wrappingAdd EncInt.binaryOp
      NoiseState.merge NoiseState.consume
    simp [satAddUsize, COST_ADDITION]

/-! ## Encrypted u8 arithmetic -/

/-- C8: for u8 ciphertexts under one context, a successful `wrapping_add`
decrypts to `(a + b) mod 256` and carries the noise merge at cost 4;
`wrapping_sub` merges at cost 4 and `wrapping_mul` at cost 12. -/
theorem wrapping_add_u8_spec (a b : EncInt) (hctx : a.ctx = b.ctx) :
    (∀ r, EncryptedUint8.wrappingAdd a b = .ok r →
      r.decrypt = (a.decrypt + b.decrypt) % 256 ∧
      NoiseState.merge a.noise b.noise COST_ADDITION = .ok r.noise) ∧
    (∀ r, EncryptedUint8.wrappingSub a b = .ok r →
      NoiseState.merge a.noise b.noise COST_SUBTRACTION = .ok r.noise) ∧
    (∀ r, EncryptedUint8.wrappingMul a b = .ok r →
      NoiseState.merge a.noise b.noise COST_MULTIPLICATION = .ok r.noise) := by
  have hne : ¬ a.ctx ≠ b.ctx := by omega
  refine ⟨?_, ?_, ?_⟩
  · intro r h
    unfold EncryptedUint8.wrappingAdd EncInt.wrappingAdd EncInt.binaryOp at h
    rw [if_neg hne] at h
    cases hm : NoiseState.merge a.noise b.noise COST_ADDITION with
    | error e => rw [hm] at h; exact absurd h (by simp)
    | ok n =>
      rw [hm] at h
      cases h
      exact ⟨rfl, rfl⟩
  · intro r h
    unfold EncryptedUint8.wrappingSub EncInt.wrappingSub EncInt.binaryOp at h
    rw [if_neg hne] at h
    cases hm : NoiseState.merge a.noise b.noise COST_SUBTRACTION with
    | error e => rw [hm] at h; exact absurd h (by simp)
    | ok n =>
      rw [hm] at h
      cases h
      exact rfl
  · intro r h
    unfold EncryptedUint8.wrappingMul EncInt.wrappingMul EncInt.binaryOp at h
    rw [if_neg hne] at h
    cases hm : NoiseState.merge a.noise b.noise COST_MULTIPLICATION with
    | error e => rw [hm] at h; exact absurd h (by simp)
    | ok n =>
      rw [hm] at h
      cases h
      exact rfl

/-- Witness for C8: 200 + 100 decrypts to 44 with the cost-4 merge. -/
theorem wrapping_add_u8_spec_witness :
    ((⟨200, 0, ⟨0, 48⟩⟩ : EncInt).ctx = (⟨100, 0, ⟨0, 48⟩⟩ : EncInt).ctx) ∧
    ∀ r, EncryptedUint8.wrappingAdd ⟨200, 0, ⟨0, 48⟩⟩ ⟨100, 0, ⟨0, 48⟩⟩ =
        .ok r →
      r.decrypt = (200 + 100) % 256 ∧
      NoiseState.merge (⟨0, 48⟩ : NoiseState) ⟨0, 48⟩ COST_ADDITION =
        .ok r.noise :=
  ⟨rfl, (wrapping_add_u8_spec ⟨200, 0, ⟨0, 48⟩⟩ ⟨100, 0, ⟨0, 48⟩⟩ rfl).1⟩

/-! ## Slab allocation -/

/-- A fold whose step fixes every accumulator is the identity. -/
theorem foldl_fixed_of {α β : Type} {f : α → β → α} (h : ∀ a b, f a b = a) :
    ∀ (l : List β) (a : α), l.foldl f a = a := by
  intro l
  induction l with
  | nil => intro a; rfl
  | cons b t ih => intro a; rw [List.foldl_cons, h a b]; exact ih a

/-- Rewriting a cell with its own current value leaves the bitmap unchanged. -/
theorem set_getD_self (l : List Bool) : ∀ i, l.set i (l[i]?.getD false) = l := by
  induction l with
  | nil => intro i; rfl
  | cons a t ih =>
    intro i
    cases i with
    | zero => simp
    | succ i => simp [ih i]

namespace SlabClass

/-- The first free slot strictly below `n`. -/
def firstFreeBelow (s : SlabClass) : Nat → Option Nat
  | 0 => none
  | n + 1 =>
    match firstFreeBelow s n with
    | some i => some i
    | none => if s.bitmap.getD n false = false then some n else none

theorem firstFreeBelow_spec (s : SlabClass) : ∀ n,
    (∀ i, s.firstFreeBelow n = some i →
      i < n ∧ s.bitmap.getD i false = false ∧
        ∀ j, j < i → s.bitmap.getD j false = true) ∧
    (s.firstFreeBelow n = none →
      ∀ j, j < n → s.bitmap.getD j false = true) := by
  intro n
  induction n with
  | zero =>
    refine ⟨fun i h => ?_, fun _ j hj => by omega⟩
    simp [firstFreeBelow] at h
  | succ n ih =>
    constructor
    · intro i h
      unfold firstFreeBelow at h
      cases hf : s.firstFreeBelow n with
      | some k =>
        rw [hf] at h
        injection h with h
        subst h
        obtain ⟨h1, h2, h3⟩ := ih.1 k hf
        exact ⟨by omega, h2, h3⟩
      | none =>
        rw [hf] at h
        by_cases hb : s.bitmap.getD n false = false
        · rw [if_pos hb] at h
          injection h with h
          subst h
          exact ⟨by omega, hb, ih.2 hf⟩
        · rw [if_neg hb] at h
          exact absurd h (by simp)
    · intro h j hj
      unfold firstFreeBelow at h
      cases hf : s.firstFreeBelow n with
      | some k => rw [hf] at h; exact absurd h (by simp)
      | none =>
        rw [hf] at h
        by_cases hb : s.bitmap.getD n false = false
        · rw [if_pos hb] at h; exact absurd h (by simp)
        · rw [if_neg hb] at h
          rcases Nat.lt_succ_iff_lt_or_eq.mp hj with hlt | heq
          · exact ih.2 hf j hlt
          · subst heq
            simpa using hb

theorem scan_foldl_succ (s : SlabClass) (m : Bool) (n : Nat)
    (acc : Bool × Nat × Nat) :
    (List.range (n + 1)).foldl (s.scanStep m) acc =
      s.scanStep m ((List.range n).foldl (s.scanStep m) acc) n := by
  rw [List.range_succ, List.foldl_append]
  rfl

/-- With the request mask down the selection pass stays at its initial
accumulator. -/
theorem scan_false (s : SlabClass) (n : Nat) :
    (List.range n).foldl (s.scanStep false) (false, 0, 0) = (false, 0, 0) := by
  have h : ∀ (acc : Bool × Nat × Nat) (i : Nat), s.scanStep false acc i = acc := by
    intro acc i
    simp [scanStep]
  exact foldl_fixed_of h _ _

theorem firstFreeBelow_succ (s : SlabClass) (n : Nat) :
    s.firstFreeBelow (n + 1) =
      match s.firstFreeBelow n with
      | some i => some i
      | none => if s.bitmap.getD n false = false then some n else none := rfl

/-- With the request mask up the selection pass finds the first free slot. -/
theorem scan_true (s : SlabClass) (n : Nat) :
    (List.range n).foldl (s.scanStep true) (false, 0, 0) =
      match s.firstFreeBelow n with
      | none => (false, 0, 0)
      | some i => (true, s.encIndices.getD i 0,
          u64add s.baseOffset (s.encOffsets.getD i 0)) := by
  induction n with
  | zero => rfl
  | succ n ih =>
    rw [scan_foldl_succ, ih, firstFreeBelow_succ]
    cases hf : s.firstFreeBelow n with
    | some i =>
      simp [scanStep]
    | none =>
      by_cases hb : s.bitmap.getD n false = false
      · rw [if_pos hb]
        simp only [List.getD_eq_getElem?_getD] at hb
        simp [scanStep, hb]
      · have hb' : s.bitmap.getD n false = true := by
          cases h : s.bitmap.getD n false
          · exact absurd h hb
          · rfl
        rw [if_neg hb]
        simp only [List.getD_eq_getElem?_getD] at hb'
        simp [scanStep, hb']

theorem buildEncIndices_getD (n j : Nat) (hj : j < n) (hn : n ≤ 2 ^ 32) :
    (buildEncIndicesU32 n).getD j 0 = j := by
  unfold buildEncIndicesU32
  rw [List.getD_eq_getElem?_getD, List.getElem?_map, List.getElem?_range hj]
  exact Nat.mod_eq_of_lt (by omega)

theorem encIndices_getD_norm (s : SlabClass)
    (hidx : s.encIndices = buildEncIndicesU32 s.numBlocks)
    (hbound : s.numBlocks ≤ 2 ^ 32) (j : Nat) (hj : j < s.numBlocks) :
    s.encIndices[j]?.getD 0 = j := by
  have h := buildEncIndices_getD s.numBlocks j hj hbound
  rw [← hidx, List.getD_eq_getElem?_getD] at h
  exact h

/-- Write-back with the accept flag down leaves the bitmap unchanged. -/
theorem writeback_false (s : SlabClass) (selIdx : Nat) :
    s.writeback selIdx false = s.bitmap := by
  unfold writeback
  have h : ∀ (bm : List Bool) (j : Nat), s.wbStep selIdx false bm j = bm := by
    intro bm j
    simp [wbStep, set_getD_self]
  exact foldl_fixed_of h _ _

/-- Write-back with the accept flag up against the index table entry of slot
`i0` raises exactly that cell. -/
theorem writeback_true (s : SlabClass) (i0 : Nat)
    (hidx : s.encIndices = buildEncIndicesU32 s.numBlocks)
    (hbound : s.numBlocks ≤ 2 ^ 32) (hi0 : i0 < s.numBlocks) :
    s.writeback (s.encIndices.getD i0 0) true = s.bitmap.set i0 true := by
  have hIdxAt : ∀ j, j < s.numBlocks → s.encIndices[j]?.getD 0 = j :=
    fun j hj => encIndices_getD_norm s hidx hbound j hj
  have key : ∀ n, n ≤ s.numBlocks →
      (List.range n).foldl (s.wbStep (s.encIndices.getD i0 0) true) s.bitmap =
        if i0 < n then s.bitmap.set i0 true else s.bitmap := by
    intro n
    induction n with
    | zero => intro _; simp
    | succ n ih =>
      intro hn
      have hstep : (List.range (n + 1)).foldl
          (s.wbStep (s.encIndices.getD i0 0) true) s.bitmap =
          s.wbStep (s.encIndices.getD i0 0) true
            ((List.range n).foldl (s.wbStep (s.encIndices.getD i0 0) true)
              s.bitmap) n := by
        rw [List.range_succ, List.foldl_append]
        rfl
      rw [hstep, ih (by omega)]
      have hn' : n < s.numBlocks := by omega
      rcases Nat.lt_trichotomy i0 n with hlt | heq | hgt
      · rw [if_pos hlt, if_pos (by omega)]
        have hne : (s.encIndices[n]?.getD 0 == s.encIndices[i0]?.getD 0) = false := by
          rw [hIdxAt n hn', hIdxAt i0 hi0]
          simp only [beq_eq_false_iff_ne, ne_eq]
          omega
        simp [wbStep, hne, set_getD_self]
      · subst heq
        rw [if_neg (by omega), if_pos (by omega)]
        simp [wbStep]
      · rw [if_neg (by omega), if_neg (by omega)]
        have hne : (s.encIndices[n]?.getD 0 == s.encIndices[i0]?.getD 0) = false := by
          rw [hIdxAt n hn', hIdxAt i0 hi0]
          simp only [beq_eq_false_iff_ne, ne_eq]
          omega
        simp [wbStep, hne, set_getD_self]
  have := key s.numBlocks (Nat.le_refl _)
  rw [if_pos hi0] at this
  exact this

end SlabClass

/-- C5: after `allocate_masked`, if the returned `is_some` decrypts to true
then exactly one bitmap cell — the first free slot — changed from free to
allocated (`bitmap.set i true` with `bitmap[i] = false` and every earlier cell
raised), and if `is_some` decrypts to false the bitmap is unchanged.  The
index-table hypotheses reflect `Keys::build_enc_indices_u32`, which encrypts
`idx as u32` per slot. -/
theorem slab_allocate_masked_spec (s : SlabClass) (m : Bool)
    (hlen : s.bitmap.length = s.numBlocks)
    (hidx : s.encIndices = buildEncIndicesU32 s.numBlocks)
    (hbound : s.numBlocks ≤ 2 ^ 32) :
    ((s.allocateMasked m).2.isSome = true →
      ∃ i, i < s.numBlocks ∧ s.bitmap.getD i false = false ∧
        (∀ j, j < i → s.bitmap.getD j false = true) ∧
        (s.allocateMasked m).1.bitmap = s.bitmap.set i true) ∧
    ((s.allocateMasked m).2.isSome = false →
      (s.allocateMasked m).1.bitmap = s.bitmap) := by
  cases m with
  | false =>
    have hscan : s.allocScan false = (false, 0, 0) := SlabClass.scan_false s _
    constructor
    · intro h
      exact absurd h (by simp [SlabClass.allocateMasked, hscan])
    · intro _
      show s.writeback (s.allocScan false).2.1 ((s.allocScan false).1 && false) =
        s.bitmap
      rw [hscan]
      exact SlabClass.writeback_false s _
  | true =>
    have hscan := SlabClass.scan_true s s.numBlocks
    cases hf : s.firstFreeBelow s.numBlocks with
    | none =>
      rw [hf] at hscan
      have hscan' : (List.range s.numBlocks).foldl (s.scanStep true)
          (false, 0, 0) = (false, 0, 0) := hscan
      have hmask : (s.allocateMasked true).2.isSome = false := by
        show (((List.range s.numBlocks).foldl (s.scanStep true)
          (false, 0, 0)).1 && true) = false
        rw [hscan']
        rfl
      constructor
      · intro h
        rw [hmask] at h
        exact absurd h (by simp)
      · intro _
        show s.writeback ((List.range s.numBlocks).foldl (s.scanStep true)
          (false, 0, 0)).2.1 (((List.range s.numBlocks).foldl (s.scanStep true)
          (false, 0, 0)).1 && true) = s.bitmap
        rw [hscan']
        exact SlabClass.writeback_false s _
    | some i =>
      rw [hf] at hscan
      have hscan' : (List.range s.numBlocks).foldl (s.scanStep true)
          (false, 0, 0) = (true, s.encIndices.getD i 0,
            u64add s.baseOffset (s.encOffsets.getD i 0)) := hscan
      obtain ⟨hi, hfree, hearlier⟩ := (SlabClass.firstFreeBelow_spec s _).1 i hf
      constructor
      · intro _
        refine ⟨i, hi, hfree, hearlier, ?_⟩
        show s.writeback ((List.range s.numBlocks).foldl (s.scanStep true)
          (false, 0, 0)).2.1 (((List.range s.numBlocks).foldl (s.scanStep true)
          (false, 0, 0)).1 && true) = s.bitmap.set i true
        rw [hscan']
        exact SlabClass.writeback_true s i hidx hbound hi
      · intro h
        have hT : (s.allocateMasked true).2.isSome = true := by
          show (((List.range s.numBlocks).foldl (s.scanStep true)
            (false, 0, 0)).1 && true) = true
          rw [hscan']
          rfl
        rw [hT] at h
        exact absurd h (by simp)

/-- Witness for C5: a four-slot tier with slot 0 already allocated accepts a
masked request by raising exactly slot 1. -/
theorem slab_allocate_masked_spec_witness :
    (let s : SlabClass :=
      { blockSize := 16
        numBlocks := 4
        bitmap := [true, false, false, false]
        baseOffset := 0
        encIndices := buildEncIndicesU32 4
        encOffsets := buildEncOffsetsU64 4 16 }
    s.bitmap.length = s.numBlocks ∧
    s.encIndices = buildEncIndicesU32 s.numBlocks ∧
    s.numBlocks ≤ 2 ^ 32 ∧
    ((s.allocateMasked true).2.isSome = true →
      ∃ i, i < s.numBlocks ∧ s.bitmap.getD i false = false ∧
        (∀ j, j < i → s.bitmap.getD j false = true) ∧
        (s.allocateMasked true).1.bitmap = s.bitmap.set i true)) :=
  ⟨by decide, rfl, by decide,
    (slab_allocate_masked_spec _ true (by decide) rfl (by decide)).1⟩

/-! ## Router -/

/-- C6: for a request size `s` with `1 ≤ s ≤ 256` exactly one slab tier mask
is true and the arena mask is false; for `s > 256` every slab mask is false
(and a slab driven by a false mask can never accept nor change, so only the
arena can serve the request); `s = 0` is routed exactly as `s = 16`. -/
theorem router_spec (s : Nat) :
    (1 ≤ s → s ≤ 256 →
      (CryptMalloc.tierMasks (CryptMalloc.normalizeSize s)).count true = 1 ∧
      decide (CryptMalloc.normalizeSize s > 256) = false) ∧
    (256 < s →
      CryptMalloc.tierMasks (CryptMalloc.normalizeSize s) =
        [false, false, false, false, false] ∧
      decide (CryptMalloc.normalizeSize s > 256) = true ∧
      ∀ sl : SlabClass, (sl.allocateMasked false).2.isSome = false ∧
        (sl.allocateMasked false).1 = sl) ∧
    (∀ c : CryptMalloc, c.allocate 0 = c.allocate 16) := by
  have hnorm : ∀ u, 1 ≤ u → CryptMalloc.normalizeSize u =
      if u < 16 then 16 else u := by
    intro u hu
    unfold CryptMalloc.normalizeSize
    have hz : (u == 0) = false := by
      simp only [beq_eq_false_iff_ne, ne_eq]
      omega
    rw [hz]
    by_cases hlt : u < 16
    · rw [if_pos hlt]
      simp [hlt]
    · rw [if_neg hlt]
      simp [hlt]
  refine ⟨?_, ?_, ?_⟩
  · intro h1 h256
    have ht : CryptMalloc.normalizeSize s = if s < 16 then 16 else s :=
      hnorm s h1
    set t := CryptMalloc.normalizeSize s with htdef
    have hlo : 16 ≤ t := by
      rw [ht]
      split <;> omega
    have hhi : t ≤ 256 := by
      rw [ht]
      split <;> omega
    constructor
    · unfold CryptMalloc.tierMasks
      rcases le_or_lt t 16 with c16 | c16
      · have f16 : decide (t ≤ 16) = true := by simpa using c16
        have f32 : decide (t ≤ 32) = true := by simp; omega
        simp [f16, f32]
      · have f16 : decide (t ≤ 16) = false := by simp; omega
        rcases le_or_lt t 32 with c32 | c32
        · have f32 : decide (t ≤ 32) = true := by simpa using c32
          have f64 : decide (t ≤ 64) = true := by simp; omega
          simp [f16, f32, f64]
        · have f32 : decide (t ≤ 32) = false := by simp; omega
          rcases le_or_lt t 64 with c64 | c64
          · have f64 : decide (t ≤ 64) = true := by simpa using c64
            have f128 : decide (t ≤ 128) = true := by simp; omega
            simp [f16, f32, f64, f128]
          · have f64 : decide (t ≤ 64) = false := by simp; omega
            rcases le_or_lt t 128 with c128 | c128
            · have f128 : decide (t ≤ 128) = true := by simpa using c128
              have f256 : decide (t ≤ 256) = true := by simp; omega
              simp [f16, f32, f64, f128, f256]
            · have f128 : decide (t ≤ 128) = false := by simp; omega
              have f256 : decide (t ≤ 256) = true := by simpa using hhi
              simp [f16, f32, f64, f128, f256]
    · simp
      omega
  · intro hgt
    have ht : CryptMalloc.normalizeSize s = s := by
      rw [hnorm s (by omega)]
      rw [if_neg (by omega)]
    refine ⟨?_, ?_, ?_⟩
    · unfold CryptMalloc.tierMasks
      rw [ht]
      have f16 : decide (s ≤ 16) = false := by simp; omega
      have f32 : decide (s ≤ 32) = false := by simp; omega
      have f64 : decide (s ≤ 64) = false := by simp; omega
      have f128 : decide (s ≤ 128) = false := by simp; omega
      have f256 : decide (s ≤ 256) = false := by simp; omega
      simp [f16, f32, f64, f128, f256]
    · rw [ht]
      simpa using hgt
    · intro sl
      constructor
      · show ((sl.allocScan false).1 && false) = false
        simp
      · have hb : sl.writeback (sl.allocScan false).2.1
            ((sl.allocScan false).1 && false) = sl.bitmap := by
          rw [Bool.and_false]
          exact SlabClass.writeback_false sl _
        show { sl with bitmap := sl.writeback (sl.allocScan false).2.1 ((sl.allocScan false).1 && false) } = sl
        rw [hb]
  · intro c
    rfl

/-- Witness for C6 at sizes 32, 300 and the zero-size coercion. -/
theorem router_spec_witness :
    (1 ≤ 32 ∧ 32 ≤ 256 ∧
      (CryptMalloc.tierMasks (CryptMalloc.normalizeSize 32)).count true = 1 ∧
      decide (CryptMalloc.normalizeSize 32 > 256) = false) ∧
    (256 < 300 ∧
      CryptMalloc.tierMasks (CryptMalloc.normalizeSize 300) =
        [false, false, false, false, false]) ∧
    (CryptMalloc.new 4096).allocate 0 = (CryptMalloc.new 4096).allocate 16 :=
  ⟨⟨by decide, by decide, (router_spec 32).1 (by decide) (by decide)⟩,
   ⟨by decide, ((router_spec 300).2.1 (by decide)).1⟩,
   (router_spec 0).2.2 (CryptMalloc.new 4096)⟩

/-! ## Context envelope -/

theorem natToBytesLE_length : ∀ k n, (natToBytesLE k n).length = k := by
  intro k
  induction k with
  | zero => intro n; rfl
  | succ k ih =>
    intro n
    show (natToBytesLE (k + 1) n).length = k + 1
    unfold natToBytesLE
    simp [ih]

theorem bytesToNatLE_natToBytesLE : ∀ k n,
    bytesToNatLE (natToBytesLE k n) = n % 256 ^ k := by
  intro k
  induction k with
  | zero =>
    intro n
    simp only [natToBytesLE, bytesToNatLE, pow_zero]
    omega
  | succ k ih =>
    intro n
    show bytesToNatLE (⟨n % 256, by omega⟩ :: natToBytesLE k (n / 256)) =
      n % 256 ^ (k + 1)
    unfold bytesToNatLE
    rw [ih]
    have hp : (256 : Nat) ^ (k + 1) = 256 * 256 ^ k := by ring
    rw [hp, Nat.mod_mul]

theorem natToBytesLE_bytesToNatLE : ∀ l : List Byte,
    natToBytesLE l.length (bytesToNatLE l) = l := by
  intro l
  induction l with
  | nil => rfl
  | cons b rest ih =>
    show natToBytesLE (rest.length + 1) (b.val + 256 * bytesToNatLE rest) =
      b :: rest
    unfold natToBytesLE
    have hmod : (b.val + 256 * bytesToNatLE rest) % 256 = b.val := by
      rw [Nat.add_mul_mod_self_left]
      exact Nat.mod_eq_of_lt b.isLt
    have hdiv : (b.val + 256 * bytesToNatLE rest) / 256 = bytesToNatLE rest := by
      rw [Nat.add_mul_div_left _ _ (by omega : 0 < 256)]
      rw [Nat.div_eq_of_lt b.isLt]
      omega
    rw [hdiv, ih]
    congr 1
    exact Fin.ext hmod

theorem readBytes_eq {n : Nat} {bs pre rest : List Byte}
    (h : readBytes n bs = some (pre, rest)) :
    pre ++ rest = bs ∧ pre.length = n := by
  unfold readBytes at h
  by_cases hle : n ≤ bs.length
  · rw [if_pos hle] at h
    injection h with h
    cases h
    exact ⟨List.take_append_drop n bs, by simpa using hle⟩
  · rw [if_neg hle] at h
    exact absurd h (by simp)

theorem readBytes_append {n : Nat} (xs rest : List Byte) (h : xs.length = n) :
    readBytes n (xs ++ rest) = some (xs, rest) := by
  unfold readBytes
  rw [if_pos (by simp [h])]
  rw [List.take_left' h, List.drop_left' h]

theorem parseLevel_ser (l : SecurityLevel) (rest : List Byte) :
    parseLevel (serLevel l ++ rest) = some (l, rest) := by
  unfold parseLevel serLevel
  rw [readBytes_append _ _ (natToBytesLE_length 4 l.tag)]
  cases l <;> norm_num [natToBytesLE, bytesToNatLE, SecurityLevel.tag]

theorem parseLevel_eq {bs : List Byte} {l : SecurityLevel} {rest : List Byte}
    (h : parseLevel bs = some (l, rest)) : serLevel l ++ rest = bs := by
  unfold parseLevel at h
  cases hr : readBytes 4 bs with
  | none => rw [hr] at h; exact absurd h (by simp)
  | some pr =>
    obtain ⟨pre, r⟩ := pr
    rw [hr] at h
    obtain ⟨happ, hlen⟩ := readBytes_eq hr
    have hv : bytesToNatLE pre = l.tag ∧ r = rest := by
      rcases hv4 : bytesToNatLE pre with _ | _ | _ | k
      · simp only [hv4] at h
        cases h
        exact ⟨rfl, rfl⟩
      · simp only [hv4] at h
        cases h
        exact ⟨rfl, rfl⟩
      · simp only [hv4] at h
        cases h
        exact ⟨rfl, rfl⟩
      · simp only [hv4] at h
        exact absurd h (by simp)
    have hser : serLevel l = pre := by
      unfold serLevel
      rw [← hv.1, ← hlen, natToBytesLE_bytesToNatLE]
    rw [hser, ← hv.2]
    exact happ

theorem parseBool_ser (b : Bool) (rest : List Byte) :
    parseBool (serBool b ++ rest) = some (b, rest) := by
  cases b <;> rfl

theorem parseBool_eq {bs : List Byte} {b : Bool} {rest : List Byte}
    (h : parseBool bs = some (b, rest)) : serBool b ++ rest = bs := by
  unfold parseBool at h
  cases bs with
  | nil => exact absurd h (by simp)
  | cons x t =>
    by_cases h0 : x.val = 0
    · simp only [h0, if_pos] at h
      cases h
      have hx : x = (0 : Byte) := Fin.ext h0
      subst hx
      rfl
    · by_cases h1 : x.val = 1
      · simp only [h0, h1, if_neg, if_pos] at h
        cases h
        have hx : x = (1 : Byte) := Fin.ext h1
        subst hx
        rfl
      · simp only [h0, h1, if_neg] at h
        exact absurd h (by simp)

theorem parseBlob_ser (ks rest : List Byte) (h : ks.length < 2 ^ 64) :
    parseBlob (serBlob ks ++ rest) = some (ks, rest) := by
  unfold parseBlob serBlob
  rw [List.append_assoc]
  have hm : ks.length % 256 ^ 8 = ks.length := Nat.mod_eq_of_lt (by
    have h8 : (256 : Nat) ^ 8 = 2 ^ 64 := by norm_num
    omega)
  simp only [readBytes_append _ _ (natToBytesLE_length 8 ks.length),
    bytesToNatLE_natToBytesLE, hm]
  exact readBytes_append _ _ rfl

theorem parseBlob_eq {bs ks rest : List Byte}
    (h : parseBlob bs = some (ks, rest)) : serBlob ks ++ rest = bs := by
  unfold parseBlob at h
  cases hr : readBytes 8 bs with
  | none => rw [hr] at h; exact absurd h (by simp)
  | some pr =>
    obtain ⟨lenBytes, r1⟩ := pr
    rw [hr] at h
    obtain ⟨happ1, hlen1⟩ := readBytes_eq hr
    obtain ⟨happ2, hlen2⟩ := readBytes_eq h
    unfold serBlob
    rw [← happ1, ← happ2]
    have : natToBytesLE 8 ks.length = lenBytes := by
      rw [hlen2, ← hlen1, natToBytesLE_bytesToNatLE]
    rw [this, List.append_assoc]

theorem parsePayload_ser (p : KeyPayload) (rest : List Byte)
    (hcl : p.clientKey.length < 2 ^ 64) (hsk : p.serverKey.length < 2 ^ 64) :
    parsePayload (serPayload p ++ rest) = some (p, rest) := by
  unfold parsePayload serPayload
  rw [List.append_assoc, List.append_assoc, List.append_assoc]
  simp only [parseLevel_ser, parseBool_ser,
    parseBlob_ser p.clientKey (serBlob p.serverKey ++ rest) hcl,
    parseBlob_ser p.serverKey rest hsk]

theorem parsePayload_eq {bs : List Byte} {p : KeyPayload} {rest : List Byte}
    (h : parsePayload bs = some (p, rest)) : serPayload p ++ rest = bs := by
  unfold parsePayload at h
  cases h1 : parseLevel bs with
  | none =>
    simp only [h1] at h
    exact absurd h (by simp)
  | some v1 =>
    obtain ⟨level, r1⟩ := v1
    simp only [h1] at h
    cases h2 : parseBool r1 with
    | none =>
      simp only [h2] at h
      exact absurd h (by simp)
    | some v2 =>
      obtain ⟨compression, r2⟩ := v2
      simp only [h2] at h
      cases h3 : parseBlob r2 with
      | none =>
        simp only [h3] at h
        exact absurd h (by simp)
      | some v3 =>
        obtain ⟨clientKey, r3⟩ := v3
        simp only [h3] at h
        cases h4 : parseBlob r3 with
        | none =>
          simp only [h4] at h
          exact absurd h (by simp)
        | some v4 =>
          obtain ⟨serverKey, r4⟩ := v4
          simp only [h4] at h
          cases h
          have e1 := parseLevel_eq h1
          have e2 := parseBool_eq h2
          have e3 := parseBlob_eq h3
          have e4 := parseBlob_eq h4
          unfold serPayload
          rw [List.append_assoc, List.append_assoc, List.append_assoc]
          rw [e4, e3, e2, e1]

theorem byteFlip_ne (b : Byte) : byteFlip b ≠ b := by
  intro h
  have hv : 255 - b.val = b.val := congrArg Fin.val h
  omega

theorem flipAt_length (bs : List Byte) (i : Nat) :
    (flipAt bs i).length = bs.length := by
  unfold flipAt
  exact List.length_set bs i _

theorem flipAt_ne (bs : List Byte) (i : Nat) (h : i < bs.length) :
    flipAt bs i ≠ bs := by
  intro he
  have h1 : (flipAt bs i)[i]? = bs[i]? := by rw [he]
  unfold flipAt at h1
  rw [List.getElem?_set_eq_of_lt _ h] at h1
  have hg : bs[i]? = some bs[i] := List.getElem?_eq_getElem h
  have hgd : bs.getD i 0 = bs[i] := by
    rw [List.getD_eq_getElem?_getD, hg]
    rfl
  rw [hgd, hg] at h1
  injection h1 with h1
  exact byteFlip_ne _ h1

theorem flipAt_append_left (l1 l2 : List Byte) (i : Nat) (h : i < l1.length) :
    flipAt (l1 ++ l2) i = flipAt l1 i ++ l2 := by
  unfold flipAt
  rw [List.set_append_left _ _ h]
  congr 2
  rw [List.getD_eq_getElem?_getD, List.getD_eq_getElem?_getD,
    List.getElem?_append_left h]

theorem flipAt_append_right (l1 l2 : List Byte) (i : Nat) (h : l1.length ≤ i) :
    flipAt (l1 ++ l2) i = l1 ++ flipAt l2 (i - l1.length) := by
  unfold flipAt
  rw [List.set_append_right _ _ h]
  congr 3
  rw [List.getD_eq_getElem?_getD, List.getD_eq_getElem?_getD,
    List.getElem?_append_right h]

theorem parsePayload_ser_nil (p : KeyPayload)
    (hcl : p.clientKey.length < 2 ^ 64) (hsk : p.serverKey.length < 2 ^ 64) :
    parsePayload (serPayload p) = some (p, []) := by
  have h := parsePayload_ser p [] hcl hsk
  simpa using h

/-- The behaviour of `from_serialized` on a well-formed envelope. -/
theorem fromSerialized_export (hash : List Byte → List Byte) (p : KeyPayload)
    (hck : (hash (serPayload p)).length = 32)
    (hcl : p.clientKey.length < 2 ^ 64) (hsk : p.serverKey.length < 2 ^ 64) :
    fromSerialized hash (exportKeys hash p) = .ok p := by
  have henv : parseEnvelope (exportKeys hash p) =
      some (hash (serPayload p), p, []) := by
    unfold parseEnvelope exportKeys
    simp only [readBytes_append _ _ hck, parsePayload_ser_nil p hcl hsk]
  unfold fromSerialized
  rw [henv]
  simp

/-- C2 (amended): flipping any single byte of the exported envelope makes
`from_serialized` fail — with `Serialization` when the flip breaks bincode
deserialization (which runs, reconstructing the payload, before the checksum
is ever consulted), with `IntegrityViolation` otherwise — unless the flipped
envelope deserializes to a payload whose serialization is a SHA-256 collision
with the original payload bytes. -/
theorem envelope_flip_rejected (hash : List Byte → List Byte) (p : KeyPayload)
    (hck : (hash (serPayload p)).length = 32)
    (hcl : p.clientKey.length < 2 ^ 64) (hsk : p.serverKey.length < 2 ^ 64)
    (i : Nat) (hi : i < (exportKeys hash p).length) :
    fromSerialized hash (flipAt (exportKeys hash p) i) =
        .error .serialization ∨
    fromSerialized hash (flipAt (exportKeys hash p) i) =
        .error .integrityViolation ∨
    (∃ p' : KeyPayload, serPayload p' ≠ serPayload p ∧
      hash (serPayload p') = hash (serPayload p)) := by
  have hexplen : (exportKeys hash p).length = 32 + (serPayload p).length := by
    unfold exportKeys
    rw [List.length_append, hck]
  by_cases hlt : i < 32
  · -- the flip lands in the checksum bytes: the payload round-trips and the
    -- recomputed digest no longer matches the flipped checksum
    refine Or.inr (Or.inl ?_)
    have hflip : flipAt (exportKeys hash p) i =
        flipAt (hash (serPayload p)) i ++ serPayload p := by
      unfold exportKeys
      exact flipAt_append_left _ _ i (by omega)
    have henv : parseEnvelope (flipAt (exportKeys hash p) i) =
        some (flipAt (hash (serPayload p)) i, p, []) := by
      rw [hflip]
      unfold parseEnvelope
      simp only [readBytes_append _ _
        (by rw [flipAt_length]; exact hck : (flipAt (hash (serPayload p)) i).length = 32),
        parsePayload_ser_nil p hcl hsk]
    unfold fromSerialized
    rw [henv]
    have hne : flipAt (hash (serPayload p)) i ≠ hash (serPayload p) :=
      flipAt_ne _ i (by omega)
    simp only []
    rw [if_pos hne]
  · -- the flip lands in the payload bytes
    have h32 : (hash (serPayload p)).length ≤ i := by omega
    have hflip : flipAt (exportKeys hash p) i =
        hash (serPayload p) ++
          flipAt (serPayload p) (i - (hash (serPayload p)).length) := by
      unfold exportKeys
      exact flipAt_append_right _ _ i h32
    have hj : i - (hash (serPayload p)).length < (serPayload p).length := by
      rw [hck]
      omega
    cases hpp : parsePayload
        (flipAt (serPayload p) (i - (hash (serPayload p)).length)) with
    | none =>
      refine Or.inl ?_
      have henv : parseEnvelope (flipAt (exportKeys hash p) i) = none := by
        rw [hflip]
        unfold parseEnvelope
        simp only [readBytes_append _ _ hck, hpp]
      unfold fromSerialized
      rw [henv]
    | some pr =>
      obtain ⟨p', rest⟩ := pr
      have hexact : serPayload p' ++ rest =
          flipAt (serPayload p) (i - (hash (serPayload p)).length) :=
        parsePayload_eq hpp
      by_cases hcoll : hash (serPayload p') = hash (serPayload p)
      · by_cases hsame : serPayload p' = serPayload p
        · exfalso
          rw [hsame] at hexact
          have hlen : (serPayload p).length + rest.length =
              (serPayload p).length := by
            have := congrArg List.length hexact
            rw [List.length_append, flipAt_length] at this
            omega
          have hrest : rest = [] := by
            have : rest.length = 0 := by omega
            exact List.length_eq_zero.mp this
          rw [hrest, List.append_nil] at hexact
          exact flipAt_ne _ _ hj hexact.symm
        · exact Or.inr (Or.inr ⟨p', hsame, hcoll⟩)
      · refine Or.inr (Or.inl ?_)
        have henv : parseEnvelope (flipAt (exportKeys hash p) i) =
            some (hash (serPayload p), p', rest) := by
          rw [hflip]
          unfold parseEnvelope
          simp only [readBytes_append _ _ hck, hpp]
        unfold fromSerialized
        rw [henv]
        simp only []
        rw [if_pos (fun h => hcoll h.symm)]

/-- Witness for C2 (amended), flipping the first checksum byte of a concrete
envelope. -/
theorem envelope_flip_rejected_witness :
    (((fun _ => List.replicate 32 0) (serPayload ⟨.balanced, true, [], []⟩) :
        List Byte).length = 32) ∧
    ((⟨.balanced, true, [], []⟩ : KeyPayload).clientKey.length < 2 ^ 64) ∧
    ((⟨.balanced, true, [], []⟩ : KeyPayload).serverKey.length < 2 ^ 64) ∧
    (0 < (exportKeys (fun _ => List.replicate 32 0)
      ⟨.balanced, true, [], []⟩).length) ∧
    (fromSerialized (fun _ => List.replicate 32 0)
        (flipAt (exportKeys (fun _ => List.replicate 32 0)
          ⟨.balanced, true, [], []⟩) 0) = .error .serialization ∨
     fromSerialized (fun _ => List.replicate 32 0)
        (flipAt (exportKeys (fun _ => List.replicate 32 0)
          ⟨.balanced, true, [], []⟩) 0) = .error .integrityViolation ∨
     (∃ p' : KeyPayload, serPayload p' ≠ serPayload ⟨.balanced, true, [], []⟩ ∧
       (fun _ => (List.replicate 32 0 : List Byte)) (serPayload p') =
         (fun _ => (List.replicate 32 0 : List Byte))
           (serPayload ⟨.balanced, true, [], []⟩))) :=
  ⟨by decide, by decide, by decide, by decide,
    envelope_flip_rejected (fun _ => List.replicate 32 0)
      ⟨.balanced, true, [], []⟩ (by decide) (by decide) (by decide) 0
      (by decide)⟩

/-- C2 is false as literally stated: a byte flip that corrupts the bincode
structure of the payload (here the `enable_compression` bool byte, position
36) makes `from_serialized` fail during deserialization with `Serialization`,
not `IntegrityViolation` — the envelope is deserialized, key material
included, before the checksum is ever compared. -/
theorem envelope_flip_counterexample :
    fromSerialized (fun _ => List.replicate 32 0)
        (flipAt (exportKeys (fun _ => List.replicate 32 0)
          ⟨.balanced, true, [], []⟩) 36) = .error .serialization ∧
    (.error .serialization : Except TfheContextError KeyPayload) ≠
      .error .integrityViolation := by
  constructor
  · rfl
  · simp

/-! ## Pool integrity checking and error transactionality -/

/-- A pool value used as a fallback; never reached on the concrete inputs
below. -/
def emptyPool : Pool :=
  { ctx := 0, ctxCap := 0, metadata := ⟨0, 0, 0⟩, plain := ⟨0, 0, 0⟩
    state := PoolState.new 0, digest := (0, 0, 0) }

/-- A freshly built pool whose stored digest has been tampered with
out-of-band: `verify_integrity` rejects it. -/
def tamperedPool : Pool :=
  match buildPool 0 48 4096 4096 16 with
  | .ok p => { p with digest := (0, 0, 0) }
  | .error _ => emptyPool

/-- C3 is false as stated: `record_access` mutates pool state without ever
invoking `verify_integrity`.  On a pool whose digest no longer matches the
plaintext triple, `verify_integrity` fails, yet `record_access` succeeds and
changes the state (the timestamp is bumped, the hit counter incremented and
the access log extended). -/
theorem record_access_no_verify_counterexample :
    tamperedPool.verifyIntegrity = .error .integrityViolation ∧
    (tamperedPool.recordAccess 0).1 = .ok () ∧
    (tamperedPool.recordAccess 0).2.timestamp = 1 ∧
    tamperedPool.state.timestamp = 0 := by
  exact ⟨rfl, rfl, rfl, rfl⟩

/-- C3 (amended): `allocate_block` (for any non-zero size, where the
`InvalidSize` guard does not fire first) and `release_block` invoke
`verify_integrity` before mutating anything and fail `IntegrityViolation`
without performing the mutation when it rejects; `record_access` performs no
integrity verification at all — its behaviour is a function of the pool state
alone, independent of the digest and of the encrypted metadata mirror. -/
theorem pool_mutators_verify_integrity (p : Pool) (e : PoolError)
    (h : p.verifyIntegrity = .error e) :
    (∀ size align, size ≠ 0 →
      p.allocateBlock size align = (.error e, p.state)) ∧
    (∀ handle, p.releaseBlock handle = (.error e, p.state)) ∧
    (∀ handle (q : Pool), q.state = p.state →
      q.recordAccess handle = p.recordAccess handle) := by
  refine ⟨?_, ?_, ?_⟩
  · intro size align hsz
    unfold Pool.allocateBlock
    rw [if_neg hsz, h]
  · intro handle
    unfold Pool.releaseBlock
    rw [h]
  · intro handle q hq
    unfold Pool.recordAccess
    rw [hq]

/-- Witness for C3 (amended) on the tampered pool. -/
theorem pool_mutators_verify_integrity_witness :
    tamperedPool.verifyIntegrity = .error .integrityViolation ∧
    ((16 : Nat) ≠ 0 →
      tamperedPool.allocateBlock 16 16 =
        (.error .integrityViolation, tamperedPool.state)) :=
  ⟨rfl, fun hsz => (pool_mutators_verify_integrity tamperedPool
    .integrityViolation rfl).1 16 16 hsz⟩

/-- A pool in the handle-exhaustion regime: the next-handle counter is past
`u32::MAX` and exactly one recycled handle remains.  The pool base `0x1008`
is misaligned for 32-byte requests, so allocation needs a padding split
followed by a tail split. -/
def exhaustedPool : Pool :=
  match buildPool 0 48 4096 4104 16 with
  | .ok p =>
    { p with state :=
        { p.state with vacantHandles := [5], nextHandle := 2 ^ 32 } }
  | .error _ => emptyPool

/-- C4 is false as stated: `allocate_block` can return `HandleSpaceExhausted`
*after* the padding split has already been committed.  On `exhaustedPool` the
padding split consumes the last recycled handle; the second split then fails,
and the error surfaces with the split's mutations (a new block record, a
changed free list, an emptied vacant-handle stack) left in place. -/
theorem allocate_error_mutates_counterexample :
    (exhaustedPool.allocateBlock 16 32).1 = .error .handleSpaceExhausted ∧
    (exhaustedPool.allocateBlock 16 32).2.vacantHandles = [] ∧
    exhaustedPool.state.vacantHandles = [5] ∧
    (exhaustedPool.allocateBlock 16 32).2 ≠ exhaustedPool.state := by
  refine ⟨rfl, rfl, rfl, ?_⟩
  intro h
  have hv := congrArg PoolState.vacantHandles h
  rw [show (exhaustedPool.allocateBlock 16 32).2.vacantHandles = [] from rfl,
    show exhaustedPool.state.vacantHandles = [5] from rfl] at hv
  exact absurd hv (by simp)

/-- C4 (amended): pool mutator errors raised before the first state change —
`InvalidSize`, `InvalidAlignment`, `IntegrityViolation`, `OutOfMemory` for
`allocate_block`; `IntegrityViolation`, `UnknownHandle`, `DoubleFree` for
`release_block` — leave the observable pool state unchanged.  (The exception
exhibited by the counterexample is `allocate_block` failing only at its
second split, after the padding split already mutated the state.) -/
theorem pool_error_no_mutation (p : Pool) :
    (∀ align, p.allocateBlock 0 align = (.error .invalidSize, p.state)) ∧
    (∀ size align, size ≠ 0 → p.verifyIntegrity = .ok () →
      ¬ isPow2 (max align p.plain.minAlignment) = true →
      p.allocateBlock size align = (.error .invalidAlignment, p.state)) ∧
    (∀ size align, size ≠ 0 → p.verifyIntegrity = .ok () →
      isPow2 (max align p.plain.minAlignment) = true →
      p.state.findFit size (max align p.plain.minAlignment) = none →
      p.allocateBlock size align = (.error .outOfMemory, p.state)) ∧
    (∀ handle, p.verifyIntegrity = .ok () →
      p.state.getRec handle = none →
      p.releaseBlock handle = (.error .unknownHandle, p.state)) ∧
    (∀ handle r, p.verifyIntegrity = .ok () →
      p.state.getRec handle = some r → r.free = true →
      p.releaseBlock handle = (.error .doubleFree, p.state)) := by
  refine ⟨?_, ?_, ?_, ?_, ?_⟩
  · intro align
    unfold Pool.allocateBlock
    rw [if_pos rfl]
  · intro size align hsz hok hpow
    unfold Pool.allocateBlock
    rw [if_neg hsz, hok]
    simp only [if_pos (Or.inr hpow : max align p.plain.minAlignment = 0 ∨
      ¬ isPow2 (max align p.plain.minAlignment) = true)]
  · intro size align hsz hok hpow hfit
    have hne : ¬ (max align p.plain.minAlignment = 0 ∨
        ¬ isPow2 (max align p.plain.minAlignment) = true) := by
      rintro (h0 | hnp)
      · rw [h0] at hpow
        exact absurd hpow (by decide)
      · exact hnp hpow
    unfold Pool.allocateBlock
    rw [if_neg hsz, hok]
    simp only [if_neg hne, hfit]
  · intro handle hok hrec
    unfold Pool.releaseBlock
    rw [hok]
    simp only [hrec]
  · intro handle r hok hrec hfree
    unfold Pool.releaseBlock
    rw [hok]
    simp only [hrec, hfree]
    simp

/-- A freshly built pool with the default geometry. -/
def freshPool : Pool :=
  match buildPool 0 48 4096 4096 16 with
  | .ok p => p
  | .error _ => emptyPool

/-! ## The pool tiling invariant (C1)

A pool state tiles its range when there is a list of handles — the block
chain — whose records are laid out contiguously in address order from the
base, whose doubly-linked `prev`/`next` fields mirror chain adjacency, and
which carries exactly the live handles. -/

/-- The projection of a block record that the tiling argument tracks:
start address, plain size, the two links, and the decrypted projections of
the encrypted size and address mirrors. -/
def recView (r : BlockRecord) :
    Nat × Nat × Option Nat × Option Nat × Nat × Nat :=
  (r.startAddrPlain, r.sizePlain, r.prev, r.next,
   r.block.core.size.value, r.block.core.address)

/-- Two states agree at a handle when the stored records (if any) have the
same tracked projection. -/
def viewEq (s s' : PoolState) (k : Nat) : Prop :=
  Option.map recView (s'.getRec k) = Option.map recView (s.getRec k)

/-- `Chain s a p l e`: the handles `l` hold records laid out contiguously
from address `a` to address `e`, the first record's `prev` link being `p`,
each record's `next` link pointing at the following handle, every size
positive, and the encrypted size/address mirrors agreeing with the plain
fields. -/
inductive Chain (s : PoolState) : Nat → Option Nat → List Nat → Nat → Prop where
  | nil (a : Nat) (p : Option Nat) : Chain s a p [] a
  | cons (a : Nat) (p : Option Nat) (h : Nat) (r : BlockRecord)
      (rest : List Nat) (e : Nat)
      (hrec : s.getRec h = some r)
      (haddr : r.startAddrPlain = a)
      (hpos : 0 < r.sizePlain)
      (hprev : r.prev = p)
      (hnext : r.next = rest.head?)
      (hcs : r.block.core.size.value = r.sizePlain)
      (hca : r.block.core.address = r.startAddrPlain)
      (htail : Chain s (a + r.sizePlain) (some h) rest e) :
      Chain s a p (h :: rest) e

/-- Chain end addresses do not precede their starts. -/
theorem Chain.le_end {s : PoolState} :
    ∀ {a : Nat} {p : Option Nat} {l : List Nat} {e : Nat},
      Chain s a p l e → a ≤ e := by
  intro a p l e hc
  induction hc with
  | nil => exact Nat.le_refl _
  | cons a p h r rest e hrec haddr hpos hprev hnext hcs hca htail ih => omega

/-- Every chain member's record lies inside `[a, e)`. -/
theorem Chain.mem_bounds {s : PoolState} :
    ∀ {a : Nat} {p : Option Nat} {l : List Nat} {e : Nat},
      Chain s a p l e → ∀ h ∈ l, ∃ r, s.getRec h = some r ∧
        a ≤ r.startAddrPlain ∧
        r.startAddrPlain + r.sizePlain ≤ e ∧ 0 < r.sizePlain := by
  intro a p l e hc
  induction hc with
  | nil => intro h hmem; exact absurd hmem (by simp)
  | cons a p h r rest e hrec haddr hpos hprev hnext hcs hca htail ih =>
    intro k hk
    rcases List.mem_cons.mp hk with hkh | hkrest
    · subst hkh
      exact ⟨r, hrec, by omega, by
        have := htail.le_end
        omega, hpos⟩
    · obtain ⟨r', hr', hlo, hhi, hp⟩ := ih k hkrest
      exact ⟨r', hr', by omega, hhi, hp⟩

/-- Chain members are pairwise distinct. -/
theorem Chain.nodup {s : PoolState} :
    ∀ {a : Nat} {p : Option Nat} {l : List Nat} {e : Nat},
      Chain s a p l e → l.Nodup := by
  intro a p l e hc
  induction hc with
  | nil => exact List.nodup_nil
  | cons a p h r rest e hrec haddr hpos hprev hnext hcs hca htail ih =>
    refine List.nodup_cons.mpr ⟨?_, ih⟩
    intro hmem
    obtain ⟨r', hr', hlo, _, _⟩ := htail.mem_bounds h hmem
    rw [hrec] at hr'
    injection hr' with hr'
    subst hr'
    omega

/-- Distinct chain members have disjoint extents. -/
theorem Chain.disjoint {s : PoolState} :
    ∀ {a : Nat} {p : Option Nat} {l : List Nat} {e : Nat},
      Chain s a p l e → ∀ h1 h2, h1 ∈ l → h2 ∈ l → h1 ≠ h2 →
        ∃ r1 r2, s.getRec h1 = some r1 ∧ s.getRec h2 = some r2 ∧
          (r1.startAddrPlain + r1.sizePlain ≤ r2.startAddrPlain ∨
           r2.startAddrPlain + r2.sizePlain ≤ r1.startAddrPlain) := by
  intro a p l e hc
  induction hc with
  | nil => intro h1 h2 hm1; exact absurd hm1 (by simp)
  | cons a p h r rest e hrec haddr hpos hprev hnext hcs hca htail ih =>
    intro h1 h2 hm1 hm2 hne
    rcases List.mem_cons.mp hm1 with he1 | hr1
    · subst he1
      rcases List.mem_cons.mp hm2 with he2 | hr2
      · exact absurd he2.symm hne
      · obtain ⟨r2, hrec2, hlo2, _, _⟩ := htail.mem_bounds h2 hr2
        exact ⟨r, r2, hrec, hrec2, Or.inl (by omega)⟩
    · rcases List.mem_cons.mp hm2 with he2 | hr2
      · subst he2
        obtain ⟨r1, hrec1, hlo1, _, _⟩ := htail.mem_bounds h1 hr1
        exact ⟨r1, r, hrec1, hrec, Or.inr (by omega)⟩
      · exact ih h1 h2 hr1 hr2 hne

/-- The chain's sizes account exactly for the interval it spans. -/
theorem Chain.sum_sizes {s : PoolState} :
    ∀ {a : Nat} {p : Option Nat} {l : List Nat} {e : Nat},
      Chain s a p l e →
      (l.map (fun h => ((s.getRec h).map
        (fun r => r.sizePlain)).getD 0)).sum = e - a := by
  intro a p l e hc
  induction hc with
  | nil => simp
  | cons a p h r rest e hrec haddr hpos hprev hnext hcs hca htail ih =>
    have hle := htail.le_end
    have hval : ((s.getRec h).map (fun r => r.sizePlain)).getD 0
        = r.sizePlain := by rw [hrec]; rfl
    simp only [List.map_cons, List.sum_cons, hval, ih]
    omega

/-! ### Sparse-array access lemmas -/

/-- `getD` with default `none` commutes with mapping over the cells. -/
theorem getD_map_opt {α β : Type} (f : α → β) (l : List (Option α)) :
    ∀ k, (l.map (Option.map f)).getD k none = Option.map f (l.getD k none) := by
  induction l with
  | nil => intro k; simp [List.getD]
  | cons x xs ih =>
    intro k
    cases k with
    | zero => simp [List.getD]
    | succ n =>
      simp only [List.map_cons, List.getD_cons_succ]
      exact ih n

/-- A present cell lies within the array. -/
theorem getD_some_lt {α : Type} (l : List (Option α)) (k : Nat) (r : α)
    (h : l.getD k none = some r) : k < l.length := by
  by_contra hk
  rw [List.getD_eq_getElem?_getD, List.getElem?_eq_none (by omega)] at h
  simp at h

/-- Reading back a just-written cell. -/
theorem getD_set_self {α : Type} (l : List (Option α)) (h : Nat) (v : Option α)
    (hlt : h < l.length) : (l.set h v).getD h none = v := by
  rw [List.getD_eq_getElem?_getD, List.getElem?_set_self (by simpa using hlt)]
  rfl

/-- Writing one cell leaves the others alone. -/
theorem getD_set_ne {α : Type} (l : List (Option α)) (h k : Nat) (v : Option α)
    (hne : k ≠ h) : (l.set h v).getD k none = l.getD k none := by
  rw [List.getD_eq_getElem?_getD, List.getD_eq_getElem?_getD,
    List.getElem?_set_ne (by omega)]

/-- `ensure_slot` pads with `None`, which `getD none` cannot observe. -/
theorem ensureSlot_getD (l : List (Option BlockRecord)) (h k : Nat) :
    (PoolState.ensureSlot l h).getD k none = l.getD k none := by
  unfold PoolState.ensureSlot
  split
  · rfl
  · rw [List.getD_eq_getElem?_getD, List.getD_eq_getElem?_getD]
    rcases lt_or_ge k l.length with hk | hk
    · rw [List.getElem?_append_left hk]
    · rw [List.getElem?_append_right hk]
      have hr : l[k]? = none := List.getElem?_eq_none (by omega)
      rw [hr]
      cases hrep : (List.replicate (h + 1 - l.length)
          (none : Option BlockRecord))[k - l.length]? with
      | none => simp [hrep]
      | some v =>
        have hv : v = none := by
          have := List.getElem?_mem hrep
          simpa using List.eq_of_mem_replicate this
        simp [hrep, hv]

/-- `ensure_slot` reaches the requested index. -/
theorem ensureSlot_length (l : List (Option BlockRecord)) (h : Nat) :
    h < (PoolState.ensureSlot l h).length := by
  unfold PoolState.ensureSlot
  split
  · assumption
  · simp only [List.length_append, List.length_replicate]
    omega

/-- Characterisation of `updBlock` through `getRec`. -/
theorem getRec_updBlock (s : PoolState) (h : Nat) (f : BlockRecord → BlockRecord)
    (k : Nat) :
    (s.updBlock h f).getRec k =
      if k = h then (s.getRec h).map f else s.getRec k := by
  unfold PoolState.updBlock
  cases hrec : s.getRec h with
  | none =>
    by_cases hk : k = h
    · subst hk; rw [if_pos rfl, hrec]; rfl
    · rw [if_neg hk]
  | some r =>
    have hlt := getD_some_lt _ _ _ hrec
    by_cases hk : k = h
    · subst hk
      show (s.blocks.set k (some (f r))).getD k none = _
      rw [getD_set_self _ _ _ hlt, if_pos rfl]
      rfl
    · show (s.blocks.set h (some (f r))).getD k none = _
      rw [getD_set_ne _ _ _ _ hk, if_neg hk]
      rfl

/-- `updBlock` only touches the block array. -/
theorem updBlock_fields (s : PoolState) (h : Nat) (f : BlockRecord → BlockRecord) :
    (s.updBlock h f).freeList = s.freeList ∧
    (s.updBlock h f).vacantHandles = s.vacantHandles ∧
    (s.updBlock h f).nextHandle = s.nextHandle := by
  unfold PoolState.updBlock
  cases s.getRec h <;> exact ⟨rfl, rfl, rfl⟩

/-- `rebuild_box_links` keeps every record, changing only the cloned
neighbour snapshots inside the blocks. -/
theorem getRec_rebuild (s : PoolState) (k : Nat) :
    (s.rebuildBoxLinks).getRec k =
      Option.map (fun r =>
        { r with block :=
            { r.block with
              prevBox := r.prev.bind (fun h =>
                (s.blocks.map (Option.map (fun r2 =>
                  r2.block.linkCloneBox))).getD h none)
              nextBox := r.next.bind (fun h =>
                (s.blocks.map (Option.map (fun r2 =>
                  r2.block.linkCloneBox))).getD h none) } })
        (s.getRec k) := by
  unfold PoolState.rebuildBoxLinks PoolState.getRec
  exact getD_map_opt _ _ k

/-- Rebuilding the boxes does not move the tracked view. -/
theorem viewEq_rebuild (s : PoolState) (k : Nat) : viewEq s s.rebuildBoxLinks k := by
  unfold viewEq
  rw [getRec_rebuild]
  cases s.getRec k <;> rfl

/-- Rebuilding the boxes keeps the same handles live. -/
theorem isSome_rebuild (s : PoolState) (k : Nat) :
    ((s.rebuildBoxLinks).getRec k).isSome = (s.getRec k).isSome := by
  rw [getRec_rebuild]
  cases s.getRec k <;> rfl

/-! ### Block-level projection lemmas -/

theorem refreshChecksum_size (b : MemBlock) :
    (MemBlock.refreshChecksum b).core.size = b.core.size := rfl

theorem refreshChecksum_address (b : MemBlock) :
    (MemBlock.refreshChecksum b).core.address = b.core.address := rfl

theorem setPrev_size (b : MemBlock) (h a : Option Nat) :
    (MemBlock.setPrev b h a).core.size = b.core.size := rfl

theorem setPrev_address (b : MemBlock) (h a : Option Nat) :
    (MemBlock.setPrev b h a).core.address = b.core.address := rfl

theorem setNext_size (b : MemBlock) (h a : Option Nat) :
    (MemBlock.setNext b h a).core.size = b.core.size := rfl

theorem setNext_address (b : MemBlock) (h a : Option Nat) :
    (MemBlock.setNext b h a).core.address = b.core.address := rfl

theorem markAllocated_size (b : MemBlock) :
    (MemBlock.markAllocated b).core.size = b.core.size := rfl

theorem markAllocated_address (b : MemBlock) :
    (MemBlock.markAllocated b).core.address = b.core.address := rfl

theorem markFree_size (b : MemBlock) :
    (MemBlock.markFree b).core.size = b.core.size := rfl

theorem markFree_address (b : MemBlock) :
    (MemBlock.markFree b).core.address = b.core.address := rfl

/-! ### Chain transport -/

/-- A chain only looks at the tracked view, so it transports along `viewEq`
over its members. -/
theorem Chain.congr {s s' : PoolState} :
    ∀ {a : Nat} {p : Option Nat} {l : List Nat} {e : Nat},
      Chain s a p l e → (∀ k ∈ l, viewEq s s' k) → Chain s' a p l e := by
  intro a p l e hc
  induction hc with
  | nil => intro _; exact Chain.nil _ _
  | cons a p h r rest e hrec haddr hpos hprev hnext hcs hca htail ih =>
    intro hv
    have hvh := hv h (List.mem_cons_self h rest)
    unfold viewEq at hvh
    rw [hrec] at hvh
    cases hrec2 : s'.getRec h with
    | none => rw [hrec2] at hvh; exact absurd hvh (by simp)
    | some r' =>
      rw [hrec2] at hvh
      have hview : recView r' = recView r := by
        simpa using hvh
      unfold recView at hview
      simp only [Prod.mk.injEq] at hview
      obtain ⟨h1, h2, h3, h4, h5, h6⟩ := hview
      refine Chain.cons a p h r' rest e hrec2 (by rw [h1, haddr])
        (by rw [h2]; exact hpos) (by rw [h3, hprev]) (by rw [h4, hnext])
        (by rw [h5, h2, hcs]) (by rw [h6, h1, hca]) ?_
      rw [h2]
      exact ih (fun k hk => hv k (List.mem_cons_of_mem _ hk))

/-- The `next` link of a chain member stays inside the chain. -/
theorem Chain.next_mem {s : PoolState} :
    ∀ {a : Nat} {p : Option Nat} {l : List Nat} {e : Nat},
      Chain s a p l e → ∀ h r nh, h ∈ l → s.getRec h = some r →
        r.next = some nh → nh ∈ l := by
  intro a p l e hc
  induction hc with
  | nil => intro h r nh hmem; exact absurd hmem (by simp)
  | cons a p x rx rest e hrec haddr hpos hprev hnext hcs hca htail ih =>
    intro h r nh hmem hr hnx
    rcases List.mem_cons.mp hmem with hh | hh
    · subst hh
      rw [hrec] at hr
      injection hr with hr
      subst hr
      rw [hnx] at hnext
      cases rest with
      | nil => exact absurd hnext.symm (by simp)
      | cons y ys =>
        simp only [List.head?_cons] at hnext
        injection hnext with hnext
        subst hnext
        exact List.mem_cons_of_mem _ (List.mem_cons_self _ _)
    · exact List.mem_cons_of_mem _ (ih h r nh hh hr hnx)

/-- Along a chain, the `prev` link of a member designates a record whose
`next` link points back at the member. -/
theorem Chain.prev_link {s : PoolState} :
    ∀ {a : Nat} {p : Option Nat} {l : List Nat} {e : Nat},
      Chain s a p l e →
      (∀ q, p = some q → ∃ rq, s.getRec q = some rq ∧ rq.next = l.head?) →
      ∀ h r q, h ∈ l → s.getRec h = some r → r.prev = some q →
        ∃ rq, s.getRec q = some rq ∧ rq.next = some h := by
  intro a p l e hc
  induction hc with
  | nil => intro _ h r q hmem; exact absurd hmem (by simp)
  | cons a p x rx rest e hrec haddr hpos hprev hnext hcs hca htail ih =>
    intro hgood h r q hmem hr hpq
    rcases List.mem_cons.mp hmem with hh | hh
    · subst hh
      rw [hrec] at hr
      injection hr with hr
      subst hr
      obtain ⟨rq, hrq, hrqn⟩ := hgood q (by rw [← hpq, hprev])
      exact ⟨rq, hrq, by rw [hrqn]; rfl⟩
    · refine ih ?_ h r q hh hr hpq
      intro q2 hq2
      injection hq2 with hq2
      subst hq2
      exact ⟨rx, hrec, hnext⟩

/-- Every chain member carries the cipher/plain coupling and in-range
extent recorded by the chain. -/
theorem Chain.mem_view {s : PoolState} :
    ∀ {a : Nat} {p : Option Nat} {l : List Nat} {e : Nat},
      Chain s a p l e → ∀ h ∈ l, ∃ r, s.getRec h = some r ∧
        r.block.core.size.value = r.sizePlain ∧
        r.block.core.address = r.startAddrPlain ∧
        a ≤ r.startAddrPlain ∧ r.startAddrPlain + r.sizePlain ≤ e ∧
        0 < r.sizePlain := by
  intro a p l e hc
  induction hc with
  | nil => intro h hmem; exact absurd hmem (by simp)
  | cons a p x rx rest e hrec haddr hpos hprev hnext hcs hca htail ih =>
    intro h hmem
    rcases List.mem_cons.mp hmem with hh | hh
    · subst hh
      exact ⟨rx, hrec, hcs, hca, by omega, by
        have := htail.le_end
        omega, hpos⟩
    · obtain ⟨r, hr, h1, h2, h3, h4, h5⟩ := ih h hh
      exact ⟨r, hr, h1, h2, by omega, h4, h5⟩

/-- `s'` stores at `k` the record of `s` with only its `prev` link (and
untracked fields) changed, the new link being `q`. -/
def reprevEq (s s' : PoolState) (k : Nat) (q : Option Nat) : Prop :=
  ∃ r r1, s.getRec k = some r ∧ s'.getRec k = some r1 ∧
    r1.startAddrPlain = r.startAddrPlain ∧ r1.sizePlain = r.sizePlain ∧
    r1.next = r.next ∧
    r1.block.core.size.value = r.block.core.size.value ∧
    r1.block.core.address = r.block.core.address ∧
    r1.prev = q

/-- Transporting a chain whose `prev` accumulator changes from `oldp` to
`newp`: the head record's `prev` link has been redirected, the rest is
view-unchanged. -/
theorem Chain.retarget {s s' : PoolState} {oldp newp : Nat} :
    ∀ {a : Nat} {l : List Nat} {e : Nat},
      Chain s a (some oldp) l e → l.Nodup →
      (∀ fh, l.head? = some fh → reprevEq s s' fh (some newp)) →
      (∀ k ∈ l, l.head? ≠ some k → viewEq s s' k) →
      Chain s' a (some newp) l e := by
  intro a l e hc
  cases hc with
  | nil => intro _ _ _; exact Chain.nil _ _
  | cons a _ h r rest e hrec haddr hpos hprev hnext hcs hca htail =>
    intro hnd hhead hrest
    obtain ⟨r0, r', hr0, hr', hst, hsz, hnx, hcs2, hca2, hpv⟩ := hhead h rfl
    rw [hrec] at hr0
    injection hr0 with hr0
    subst hr0
    refine Chain.cons a (some newp) h r' rest e hr' (by rw [hst, haddr])
      (by rw [hsz]; exact hpos) hpv (by rw [hnx, hnext])
      (by rw [hcs2, hsz, hcs]) (by rw [hca2, hst, hca]) ?_
    rw [hsz]
    refine htail.congr ?_
    intro k hk
    refine hrest k (List.mem_cons_of_mem _ hk) ?_
    simp only [List.head?_cons, ne_eq, Option.some_inj]
    intro hcontra
    subst hcontra
    exact (List.nodup_cons.mp hnd).1 hk

/-- Insert `n` immediately after the first occurrence of `x`. -/
def insertAfter (l : List Nat) (x n : Nat) : List Nat :=
  match l with
  | [] => []
  | y :: rest => if y = x then y :: n :: rest else y :: insertAfter rest x n

/-- Drop the element immediately following the first occurrence of `x`. -/
def removeAfter (l : List Nat) (x : Nat) : List Nat :=
  match l with
  | [] => []
  | y :: rest => if y = x then y :: rest.tail else y :: removeAfter rest x

theorem insertAfter_head (l : List Nat) (x n : Nat) :
    (insertAfter l x n).head? = l.head? := by
  cases l with
  | nil => rfl
  | cons y rest =>
    unfold insertAfter
    split <;> rfl

theorem removeAfter_head (l : List Nat) (x : Nat) :
    (removeAfter l x).head? = l.head? := by
  cases l with
  | nil => rfl
  | cons y rest =>
    unfold removeAfter
    split <;> rfl

theorem mem_insertAfter_of_mem {l : List Nat} {x n k : Nat} (hk : k ∈ l) :
    k ∈ insertAfter l x n := by
  induction l with
  | nil => exact absurd hk (by simp)
  | cons y rest ih =>
    unfold insertAfter
    rcases List.mem_cons.mp hk with hke | hke
    · subst hke
      split
      · exact List.mem_cons_self _ _
      · exact List.mem_cons_self _ _
    · split
      · exact List.mem_cons_of_mem _ (List.mem_cons_of_mem _ hke)
      · exact List.mem_cons_of_mem _ (ih hke)

theorem self_mem_insertAfter {l : List Nat} {x n : Nat} (hx : x ∈ l) :
    n ∈ insertAfter l x n := by
  induction l with
  | nil => exact absurd hx (by simp)
  | cons y rest ih =>
    unfold insertAfter
    by_cases hy : y = x
    · rw [if_pos hy]
      exact List.mem_cons_of_mem _ (List.mem_cons_self _ _)
    · rw [if_neg hy]
      rcases List.mem_cons.mp hx with hxe | hxe
      · exact absurd hxe.symm hy
      · exact List.mem_cons_of_mem _ (ih hxe)

/-- Chain surgery for a block split: the record at `hh` shrinks to `leading`
bytes, the fresh handle `newH` takes over the trailing extent, and the old
successor's `prev` link is redirected at `newH`. -/
theorem chain_insertAfter {s s' : PoolState} {hh newH leading : Nat}
    {rec : BlockRecord}
    (hrec : s.getRec hh = some rec)
    (hl1 : 0 < leading) (hl2 : leading < rec.sizePlain)
    (hAtH : ∃ r1, s'.getRec hh = some r1 ∧
      r1.startAddrPlain = rec.startAddrPlain ∧ r1.sizePlain = leading ∧
      r1.prev = rec.prev ∧ r1.next = some newH ∧
      r1.block.core.size.value = leading ∧
      r1.block.core.address = rec.startAddrPlain)
    (hAtNew : ∃ t1, s'.getRec newH = some t1 ∧
      t1.startAddrPlain = rec.startAddrPlain + leading ∧
      t1.sizePlain = rec.sizePlain - leading ∧
      t1.prev = some hh ∧ t1.next = rec.next ∧
      t1.block.core.size.value = rec.sizePlain - leading ∧
      t1.block.core.address = rec.startAddrPlain + leading)
    (hAtNext : ∀ nh, rec.next = some nh → reprevEq s s' nh (some newH))
    (hElse : ∀ k, k ≠ hh → k ≠ newH → (∀ nh, rec.next = some nh → k ≠ nh) →
      viewEq s s' k) :
    ∀ {a : Nat} {p : Option Nat} {l : List Nat} {e : Nat},
      Chain s a p l e → hh ∈ l → newH ∉ l →
      Chain s' a p (insertAfter l hh newH) e := by
  intro a p l e hc
  induction hc with
  | nil => intro hmem _; exact absurd hmem (by simp)
  | cons a p x rx rest e hrecx haddr hpos hprev hnext hcs hca htail ih =>
    intro hmem hnewmem
    have hxnotin : x ∉ rest := by
      intro hx
      obtain ⟨r', hr', hlo, _, _⟩ := htail.mem_bounds x hx
      rw [hrecx] at hr'
      injection hr' with hr'
      subst hr'
      omega
    by_cases hx : x = hh
    · subst hx
      have hrx : rx = rec := by
        rw [hrec] at hrecx
        injection hrecx with h2
        exact h2.symm
      rw [hrx] at haddr hpos hprev hnext hcs hca htail
      unfold insertAfter
      rw [if_pos rfl]
      obtain ⟨r1, hr1, e1, e2, e3, e4, e5, e6⟩ := hAtH
      obtain ⟨t1, ht1, f1, f2, f3, f4, f5, f6⟩ := hAtNew
      refine Chain.cons a p x r1 (newH :: rest) e hr1 (by rw [e1, haddr])
        (by rw [e2]; exact hl1) (by rw [e3]; exact hprev)
        (by rw [e4]; rfl) (by rw [e5, e2]) (by rw [e6, e1])
        ?_
      rw [e2]
      refine Chain.cons (a + leading) (some x) newH t1 rest e ht1
        (by rw [f1, haddr]) (by rw [f2]; omega) f3 (by rw [f4]; exact hnext)
        (by rw [f5, f2]) (by rw [f6, f1, haddr]) ?_
      rw [f2]
      have hsum : a + leading + (rec.sizePlain - leading) = a + rec.sizePlain := by
        omega
      rw [hsum]
      refine Chain.retarget htail htail.nodup ?_ ?_
      · intro fh hfh
        exact hAtNext fh (by rw [hnext, hfh])
      · intro k hk hkhead
        refine hElse k ?_ ?_ ?_
        · intro hkhh
          subst hkhh
          exact hxnotin hk
        · intro hknew
          subst hknew
          exact hnewmem (List.mem_cons_of_mem _ hk)
        · intro nh hnh hknh
          subst hknh
          rw [hnh] at hnext
          exact hkhead hnext.symm
    · have hmem2 : hh ∈ rest := by
        rcases List.mem_cons.mp hmem with hmm | hmm
        · exact absurd hmm.symm hx
        · exact hmm
      unfold insertAfter
      rw [if_neg hx]
      have hxnew : x ≠ newH := by
        intro hxe
        subst hxe
        exact hnewmem (List.mem_cons_self _ _)
      have hvx : viewEq s s' x := by
        refine hElse x hx hxnew ?_
        intro nh hnh hknh
        subst hknh
        exact hxnotin (htail.next_mem hh rec x hmem2 hrec hnh)
      unfold viewEq at hvx
      rw [hrecx] at hvx
      cases hrx2 : s'.getRec x with
      | none => rw [hrx2] at hvx; exact absurd hvx (by simp)
      | some rx2 =>
        rw [hrx2] at hvx
        have hview : recView rx2 = recView rx := by simpa using hvx
        unfold recView at hview
        simp only [Prod.mk.injEq] at hview
        obtain ⟨g1, g2, g3, g4, g5, g6⟩ := hview
        refine Chain.cons a p x rx2 (insertAfter rest hh newH) e hrx2
          (by rw [g1, haddr]) (by rw [g2]; exact hpos) (by rw [g3]; exact hprev)
          (by rw [insertAfter_head, g4]; exact hnext)
          (by rw [g5, g2, hcs]) (by rw [g6, g1, hca]) ?_
        rw [g2]
        exact ih hmem2 (fun hn => hnewmem (List.mem_cons_of_mem _ hn))

/-- Chain surgery for a merge: the record at `left` absorbs its chain
successor `right`, whose handle disappears; the record after `right` has its
`prev` link redirected at `left`. -/
theorem chain_removeAfter {s s' : PoolState} {left right : Nat}
    {lrec rrec : BlockRecord}
    (hlrec : s.getRec left = some lrec)
    (hrrec : s.getRec right = some rrec)
    (hlnext : lrec.next = some right)
    (hAtLeft : ∃ r1, s'.getRec left = some r1 ∧
      r1.startAddrPlain = lrec.startAddrPlain ∧
      r1.sizePlain = lrec.sizePlain + rrec.sizePlain ∧
      r1.prev = lrec.prev ∧ r1.next = rrec.next ∧
      r1.block.core.size.value = lrec.sizePlain + rrec.sizePlain ∧
      r1.block.core.address = lrec.startAddrPlain)
    (hAtNext : ∀ nh, rrec.next = some nh → reprevEq s s' nh (some left))
    (hElse : ∀ k, k ≠ left → k ≠ right →
      (∀ nh, rrec.next = some nh → k ≠ nh) → viewEq s s' k) :
    ∀ {a : Nat} {p : Option Nat} {l : List Nat} {e : Nat},
      Chain s a p l e → left ∈ l →
      Chain s' a p (removeAfter l left) e ∧
        (∀ k ∈ l, k ≠ right → k ∈ removeAfter l left) := by
  intro a p l e hc
  induction hc with
  | nil => intro hmem; exact absurd hmem (by simp)
  | cons a p x rx rest e hrecx haddr hpos hprev hnext hcs hca htail ih =>
    intro hmem
    have hxnotin : x ∉ rest := by
      intro hx
      obtain ⟨r', hr', hlo, _, _⟩ := htail.mem_bounds x hx
      rw [hrecx] at hr'
      injection hr' with hr'
      subst hr'
      omega
    by_cases hx : x = left
    · subst hx
      have hrx : rx = lrec := by
        rw [hlrec] at hrecx
        injection hrecx with h2
        exact h2.symm
      rw [hrx] at haddr hpos hprev hnext hcs hca htail
      rw [hlnext] at hnext
      cases rest with
      | nil => exact absurd hnext.symm (by simp)
      | cons y rest2 =>
        simp only [List.head?_cons] at hnext
        injection hnext with hy
        subst hy
        unfold removeAfter
        rw [if_pos rfl]
        simp only [List.tail_cons]
        cases htail with
        | cons _ _ _ rr rest2x e hrecr haddr2 hpos2 hprev2 hnext2 hcs2 hca2
            htail2 =>
          have hrr : rr = rrec := by
            rw [hrrec] at hrecr
            injection hrecr with h2
            exact h2.symm
          rw [hrr] at haddr2 hpos2 hprev2 hnext2 hcs2 hca2 htail2
          obtain ⟨r1, hr1, e1, e2, e3, e4, e5, e6⟩ := hAtLeft
          have hrnotin : right ∉ rest2 := by
            intro hr2
            obtain ⟨r', hr', hlo, _, _⟩ := htail2.mem_bounds right hr2
            rw [hrrec] at hr'
            injection hr' with hr'
            subst hr'
            omega
          constructor
          · refine Chain.cons a p x r1 rest2 e hr1 (by rw [e1, haddr])
              (by rw [e2]; omega) (by rw [e3]; exact hprev)
              (by rw [e4]; exact hnext2) (by rw [e5, e2]) (by rw [e6, e1, haddr])
              ?_
            rw [e2]
            have hsum : a + (lrec.sizePlain + rrec.sizePlain) =
                a + lrec.sizePlain + rrec.sizePlain := by omega
            rw [hsum, ← haddr2]
            rw [haddr2]
            refine Chain.retarget htail2 htail2.nodup ?_ ?_
            · intro fh hfh
              exact hAtNext fh (by rw [hnext2, hfh])
            · intro k hk hkhead
              refine hElse k ?_ ?_ ?_
              · intro hkl
                subst hkl
                exact hxnotin (List.mem_cons_of_mem _ hk)
              · intro hkr
                subst hkr
                exact hrnotin hk
              · intro nh hnh hknh
                subst hknh
                rw [hnh] at hnext2
                exact hkhead hnext2.symm
          · intro k hk hkr
            rcases List.mem_cons.mp hk with hkk | hkk
            · subst hkk
              exact List.mem_cons_self _ _
            · rcases List.mem_cons.mp hkk with hkk2 | hkk2
              · exact absurd hkk2 hkr
              · exact List.mem_cons_of_mem _ hkk2
    · have hmem2 : left ∈ rest := by
        rcases List.mem_cons.mp hmem with hmm | hmm
        · exact absurd hmm.symm hx
        · exact hmm
      have hrmem : right ∈ rest := htail.next_mem left lrec right hmem2 hlrec hlnext
      unfold removeAfter
      rw [if_neg hx]
      have hxr : x ≠ right := by
        intro hxe
        subst hxe
        exact hxnotin hrmem
      have hvx : viewEq s s' x := by
        refine hElse x hx hxr ?_
        intro nh hnh hknh
        subst hknh
        exact hxnotin (htail.next_mem right rrec x hrmem hrrec hnh)
      unfold viewEq at hvx
      rw [hrecx] at hvx
      cases hrx2 : s'.getRec x with
      | none => rw [hrx2] at hvx; exact absurd hvx (by simp)
      | some rx2 =>
        rw [hrx2] at hvx
        have hview : recView rx2 = recView rx := by simpa using hvx
        unfold recView at hview
        simp only [Prod.mk.injEq] at hview
        obtain ⟨g1, g2, g3, g4, g5, g6⟩ := hview
        obtain ⟨ihc, ihm⟩ := ih hmem2
        constructor
        · refine Chain.cons a p x rx2 (removeAfter rest left) e hrx2
            (by rw [g1, haddr]) (by rw [g2]; exact hpos)
            (by rw [g3]; exact hprev)
            (by rw [removeAfter_head, g4]; exact hnext)
            (by rw [g5, g2, hcs]) (by rw [g6, g1, hca]) ?_
          rw [g2]
          exact ihc
        · intro k hk hkr
          rcases List.mem_cons.mp hk with hkk | hkk
          · subst hkk
            exact List.mem_cons_self _ _
          · exact List.mem_cons_of_mem _ (ihm k hkk hkr)

/-- The pool-state invariant behind claim C1: some handle list chains the
whole range `[base, base+capacity)`, the chain carries exactly the live
handles, live handles are below the allocation counter, and the vacant stack
holds distinct dead handles below the counter. -/
def PoolInv (base capacity : Nat) (s : PoolState) : Prop :=
  ∃ chain : List Nat,
    Chain s base none chain (base + capacity) ∧
    (∀ h, (s.getRec h).isSome ↔ h ∈ chain) ∧
    (∀ h, (s.getRec h).isSome → h < s.nextHandle) ∧
    (∀ v ∈ s.vacantHandles, s.getRec v = none ∧ v < s.nextHandle) ∧
    s.vacantHandles.Nodup

theorem isSome_of_viewEq {s s' : PoolState} {k : Nat} (h : viewEq s s' k) :
    (s'.getRec k).isSome = (s.getRec k).isSome := by
  unfold viewEq at h
  cases h1 : s.getRec k <;> rw [h1] at h <;> cases h2 : s'.getRec k <;>
    rw [h2] at h <;> simp_all

theorem none_of_viewEq {s s' : PoolState} {k : Nat} (h : viewEq s s' k)
    (hn : s.getRec k = none) : s'.getRec k = none := by
  unfold viewEq at h
  rw [hn] at h
  cases h2 : s'.getRec k with
  | none => rfl
  | some r => rw [h2] at h; exact absurd h (by simp)

/-- The invariant transports along state changes that keep every record's
tracked view, the vacant stack and the handle counter. -/
theorem PoolInv.update_view {base capacity : Nat} {s s' : PoolState}
    (hview : ∀ k, viewEq s s' k)
    (hvac : s'.vacantHandles = s.vacantHandles)
    (hnext : s'.nextHandle = s.nextHandle)
    (hinv : PoolInv base capacity s) : PoolInv base capacity s' := by
  obtain ⟨chain, hch, hcomp, hfr, hvc, hnd⟩ := hinv
  refine ⟨chain, hch.congr (fun k _ => hview k), ?_, ?_, ?_, ?_⟩
  · intro h
    rw [isSome_of_viewEq (hview h)]
    exact hcomp h
  · intro h hs
    rw [isSome_of_viewEq (hview h)] at hs
    rw [hnext]
    exact hfr h hs
  · intro v hv
    rw [hvac] at hv
    obtain ⟨h1, h2⟩ := hvc v hv
    exact ⟨none_of_viewEq (hview v) h1, by rw [hnext]; exact h2⟩
  · rw [hvac]
    exact hnd

theorem mem_insertAfter {l : List Nat} {x n k : Nat}
    (hk : k ∈ insertAfter l x n) : k ∈ l ∨ k = n := by
  induction l with
  | nil => exact absurd hk (by simp [insertAfter])
  | cons y rest ih =>
    unfold insertAfter at hk
    by_cases hy : y = x
    · rw [if_pos hy] at hk
      rcases List.mem_cons.mp hk with h1 | h1
      · exact Or.inl (h1 ▸ List.mem_cons_self _ _)
      · rcases List.mem_cons.mp h1 with h2 | h2
        · exact Or.inr h2
        · exact Or.inl (List.mem_cons_of_mem _ h2)
    · rw [if_neg hy] at hk
      rcases List.mem_cons.mp hk with h1 | h1
      · exact Or.inl (h1 ▸ List.mem_cons_self _ _)
      · rcases ih h1 with h2 | h2
        · exact Or.inl (List.mem_cons_of_mem _ h2)
        · exact Or.inr h2

/-- No chain member is its own successor. -/
theorem Chain.next_ne_self {s : PoolState} :
    ∀ {a : Nat} {p : Option Nat} {l : List Nat} {e : Nat},
      Chain s a p l e → ∀ h r, h ∈ l → s.getRec h = some r →
        r.next ≠ some h := by
  intro a p l e hc
  induction hc with
  | nil => intro h r hmem; exact absurd hmem (by simp)
  | cons a p x rx rest e hrecx haddr hpos hprev hnext hcs hca htail ih =>
    intro h r hmem hr hcontra
    have hxnotin : x ∉ rest := by
      intro hx
      obtain ⟨r', hr', hlo, _, _⟩ := htail.mem_bounds x hx
      rw [hrecx] at hr'
      injection hr' with hr'
      subst hr'
      omega
    rcases List.mem_cons.mp hmem with hh | hh
    · subst hh
      rw [hrecx] at hr
      injection hr with hr
      subst hr
      rw [hcontra] at hnext
      cases rest with
      | nil => exact absurd hnext.symm (by simp)
      | cons y ys =>
        simp only [List.head?_cons] at hnext
        injection hnext with hnext
        exact hxnotin (hnext ▸ List.mem_cons_self _ _)
    · exact ih h r hh hr hcontra

/-- The free list bookkeeping never touches the block array. -/
theorem getRec_insertIntoFreeList (s : PoolState) (h k : Nat) :
    (s.insertIntoFreeList h).getRec k = s.getRec k := by
  unfold PoolState.insertIntoFreeList PoolState.getRec
  split <;> rfl

theorem insertIntoFreeList_fields (s : PoolState) (h : Nat) :
    (s.insertIntoFreeList h).vacantHandles = s.vacantHandles ∧
    (s.insertIntoFreeList h).nextHandle = s.nextHandle := by
  unfold PoolState.insertIntoFreeList
  split <;> exact ⟨rfl, rfl⟩

theorem getRec_removeFromFreeList (s : PoolState) (h k : Nat) :
    (s.removeFromFreeList h).getRec k = s.getRec k := rfl

theorem getD_getRec (s : PoolState) (k : Nat) :
    s.blocks.getD k none = s.getRec k := rfl

/-- The pool built by `VirtualMemoryPoolBuilder::build` satisfies the
invariant: one free block spans the whole range. -/
theorem buildPool_inv (ctx ctxCap C B A : Nat) (p : Pool)
    (hbuild : buildPool ctx ctxCap C B A = .ok p) :
    PoolInv B C p.state := by
  unfold buildPool at hbuild
  by_cases h1 : C < 4 * 1024 ∨ C > 2 ^ 30
  · rw [if_pos h1] at hbuild
    exact absurd hbuild (by simp)
  rw [if_neg h1] at hbuild
  by_cases h2 : A = 0 ∨ ¬ isPow2 A
  · rw [if_pos h2] at hbuild
    exact absurd hbuild (by simp)
  rw [if_neg h2] at hbuild
  have hCpos : 0 < C := by omega
  simp only [PoolState.new] at hbuild
  rw [show (PoolState.allocHandle
      { blocks := [], freeList := [], vacantHandles := [], accessLog := []
        baseAddress := B, usedBytes := 0, allocations := 0, deallocations := 0
        nextHandle := 0, timestamp := 0 }) =
      (.ok 0,
        { blocks := [], freeList := [], vacantHandles := [], accessLog := []
          baseAddress := B, usedBytes := 0, allocations := 0
          deallocations := 0, nextHandle := 1, timestamp := 0 }) from rfl]
    at hbuild
  simp only [] at hbuild
  have hver :
      ∀ pool : Pool, pool.metadata = ⟨C, B, A⟩ → pool.plain = ⟨C, B, A⟩ →
        pool.digest = computeDigest ⟨C, B, A⟩ →
        pool.verifyIntegrity = .ok () := by
    intro pool hm hp hd
    unfold Pool.verifyIntegrity
    rw [hm, hp, hd]
    simp
  rw [hver _ rfl rfl rfl] at hbuild
  simp only [] at hbuild
  injection hbuild with hbuild
  subst hbuild
  refine PoolInv.update_view (fun k => viewEq_rebuild _ k) rfl rfl ?_
  refine ⟨[0], ?_, ?_, ?_, ?_, ?_⟩
  · refine Chain.cons B none 0 _ [] (B + C) rfl rfl hCpos rfl rfl rfl rfl ?_
    show Chain _ (B + C) _ _ _
    exact Chain.nil _ _
  · intro h
    rw [getRec_insertIntoFreeList]
    cases h with
    | zero =>
      constructor
      · intro _
        exact List.mem_singleton.mpr rfl
      · intro _
        rfl
    | succ n =>
      constructor
      · intro hs
        exact absurd hs (by
          simp [PoolState.getRec, PoolState.insertBlock, PoolState.ensureSlot,
            List.getD_eq_getElem?_getD])
      · intro hm
        exact absurd hm (by simp)
  · intro h hs
    rw [getRec_insertIntoFreeList] at hs
    cases h with
    | zero =>
      rw [(insertIntoFreeList_fields _ _).2]
      exact Nat.zero_lt_one
    | succ n =>
      exact absurd hs (by
        simp [PoolState.getRec, PoolState.insertBlock, PoolState.ensureSlot,
          List.getD_eq_getElem?_getD])
  · intro v hv
    rw [(insertIntoFreeList_fields _ _).1] at hv
    exact absurd hv (by simp [PoolState.insertBlock])
  · rw [(insertIntoFreeList_fields _ _).1]
    exact List.nodup_nil

theorem encrypt_value (v c cap : Nat) : (EncInt.encrypt v c cap).value = v := rfl

/-- The outcome of a valid `EncryptedMemoryBlock::split_block`, exposing only
the size and address of the two halves. -/
theorem MemBlock.splitBlock_ok (b : MemBlock) (le : EncInt) (nH nA : Nat)
    (hguard : ¬(le.decrypt = 0 ∨ le.decrypt ≥ b.core.size.decrypt)) :
    ∃ t bSelf, MemBlock.splitBlock b le nH nA = (.ok t, bSelf) ∧
      t.core.size.value = b.core.size.value - le.value ∧
      t.core.address = nA ∧
      bSelf.core.size.value = le.value ∧
      bSelf.core.address = b.core.address := by
  unfold MemBlock.splitBlock
  rw [if_neg hguard]
  exact ⟨_, _, rfl, rfl, rfl, rfl, rfl⟩

/-- Invariant preservation through a successful `PoolState::split_block`,
stated against an abstract outcome of `alloc_handle`. -/
theorem splitBlockP_ok_inv {base capacity ctx ctxCap : Nat}
    {s s1 s' : PoolState} {handle leading newHandle newH : Nat}
    {record0 : BlockRecord}
    (hbound : base + capacity ≤ 2 ^ 64)
    (hinv : PoolInv base capacity s)
    (hrec0 : s.getRec handle = some record0)
    (hfree : record0.free = true)
    (hsz : ¬(leading = 0 ∨ leading ≥ record0.sizePlain))
    (halloc : s.allocHandle = (.ok newHandle, s1))
    (hs1blocks : s1.blocks = s.blocks)
    (hs1next : s.nextHandle ≤ s1.nextHandle)
    (hfreshNew : s.getRec newHandle = none)
    (hnewlt : newHandle < s1.nextHandle)
    (hvac1 : ∀ v ∈ s1.vacantHandles,
      s.getRec v = none ∧ v < s1.nextHandle ∧ v ≠ newHandle)
    (hvacnd1 : s1.vacantHandles.Nodup)
    (hrun : PoolState.splitBlockP ctx ctxCap handle leading s = (.ok newH, s')) :
    PoolInv base capacity s' := by
  obtain ⟨chain, hch, hcomp, hfr, hvc, hnd⟩ := hinv
  have hmem : handle ∈ chain := by
    refine (hcomp handle).mp ?_
    rw [hrec0]
    rfl
  obtain ⟨r0x, hr0x, hcs0, hca0, hlo0, hhi0, hpos0⟩ := hch.mem_view handle hmem
  rw [hrec0] at hr0x
  injection hr0x with hr0x
  subst hr0x
  have hl1 : 0 < leading := Nat.pos_of_ne_zero (fun h => hsz (Or.inl h))
  have hl2 : leading < record0.sizePlain := lt_of_not_ge (fun h => hsz (Or.inr h))
  have haddOK : u64add record0.startAddrPlain leading =
      record0.startAddrPlain + leading := by
    unfold u64add
    apply Nat.mod_eq_of_lt
    omega
  have hrec1 : s1.getRec handle = some record0 := by
    unfold PoolState.getRec
    rw [hs1blocks]
    exact hrec0
  have hnewnotin : newHandle ∉ chain := by
    intro hmm
    have hx := (hcomp newHandle).mpr hmm
    rw [hfreshNew] at hx
    exact absurd hx (by simp)
  have hne_handle_new : handle ≠ newHandle := fun he => hnewnotin (he ▸ hmem)
  have hlt_handle : handle < s1.blocks.length := by
    rw [hs1blocks]
    exact getD_some_lt _ _ _ hrec0
  simp only [PoolState.splitBlockP, hrec0] at hrun
  rw [if_neg (not_not_intro hfree)] at hrun
  rw [if_neg hsz] at hrun
  simp only [halloc] at hrun
  simp only [hrec1] at hrun
  have hguardB : ¬((EncInt.encrypt leading ctx ctxCap).decrypt = 0 ∨
      (EncInt.encrypt leading ctx ctxCap).decrypt ≥
        record0.block.core.size.decrypt) := by
    show ¬(leading = 0 ∨ leading ≥ record0.block.core.size.value)
    rw [hcs0]
    exact hsz
  obtain ⟨tB, selfB, hsplitEq, htSize, htAddr, hbSize, hbAddr⟩ :=
    MemBlock.splitBlock_ok record0.block (EncInt.encrypt leading ctx ctxCap)
      newHandle (u64add record0.startAddrPlain leading) hguardB
  simp only [hsplitEq] at hrun
  rw [Prod.mk.injEq] at hrun
  obtain ⟨hnewHeq, hs2⟩ := hrun
  subst hs2
  refine PoolInv.update_view (fun k => viewEq_rebuild _ k) rfl rfl ?_
  have hvne_handle : ∀ v ∈ s1.vacantHandles, v ≠ handle := by
    intro v hv he
    obtain ⟨hvn, _, _⟩ := hvac1 v hv
    rw [he, hrec0] at hvn
    exact absurd hvn (by simp)
  cases hnx : record0.next with
  | none =>
    simp only [hnx]
    refine ⟨insertAfter chain handle newHandle, ?_, ?_, ?_, ?_, ?_⟩
    · refine chain_insertAfter hrec0 hl1 hl2 ?_ ?_ ?_ ?_ hch hmem hnewnotin
      · rw [getRec_insertIntoFreeList, getRec_updBlock, if_neg hne_handle_new,
          getRec_updBlock, if_neg hne_handle_new]
        simp only [PoolState.getRec]
        rw [getD_set_ne _ _ _ _ hne_handle_new, ensureSlot_getD,
          getD_set_self _ _ _ hlt_handle]
        exact ⟨_, rfl, rfl, rfl, rfl, rfl,
          by rw [setNext_size, hbSize, encrypt_value],
          by rw [setNext_address, hbAddr, hca0]⟩
      · rw [getRec_insertIntoFreeList, getRec_updBlock, if_pos rfl,
          getRec_updBlock, if_pos rfl]
        simp only [PoolState.getRec]
        rw [getD_set_self _ _ _ (ensureSlot_length _ _)]
        refine ⟨{ handle := newHandle
                  block := (tB.setPrev (some handle)
                    (some record0.startAddrPlain)).setNext none none
                  sizePlain := record0.sizePlain - leading
                  startAddrPlain := u64add record0.startAddrPlain leading
                  alignment := record0.alignment
                  free := true
                  prev := some handle
                  next := none
                  hits := 0 }, rfl, haddOK, rfl, rfl, by rw [hnx],
          ?_, ?_⟩
        · show ((tB.setPrev (some handle)
              (some record0.startAddrPlain)).setNext none none).core.size.value
            = record0.sizePlain - leading
          rw [setNext_size, setPrev_size, htSize, hcs0, encrypt_value]
        · show ((tB.setPrev (some handle)
              (some record0.startAddrPlain)).setNext none none).core.address
            = record0.startAddrPlain + leading
          rw [setNext_address, setPrev_address, htAddr, haddOK]
      · intro nh2 hnh2
        rw [hnx] at hnh2
        exact absurd hnh2 (by simp)
      · intro k hkh hknew _
        unfold viewEq
        rw [getRec_insertIntoFreeList, getRec_updBlock, if_neg hknew,
          getRec_updBlock, if_neg hknew]
        simp only [PoolState.getRec]
        rw [getD_set_ne _ _ _ _ hknew, ensureSlot_getD,
          getD_set_ne _ _ _ _ hkh, hs1blocks]
    · intro k
      by_cases hknew : k = newHandle
      · subst hknew
        constructor
        · intro _
          exact self_mem_insertAfter hmem
        · intro _
          rw [getRec_insertIntoFreeList, getRec_updBlock, if_pos rfl,
            getRec_updBlock, if_pos rfl]
          simp only [PoolState.getRec]
          rw [getD_set_self _ _ _ (ensureSlot_length _ _)]
          rfl
      · by_cases hkh : k = handle
        · subst hkh
          constructor
          · intro _
            exact mem_insertAfter_of_mem hmem
          · intro _
            rw [getRec_insertIntoFreeList, getRec_updBlock, if_neg hknew,
              getRec_updBlock, if_neg hknew]
            simp only [PoolState.getRec]
            rw [getD_set_ne _ _ _ _ hknew, ensureSlot_getD,
              getD_set_self _ _ _ hlt_handle]
            rfl
        · rw [getRec_insertIntoFreeList, getRec_updBlock, if_neg hknew,
            getRec_updBlock, if_neg hknew]
          simp only [PoolState.getRec]
          rw [getD_set_ne _ _ _ _ hknew, ensureSlot_getD,
            getD_set_ne _ _ _ _ hkh, hs1blocks]
          constructor
          · intro hsome
            exact mem_insertAfter_of_mem ((hcomp k).mp hsome)
          · intro hmm
            rcases mem_insertAfter hmm with h1 | h1
            · exact (hcomp k).mpr h1
            · exact absurd h1 hknew
    · intro k hsome
      rw [(insertIntoFreeList_fields _ _).2, (updBlock_fields _ _ _).2.2,
        (updBlock_fields _ _ _).2.2]
      show k < s1.nextHandle
      by_cases hknew : k = newHandle
      · subst hknew
        exact hnewlt
      · by_cases hkh : k = handle
        · subst hkh
          have := hfr k (by rw [hrec0]; rfl)
          omega
        · rw [getRec_insertIntoFreeList, getRec_updBlock, if_neg hknew,
            getRec_updBlock, if_neg hknew] at hsome
          simp only [PoolState.getRec] at hsome
          rw [getD_set_ne _ _ _ _ hknew, ensureSlot_getD,
            getD_set_ne _ _ _ _ hkh, hs1blocks] at hsome
          have := hfr k hsome
          omega
    · intro v hv
      rw [(insertIntoFreeList_fields _ _).1, (updBlock_fields _ _ _).2.1,
        (updBlock_fields _ _ _).2.1] at hv
      have hv2 : v ∈ s1.vacantHandles := hv
      obtain ⟨hvnone, hvlt, hvnew⟩ := hvac1 v hv2
      have hvh : v ≠ handle := hvne_handle v hv2
      constructor
      · rw [getRec_insertIntoFreeList, getRec_updBlock, if_neg hvnew,
          getRec_updBlock, if_neg hvnew]
        simp only [PoolState.getRec]
        rw [getD_set_ne _ _ _ _ hvnew, ensureSlot_getD,
          getD_set_ne _ _ _ _ hvh, hs1blocks]
        exact hvnone
      · rw [(insertIntoFreeList_fields _ _).2, (updBlock_fields _ _ _).2.2,
          (updBlock_fields _ _ _).2.2]
        exact hvlt
    · rw [(insertIntoFreeList_fields _ _).1, (updBlock_fields _ _ _).2.1,
        (updBlock_fields _ _ _).2.1]
      exact hvacnd1
  | some nh =>
    simp only [hnx]
    have hnhmem : nh ∈ chain := hch.next_mem handle record0 nh hmem hrec0 hnx
    have hnhsome : (s.getRec nh).isSome = true := (hcomp nh).mpr hnhmem
    obtain ⟨nrec, hnhrec⟩ := Option.isSome_iff_exists.mp hnhsome
    have hnh_ne_handle : nh ≠ handle := by
      intro he
      exact hch.next_ne_self handle record0 hmem hrec0 (he ▸ hnx)
    have hnh_ne_new : nh ≠ newHandle := fun he => hnewnotin (he ▸ hnhmem)
    refine ⟨insertAfter chain handle newHandle, ?_, ?_, ?_, ?_, ?_⟩
    · refine chain_insertAfter hrec0 hl1 hl2 ?_ ?_ ?_ ?_ hch hmem hnewnotin
      · rw [getRec_insertIntoFreeList, getRec_updBlock,
          if_neg (Ne.symm hnh_ne_handle)]
        rw [getRec_updBlock, if_neg hne_handle_new, getRec_updBlock,
          if_neg hne_handle_new]
        simp only [PoolState.getRec]
        rw [getD_set_ne _ _ _ _ hne_handle_new, ensureSlot_getD,
          getD_set_self _ _ _ hlt_handle]
        exact ⟨_, rfl, rfl, rfl, rfl, rfl,
          by rw [setNext_size, hbSize, encrypt_value],
          by rw [setNext_address, hbAddr, hca0]⟩
      · rw [getRec_insertIntoFreeList, getRec_updBlock,
          if_neg (Ne.symm hnh_ne_new)]
        rw [getRec_updBlock _ _ _ newHandle, if_pos rfl,
          getRec_updBlock _ _ _ newHandle, if_pos rfl]
        simp only [PoolState.getRec]
        rw [getD_set_self _ _ _ (ensureSlot_length _ _)]
        refine ⟨_, rfl, haddOK, rfl, rfl, by rw [hnx], ?_, ?_⟩
        · simp only [setNext_size, setPrev_size, htSize, hcs0, encrypt_value]
        · simp only [setNext_address, setPrev_address, htAddr, haddOK]
      · intro nh2 hnh2
        rw [hnx] at hnh2
        injection hnh2 with he
        subst he
        refine ⟨nrec,
          { handle := nrec.handle
            block := nrec.block.setPrev (some newHandle)
              (some (u64add record0.startAddrPlain leading))
            sizePlain := nrec.sizePlain
            startAddrPlain := nrec.startAddrPlain
            alignment := nrec.alignment
            free := nrec.free
            prev := some newHandle
            next := nrec.next
            hits := nrec.hits }, hnhrec, ?_, rfl, rfl, rfl,
          by rw [setPrev_size], by rw [setPrev_address], rfl⟩
        rw [getRec_insertIntoFreeList, getRec_updBlock, if_pos rfl]
        rw [getRec_updBlock, if_neg hnh_ne_new, getRec_updBlock,
          if_neg hnh_ne_new]
        simp only [PoolState.getRec]
        rw [getD_set_ne _ _ _ _ hnh_ne_new, ensureSlot_getD,
          getD_set_ne _ _ _ _ hnh_ne_handle, hs1blocks, getD_getRec, hnhrec]
        rfl
      · intro k hkh hknew hknh
        have hknh2 : k ≠ nh := hknh nh hnx
        unfold viewEq
        rw [getRec_insertIntoFreeList, getRec_updBlock, if_neg hknh2,
          getRec_updBlock, if_neg hknew, getRec_updBlock, if_neg hknew]
        simp only [PoolState.getRec]
        rw [getD_set_ne _ _ _ _ hknew, ensureSlot_getD,
          getD_set_ne _ _ _ _ hkh, hs1blocks]
    · intro k
      by_cases hknh : k = nh
      · subst hknh
        constructor
        · intro _
          exact mem_insertAfter_of_mem hnhmem
        · intro _
          rw [getRec_insertIntoFreeList, getRec_updBlock, if_pos rfl]
          rw [getRec_updBlock, if_neg hnh_ne_new, getRec_updBlock,
            if_neg hnh_ne_new]
          simp only [PoolState.getRec]
          rw [getD_set_ne _ _ _ _ hnh_ne_new, ensureSlot_getD,
            getD_set_ne _ _ _ _ hnh_ne_handle, hs1blocks]
          show (Option.map _ (s.getRec k)).isSome = true
          rw [hnhrec]
          rfl
      · by_cases hknew : k = newHandle
        · subst hknew
          constructor
          · intro _
            exact self_mem_insertAfter hmem
          · intro _
            rw [getRec_insertIntoFreeList, getRec_updBlock, if_neg hknh]
            rw [getRec_updBlock _ _ _ k, if_pos rfl,
              getRec_updBlock _ _ _ k, if_pos rfl]
            simp only [PoolState.getRec]
            rw [getD_set_self _ _ _ (ensureSlot_length _ _)]
            rfl
        · by_cases hkh : k = handle
          · subst hkh
            constructor
            · intro _
              exact mem_insertAfter_of_mem hmem
            · intro _
              rw [getRec_insertIntoFreeList, getRec_updBlock, if_neg hknh]
              rw [getRec_updBlock, if_neg hknew, getRec_updBlock,
                if_neg hknew]
              simp only [PoolState.getRec]
              rw [getD_set_ne _ _ _ _ hknew, ensureSlot_getD,
                getD_set_self _ _ _ hlt_handle]
              rfl
          · rw [getRec_insertIntoFreeList, getRec_updBlock, if_neg hknh]
            rw [getRec_updBlock, if_neg hknew, getRec_updBlock,
              if_neg hknew]
            simp only [PoolState.getRec]
            rw [getD_set_ne _ _ _ _ hknew, ensureSlot_getD,
              getD_set_ne _ _ _ _ hkh, hs1blocks]
            constructor
            · intro hsome
              exact mem_insertAfter_of_mem ((hcomp k).mp hsome)
            · intro hmm
              rcases mem_insertAfter hmm with h1 | h1
              · exact (hcomp k).mpr h1
              · exact absurd h1 hknew
    · intro k hsome
      rw [(insertIntoFreeList_fields _ _).2, (updBlock_fields _ _ _).2.2,
        (updBlock_fields _ _ _).2.2, (updBlock_fields _ _ _).2.2]
      show k < s1.nextHandle
      by_cases hknh : k = nh
      · subst hknh
        have := hfr k (by rw [hnhrec]; rfl)
        omega
      · by_cases hknew : k = newHandle
        · subst hknew
          exact hnewlt
        · by_cases hkh : k = handle
          · subst hkh
            have := hfr k (by rw [hrec0]; rfl)
            omega
          · rw [getRec_insertIntoFreeList, getRec_updBlock, if_neg hknh,
              getRec_updBlock, if_neg hknew, getRec_updBlock,
              if_neg hknew] at hsome
            simp only [PoolState.getRec] at hsome
            rw [getD_set_ne _ _ _ _ hknew, ensureSlot_getD,
              getD_set_ne _ _ _ _ hkh, hs1blocks] at hsome
            have := hfr k hsome
            omega
    · intro v hv
      rw [(insertIntoFreeList_fields _ _).1, (updBlock_fields _ _ _).2.1,
        (updBlock_fields _ _ _).2.1, (updBlock_fields _ _ _).2.1] at hv
      have hv2 : v ∈ s1.vacantHandles := hv
      obtain ⟨hvnone, hvlt, hvnew⟩ := hvac1 v hv2
      have hvh : v ≠ handle := hvne_handle v hv2
      have hvnh : v ≠ nh := by
        intro he
        rw [he, hnhrec] at hvnone
        exact absurd hvnone (by simp)
      constructor
      · rw [getRec_insertIntoFreeList, getRec_updBlock, if_neg hvnh,
          getRec_updBlock, if_neg hvnew, getRec_updBlock, if_neg hvnew]
        simp only [PoolState.getRec]
        rw [getD_set_ne _ _ _ _ hvnew, ensureSlot_getD,
          getD_set_ne _ _ _ _ hvh, hs1blocks]
        exact hvnone
      · rw [(insertIntoFreeList_fields _ _).2, (updBlock_fields _ _ _).2.2,
          (updBlock_fields _ _ _).2.2, (updBlock_fields _ _ _).2.2]
        exact hvlt
    · rw [(insertIntoFreeList_fields _ _).1, (updBlock_fields _ _ _).2.1,
        (updBlock_fields _ _ _).2.1, (updBlock_fields _ _ _).2.1]
      exact hvacnd1

/-- A successful `PoolState::split_block` preserves the pool invariant. -/
theorem splitBlockP_preserves {base capacity ctx ctxCap : Nat}
    {s s' : PoolState} {handle leading newH : Nat}
    (hbound : base + capacity ≤ 2 ^ 64)
    (hinv : PoolInv base capacity s)
    (hrun : PoolState.splitBlockP ctx ctxCap handle leading s =
      (.ok newH, s')) :
    PoolInv base capacity s' := by
  cases hrec0 : s.getRec handle with
  | none =>
    simp only [PoolState.splitBlockP, hrec0] at hrun
    exact absurd hrun (by simp)
  | some record0 =>
    by_cases hfree : record0.free
    case neg =>
      simp only [PoolState.splitBlockP, hrec0] at hrun
      rw [if_pos hfree] at hrun
      exact absurd hrun (by simp)
    case pos =>
      by_cases hsz : leading = 0 ∨ leading ≥ record0.sizePlain
      · simp only [PoolState.splitBlockP, hrec0] at hrun
        rw [if_neg (not_not_intro hfree), if_pos hsz] at hrun
        exact absurd hrun (by simp)
      · obtain ⟨ch, hch2, hcomp, hfr, hvc, hnd⟩ := hinv
        cases hvch : s.vacantHandles with
        | cons vh vrest =>
          have halloc : s.allocHandle =
              (.ok vh, { s with vacantHandles := vrest }) := by
            unfold PoolState.allocHandle
            rw [hvch]
          have hvfacts := hvc vh (by
            rw [hvch]
            exact List.mem_cons_self _ _)
          have hndv : vh ∉ vrest ∧ vrest.Nodup := by
            rw [hvch] at hnd
            exact List.nodup_cons.mp hnd
          refine splitBlockP_ok_inv hbound ⟨ch, hch2, hcomp, hfr, hvc, hnd⟩
            hrec0 hfree hsz halloc rfl (Nat.le_refl _) hvfacts.1 hvfacts.2
            ?_ hndv.2 hrun
          intro v hv
          have hv2 : v ∈ s.vacantHandles := by
            rw [hvch]
            exact List.mem_cons_of_mem _ hv
          obtain ⟨h1, h2⟩ := hvc v hv2
          exact ⟨h1, h2, fun he => hndv.1 (he ▸ hv)⟩
        | nil =>
          by_cases hcap : s.nextHandle > U32MAX
          · simp only [PoolState.splitBlockP, hrec0] at hrun
            rw [if_neg (not_not_intro hfree), if_neg hsz] at hrun
            have halloc : s.allocHandle =
                (.error .handleSpaceExhausted, s) := by
              unfold PoolState.allocHandle
              rw [hvch, if_pos hcap]
            simp only [halloc] at hrun
            exact absurd hrun (by simp)
          · have halloc : s.allocHandle =
                (.ok s.nextHandle, { s with nextHandle := s.nextHandle + 1 }) := by
              unfold PoolState.allocHandle
              rw [hvch, if_neg hcap]
            have hfreshNew : s.getRec s.nextHandle = none := by
              cases hsn : s.getRec s.nextHandle with
              | none => rfl
              | some r =>
                have := hfr s.nextHandle (by rw [hsn]; rfl)
                omega
            refine splitBlockP_ok_inv hbound ⟨ch, hch2, hcomp, hfr, hvc, hnd⟩
              hrec0 hfree hsz halloc rfl (Nat.le_succ _) hfreshNew
              (Nat.lt_succ_self _) ?_ hnd hrun
            intro v hv
            have hv2 : v ∈ s.vacantHandles := hv
            rw [hvch] at hv2
            exact absurd hv2 (by simp)

theorem omap_some {α β : Type} (f : α → β) (a : α) :
    Option.map f (some a) = some (f a) := rfl

theorem ogetD_some {α : Type} (a d : α) : (some a).getD d = a := rfl

/-- Clearing a slot leaves it empty regardless of bounds. -/
theorem getD_set_none_self {α : Type} (l : List (Option α)) (h : Nat) :
    (l.set h none).getD h none = none := by
  rcases lt_or_ge h l.length with hlt | hge
  · exact getD_set_self _ _ _ hlt
  · rw [List.getD_eq_getElem?_getD, List.getElem?_eq_none (by
      rw [List.length_set]
      omega)]
    rfl

theorem removeFromFreeList_blocks (s : PoolState) (h : Nat) :
    (s.removeFromFreeList h).blocks = s.blocks := rfl

/-- What a successful `absorb_right` guarantees: the `checked_add` bound held
and the merged size cipher carries the exact sum. -/
theorem MemBlock.absorbRight_ok {b r b1 : MemBlock}
    (h : MemBlock.absorbRight b r = .ok b1) :
    b.core.size.value + r.core.size.value ≤ 2 ^ 32 - 1 ∧
    b1.core.size.value = b.core.size.value + r.core.size.value ∧
    b1.core.address = b.core.address := by
  unfold MemBlock.absorbRight at h
  by_cases hctx : b.core.ctx ≠ r.core.ctx
  · rw [if_pos hctx] at h
    exact absurd h (by simp)
  rw [if_neg hctx] at h
  unfold EncInt.checkedAdd at h
  by_cases hover : EncInt.decrypt b.core.size + EncInt.decrypt r.core.size >
      2 ^ 32 - 1
  · rw [if_pos hover] at h
    exact absurd h (by simp)
  rw [if_neg hover] at h
  unfold EncInt.wrappingAdd EncInt.binaryOp at h
  by_cases hctx2 : b.core.size.ctx ≠ r.core.size.ctx
  · rw [if_pos hctx2] at h
    exact absurd h (by simp)
  rw [if_neg hctx2] at h
  cases hm : NoiseState.merge b.core.size.noise r.core.size.noise
      COST_ADDITION with
  | error e =>
    simp only [hm] at h
    exact absurd h (by simp)
  | ok ns =>
    simp only [hm] at h
    injection h with h
    subst h
    have hover2 : b.core.size.value + r.core.size.value ≤ 2 ^ 32 - 1 := by
      simp only [EncInt.decrypt] at hover
      omega
    exact ⟨hover2, Nat.mod_eq_of_lt (by omega), rfl⟩

theorem updBlock_nextHandle (s : PoolState) (h : Nat)
    (f : BlockRecord → BlockRecord) :
    (s.updBlock h f).nextHandle = s.nextHandle := (updBlock_fields s h f).2.2

theorem updBlock_vacant (s : PoolState) (h : Nat)
    (f : BlockRecord → BlockRecord) :
    (s.updBlock h f).vacantHandles = s.vacantHandles := (updBlock_fields s h f).2.1

theorem releaseHandle_getRec (s : PoolState) (h k : Nat) :
    (s.releaseHandle h).getRec k = s.getRec k := rfl

theorem releaseHandle_nextHandle (s : PoolState) (h : Nat) :
    (s.releaseHandle h).nextHandle = s.nextHandle := rfl

theorem releaseHandle_vacant (s : PoolState) (h : Nat) :
    (s.releaseHandle h).vacantHandles = h :: s.vacantHandles := rfl

theorem removeFromFreeList_nextHandle (s : PoolState) (h : Nat) :
    (s.removeFromFreeList h).nextHandle = s.nextHandle := rfl

theorem removeFromFreeList_vacant (s : PoolState) (h : Nat) :
    (s.removeFromFreeList h).vacantHandles = s.vacantHandles := rfl

/-- Along a chain, a record's successor starts exactly where the record
ends. -/
theorem Chain.succ_start {s : PoolState} :
    ∀ {a : Nat} {p : Option Nat} {l : List Nat} {e : Nat},
      Chain s a p l e → ∀ h r nh rn, h ∈ l → s.getRec h = some r →
        r.next = some nh → s.getRec nh = some rn →
        rn.startAddrPlain = r.startAddrPlain + r.sizePlain := by
  intro a p l e hc
  induction hc with
  | nil => intro h r nh rn hmem; exact absurd hmem (by simp)
  | cons a p x rx rest e hrecx haddr hpos hprev hnext hcs hca htail ih =>
    intro h r nh rn hmem hr hnx hrn
    rcases List.mem_cons.mp hmem with hh | hh
    · subst hh
      rw [hrecx] at hr
      injection hr with hr
      subst hr
      rw [hnx] at hnext
      cases htail with
      | nil => exact absurd hnext.symm (by simp)
      | cons _ _ y ry rest2 _ hrecy haddry hposy hprevy hnexty hcsy hcay
          htaily =>
        simp only [List.head?_cons] at hnext
        injection hnext with hnext
        subst hnext
        rw [hrecy] at hrn
        injection hrn with hrn
        subst hrn
        rw [haddry, haddr]
    · exact ih h r nh rn hh hr hnx hrn

/-- Assembling the pool invariant for the state left behind by a successful
merge, from its pointwise description. -/
theorem PoolInv_merge_assemble {base capacity : Nat} {s s2 : PoolState}
    {left right : Nat} {lrec rrec : BlockRecord} {chain : List Nat}
    (hch : Chain s base none chain (base + capacity))
    (hcomp : ∀ h, (s.getRec h).isSome = true ↔ h ∈ chain)
    (hfr : ∀ h, (s.getRec h).isSome = true → h < s.nextHandle)
    (hvc : ∀ v ∈ s.vacantHandles, s.getRec v = none ∧ v < s.nextHandle)
    (hnd : s.vacantHandles.Nodup)
    (hlrec : s.getRec left = some lrec)
    (hrrec : s.getRec right = some rrec)
    (hlnext : lrec.next = some right)
    (hlmem : left ∈ chain)
    (hAtLeft : ∃ r1, s2.getRec left = some r1 ∧
      r1.startAddrPlain = lrec.startAddrPlain ∧
      r1.sizePlain = lrec.sizePlain + rrec.sizePlain ∧
      r1.prev = lrec.prev ∧ r1.next = rrec.next ∧
      r1.block.core.size.value = lrec.sizePlain + rrec.sizePlain ∧
      r1.block.core.address = lrec.startAddrPlain)
    (hAtNext : ∀ nh, rrec.next = some nh → reprevEq s s2 nh (some left))
    (hElse : ∀ k, k ≠ left → k ≠ right →
      (∀ nh, rrec.next = some nh → k ≠ nh) → viewEq s s2 k)
    (hRight : s2.getRec right = none)
    (hOnly : ∀ k, (s2.getRec k).isSome = true → k = left ∨
      (∃ nh, rrec.next = some nh ∧ k = nh) ∨ (s.getRec k).isSome = true)
    (hnext2 : s2.nextHandle = s.nextHandle)
    (hvac2 : s2.vacantHandles = right :: s.vacantHandles) :
    PoolInv base capacity s2 := by
  have hrmem : right ∈ chain := hch.next_mem left lrec right hlmem hlrec hlnext
  have hlr_ne : left ≠ right := by
    intro he
    exact hch.next_ne_self left lrec hlmem hlrec (by rw [hlnext, he])
  obtain ⟨hchain2, hmemprop⟩ :=
    chain_removeAfter hlrec hrrec hlnext hAtLeft hAtNext hElse hch hlmem
  refine ⟨removeAfter chain left, hchain2, ?_, ?_, ?_, ?_⟩
  · intro k
    constructor
    · intro hsome
      rcases hOnly k hsome with hkl | ⟨nh, hnh, hknh⟩ | hks
      · subst hkl
        exact hmemprop k hlmem hlr_ne
      · subst hknh
        have hmemnh : k ∈ chain := hch.next_mem right rrec k hrmem hrrec hnh
        have hknr : k ≠ right := by
          intro he
          exact hch.next_ne_self right rrec hrmem hrrec (by rw [hnh, he])
        exact hmemprop k hmemnh hknr
      · have hkch : k ∈ chain := (hcomp k).mp hks
        have hknr : k ≠ right := by
          intro he
          rw [he, hRight] at hsome
          exact absurd hsome (by simp)
        exact hmemprop k hkch hknr
    · intro hmm
      obtain ⟨r, hr, _, _, _⟩ := hchain2.mem_bounds k hmm
      rw [hr]
      rfl
  · intro k hsome
    rw [hnext2]
    rcases hOnly k hsome with hkl | ⟨nh, hnh, hknh⟩ | hks
    · subst hkl
      exact hfr k (by rw [hlrec]; rfl)
    · subst hknh
      have hmemnh : k ∈ chain := hch.next_mem right rrec k hrmem hrrec hnh
      exact hfr k ((hcomp k).mpr hmemnh)
    · exact hfr k hks
  · intro v hv
    rw [hvac2] at hv
    rw [hnext2]
    rcases List.mem_cons.mp hv with hvr | hvr
    · subst hvr
      exact ⟨hRight, hfr v (by rw [hrrec]; rfl)⟩
    · obtain ⟨hvn, hvlt⟩ := hvc v hvr
      have hvl : v ≠ left := by
        intro he
        rw [he, hlrec] at hvn
        exact absurd hvn (by simp)
      have hvrr : v ≠ right := by
        intro he
        rw [he, hrrec] at hvn
        exact absurd hvn (by simp)
      have hvnh : ∀ nh, rrec.next = some nh → v ≠ nh := by
        intro nh hnh he
        have hmemnh : nh ∈ chain := hch.next_mem right rrec nh hrmem hrrec hnh
        have := (hcomp nh).mpr hmemnh
        rw [← he, hvn] at this
        exact absurd this (by simp)
      exact ⟨none_of_viewEq (hElse v hvl hvrr hvnh) hvn, hvlt⟩
  · rw [hvac2]
    refine List.nodup_cons.mpr ⟨?_, hnd⟩
    intro hmm
    obtain ⟨hvn, _⟩ := hvc right hmm
    rw [hrrec] at hvn
    exact absurd hvn (by simp)

/-- A successful `PoolState::merge_adjacent` on a chain-adjacent pair
preserves the pool invariant and returns the left handle. -/
theorem mergeAdjacent_preserves {base capacity : Nat} {s s' : PoolState}
    {left right ret : Nat} {lrec : BlockRecord}
    (hinv : PoolInv base capacity s)
    (hlrec : s.getRec left = some lrec)
    (hlnext : lrec.next = some right)
    (hrun : s.mergeAdjacent left right = (.ok ret, s')) :
    PoolInv base capacity s' ∧ ret = left := by
  obtain ⟨chain, hch, hcomp, hfr, hvc, hnd⟩ := hinv
  have hlmem : left ∈ chain := (hcomp left).mp (by rw [hlrec]; rfl)
  have hrmem : right ∈ chain := hch.next_mem left lrec right hlmem hlrec hlnext
  have hrsome : (s.getRec right).isSome = true := (hcomp right).mpr hrmem
  obtain ⟨rrec, hrrec⟩ := Option.isSome_iff_exists.mp hrsome
  have hlr_ne : left ≠ right := by
    intro he
    exact hch.next_ne_self left lrec hlmem hlrec (by rw [hlnext, he])
  obtain ⟨lx, hlx, hcsL, hcaL, hloL, hhiL, hposL⟩ := hch.mem_view left hlmem
  rw [hlrec] at hlx
  injection hlx with hlx
  subst hlx
  obtain ⟨rx, hrx, hcsR, hcaR, hloR, hhiR, hposR⟩ := hch.mem_view right hrmem
  rw [hrrec] at hrx
  injection hrx with hrx
  subst hrx
  have hlenR : right < s.blocks.length := getD_some_lt _ _ _ hrrec
  have hs1l : (PoolState.getRec
      { s with blocks := s.blocks.set right none } left) = some lrec := by
    show (s.blocks.set right none).getD left none = _
    rw [getD_set_ne _ _ _ _ hlr_ne]
    exact hlrec
  simp only [PoolState.mergeAdjacent, hrrec] at hrun
  simp only [hs1l, omap_some, ogetD_some] at hrun
  cases hlf : lrec.free with
  | false =>
    rw [hlf] at hrun
    simp only [Bool.not_false, Bool.true_or] at hrun
    rw [if_pos trivial] at hrun
    exact absurd hrun (by simp)
  | true =>
    rw [hlf] at hrun
    cases hrf : rrec.free with
    | false =>
      rw [hrf] at hrun
      simp only [Bool.not_true, Bool.not_false, Bool.false_or] at hrun
      rw [if_pos trivial] at hrun
      exact absurd hrun (by simp)
    | true =>
      rw [hrf] at hrun
      simp only [Bool.not_true, Bool.false_or] at hrun
      rw [if_neg Bool.false_ne_true] at hrun
      by_cases hadj : u64add lrec.startAddrPlain lrec.sizePlain ≠
          rrec.startAddrPlain
      · rw [if_pos hadj] at hrun
        exact absurd hrun (by simp)
      rw [if_neg hadj] at hrun
      cases habs : MemBlock.absorbRight lrec.block rrec.block with
      | error e =>
        simp only [habs] at hrun
        exact absurd hrun (by simp)
      | ok leftB1 =>
        simp only [habs] at hrun
        obtain ⟨hsumle, hbsz, hbad⟩ := MemBlock.absorbRight_ok habs
        have hsat : satAddU32 lrec.sizePlain rrec.sizePlain =
            lrec.sizePlain + rrec.sizePlain := by
          unfold satAddU32 U32MAX
          rw [hcsL, hcsR] at hsumle
          omega
        rw [Prod.mk.injEq] at hrun
        obtain ⟨hret, hs2⟩ := hrun
        injection hret with hret
        subst hs2
        refine ⟨?_, hret.symm⟩
        refine PoolInv.update_view (fun k => viewEq_rebuild _ k) rfl rfl ?_
        have hlenL : left < (s.blocks.set right none).length := by
          rw [List.length_set]
          exact getD_some_lt _ _ _ hlrec
        cases hrnx : rrec.next with
        | none =>
          simp only [hrnx]
          refine PoolInv_merge_assemble hch hcomp hfr hvc hnd hlrec hrrec
            hlnext hlmem ?_ ?_ ?_ ?_ ?_ ?_ ?_
          · rw [releaseHandle_getRec]
            simp only [PoolState.getRec]
            rw [getD_set_ne _ _ _ _ hlr_ne, removeFromFreeList_blocks,
              getD_set_self _ _ _ hlenL]
            refine ⟨_, rfl, rfl, hsat, rfl, hrnx.symm, ?_, ?_⟩
            · rw [setNext_size, hbsz, hcsL, hcsR]
            · rw [setNext_address, hbad, hcaL]
          · intro nh hnh
            rw [hrnx] at hnh
            exact absurd hnh (by simp)
          · intro k hkl hkr _
            unfold viewEq
            rw [releaseHandle_getRec]
            simp only [PoolState.getRec]
            rw [getD_set_ne _ _ _ _ hkr, removeFromFreeList_blocks,
              getD_set_ne _ _ _ _ hkl, getD_set_ne _ _ _ _ hkr, getD_getRec]
          · rw [releaseHandle_getRec]
            simp only [PoolState.getRec]
            rw [getD_set_none_self]
          · intro k hsome
            by_cases hkl : k = left
            · exact Or.inl hkl
            · by_cases hkr : k = right
              · subst hkr
                rw [releaseHandle_getRec] at hsome
                simp only [PoolState.getRec] at hsome
                rw [getD_set_none_self] at hsome
                exact absurd hsome (by simp)
              · refine Or.inr (Or.inr ?_)
                rw [releaseHandle_getRec] at hsome
                simp only [PoolState.getRec] at hsome
                rw [getD_set_ne _ _ _ _ hkr, removeFromFreeList_blocks,
                  getD_set_ne _ _ _ _ hkl, getD_set_ne _ _ _ _ hkr,
                  getD_getRec] at hsome
                exact hsome
          · rfl
          · rfl
        | some nh2 =>
          simp only [hrnx]
          have hnh2mem : nh2 ∈ chain :=
            hch.next_mem right rrec nh2 hrmem hrrec hrnx
          have hnh2some : (s.getRec nh2).isSome = true := (hcomp nh2).mpr hnh2mem
          obtain ⟨nrec2, hnrec2⟩ := Option.isSome_iff_exists.mp hnh2some
          have hnh2_ne_right : nh2 ≠ right := by
            intro he
            exact hch.next_ne_self right rrec hrmem hrrec (by rw [hrnx, he])
          have hnh2_ne_left : nh2 ≠ left := by
            intro he
            have h1 := hch.succ_start left lrec right rrec hlmem hlrec
              hlnext hrrec
            rw [he, hlrec] at hnrec2
            injection hnrec2 with hnrec2
            have h2 := hch.succ_start right rrec nh2 lrec hrmem hrrec hrnx
              (by rw [he, hlrec])
            omega
          refine PoolInv_merge_assemble hch hcomp hfr hvc hnd hlrec hrrec
            hlnext hlmem ?_ ?_ ?_ ?_ ?_ ?_ ?_
          · rw [releaseHandle_getRec]
            simp only [PoolState.getRec]
            rw [getD_set_ne _ _ _ _ hlr_ne, removeFromFreeList_blocks,
              getD_getRec, getRec_updBlock, if_neg (Ne.symm hnh2_ne_left)]
            simp only [PoolState.getRec]
            rw [getD_set_self _ _ _ hlenL]
            refine ⟨_, rfl, rfl, hsat, rfl, hrnx.symm, ?_, ?_⟩
            · rw [setNext_size, hbsz, hcsL, hcsR]
            · rw [setNext_address, hbad, hcaL]
          · intro nh hnh
            rw [hrnx] at hnh
            injection hnh with he
            subst he
            refine ⟨nrec2,
              { handle := nrec2.handle
                block := nrec2.block.setPrev (some left)
                  (some lrec.startAddrPlain)
                sizePlain := nrec2.sizePlain
                startAddrPlain := nrec2.startAddrPlain
                alignment := nrec2.alignment
                free := nrec2.free
                prev := some left
                next := nrec2.next
                hits := nrec2.hits }, hnrec2, ?_, rfl, rfl, rfl,
              by rw [setPrev_size], by rw [setPrev_address], rfl⟩
            rw [releaseHandle_getRec]
            simp only [PoolState.getRec]
            rw [getD_set_ne _ _ _ _ hnh2_ne_right, removeFromFreeList_blocks,
              getD_getRec, getRec_updBlock, if_pos rfl]
            simp only [PoolState.getRec]
            rw [getD_set_ne _ _ _ _ hnh2_ne_left,
              getD_set_ne _ _ _ _ hnh2_ne_right, getD_getRec, hnrec2]
            rfl
          · intro k hkl hkr hknh
            have hknh2 : k ≠ nh2 := hknh nh2 hrnx
            unfold viewEq
            rw [releaseHandle_getRec]
            simp only [PoolState.getRec]
            rw [getD_set_ne _ _ _ _ hkr, removeFromFreeList_blocks,
              getD_getRec, getRec_updBlock, if_neg hknh2]
            simp only [PoolState.getRec]
            rw [getD_set_ne _ _ _ _ hkl, getD_set_ne _ _ _ _ hkr, getD_getRec]
          · rw [releaseHandle_getRec]
            simp only [PoolState.getRec]
            rw [getD_set_none_self]
          · intro k hsome
            by_cases hkl : k = left
            · exact Or.inl hkl
            · by_cases hknh2 : k = nh2
              · exact Or.inr (Or.inl ⟨nh2, hrnx, hknh2⟩)
              · by_cases hkr : k = right
                · subst hkr
                  rw [releaseHandle_getRec] at hsome
                  simp only [PoolState.getRec] at hsome
                  rw [getD_set_none_self] at hsome
                  exact absurd hsome (by simp)
                · refine Or.inr (Or.inr ?_)
                  rw [releaseHandle_getRec] at hsome
                  simp only [PoolState.getRec] at hsome
                  rw [getD_set_ne _ _ _ _ hkr, removeFromFreeList_blocks,
                    getD_getRec, getRec_updBlock, if_neg hknh2] at hsome
                  simp only [PoolState.getRec] at hsome
                  rw [getD_set_ne _ _ _ _ hkl, getD_set_ne _ _ _ _ hkr,
                    getD_getRec] at hsome
                  exact hsome
          · simp only [releaseHandle_nextHandle, removeFromFreeList_nextHandle,
              updBlock_nextHandle]
          · simp only [releaseHandle_vacant, removeFromFreeList_vacant,
              updBlock_vacant]

/-- A successful `allocate_block` preserves the pool invariant. -/
theorem allocateBlock_preserves {base capacity : Nat} {p : Pool}
    {size alignment hres : Nat} {s' : PoolState}
    (hbound : base + capacity ≤ 2 ^ 64)
    (hinv : PoolInv base capacity p.state)
    (hrun : p.allocateBlock size alignment = (.ok hres, s')) :
    PoolInv base capacity s' := by
  unfold Pool.allocateBlock at hrun
  by_cases hsz : size = 0
  · rw [if_pos hsz] at hrun
    exact absurd hrun (by simp)
  rw [if_neg hsz] at hrun
  cases hver : p.verifyIntegrity with
  | error e =>
    simp only [hver] at hrun
    exact absurd hrun (by simp)
  | ok u =>
    simp only [hver] at hrun
    by_cases halign : max alignment p.plain.minAlignment = 0 ∨
        ¬ isPow2 (max alignment p.plain.minAlignment)
    · rw [if_pos halign] at hrun
      exact absurd hrun (by simp)
    rw [if_neg halign] at hrun
    cases hfit : p.state.findFit size (max alignment p.plain.minAlignment) with
    | none =>
      simp only [hfit] at hrun
      exact absurd hrun (by simp)
    | some cand =>
      obtain ⟨candidate, headPadding⟩ := cand
      simp only [hfit] at hrun
      have hcont : ∀ (target : Nat) (s1 : PoolState),
          PoolInv base capacity s1 →
          ((match
            (if ((s1.getRec target).map
                (fun r => decide (r.sizePlain > size))).getD false then
              PoolState.splitBlockP p.ctx p.ctxCap target size s1
            else (.ok target, s1)) with
          | (.error e, s2) => (.error e, s2)
          | (.ok _, s2) =>
            match s2.getRec target with
            | none => (.error .unknownHandle, s2)
            | some record =>
              if ¬ record.free then
                (.error (.invalidOperation "block already allocated"), s2)
              else
                (.ok target,
                  ({ { s2 with
                        blocks := s2.blocks.set target (some
                          { record with
                            free := false
                            alignment := max alignment p.plain.minAlignment
                            hits := 0
                            block := MemBlock.markAllocated record.block })
                      }.removeFromFreeList target with
                      usedBytes := satAddU32
                        ({ s2 with
                            blocks := s2.blocks.set target (some
                              { record with
                                free := false
                                alignment := max alignment p.plain.minAlignment
                                hits := 0
                                block :=
                                  MemBlock.markAllocated record.block })
                          }.removeFromFreeList target).usedBytes
                        record.sizePlain
                      allocations :=
                        ({ s2 with
                            blocks := s2.blocks.set target (some
                              { record with
                                free := false
                                alignment := max alignment p.plain.minAlignment
                                hits := 0
                                block :=
                                  MemBlock.markAllocated record.block })
                          }.removeFromFreeList target).allocations + 1
                    }).rebuildBoxLinks)) :
            Except PoolError Nat × PoolState) = (.ok hres, s') →
          PoolInv base capacity s' := by
        intro target s1 hInv1 hrun2
        by_cases hcond : (((s1.getRec target).map
            (fun r => decide (r.sizePlain > size))).getD false) = true
        · rw [if_pos hcond] at hrun2
          rcases hsp2 : PoolState.splitBlockP p.ctx p.ctxCap target size s1
            with ⟨res2, st2⟩
          cases res2 with
          | error e2 =>
            simp only [hsp2] at hrun2
            exact absurd hrun2 (by simp)
          | ok t2 =>
            simp only [hsp2] at hrun2
            have hInv2 := splitBlockP_preserves hbound hInv1 hsp2
            cases hrec2 : st2.getRec target with
            | none =>
              simp only [hrec2] at hrun2
              exact absurd hrun2 (by simp)
            | some record =>
              simp only [hrec2] at hrun2
              cases hfree : record.free with
              | false =>
                rw [hfree] at hrun2
                rw [if_pos Bool.false_ne_true] at hrun2
                exact absurd hrun2 (by simp)
              | true =>
                rw [hfree] at hrun2
                rw [if_neg (not_not_intro rfl)] at hrun2
                rw [Prod.mk.injEq] at hrun2
                obtain ⟨_, hs2⟩ := hrun2
                subst hs2
                refine PoolInv.update_view (fun k => viewEq_rebuild _ k)
                  rfl rfl ?_
                have hlt2 : target < st2.blocks.length :=
                  getD_some_lt _ _ _ hrec2
                refine PoolInv.update_view ?_ ?_ ?_ hInv2
                · intro k
                  unfold viewEq
                  simp only [PoolState.getRec, removeFromFreeList_blocks]
                  by_cases hkt : k = target
                  · subst hkt
                    rw [getD_set_self _ _ _ hlt2]
                    show _ = Option.map recView (st2.getRec k)
                    rw [hrec2]
                    rfl
                  · rw [getD_set_ne _ _ _ _ hkt, getD_getRec]
                · rfl
                · rfl
        · rw [if_neg hcond] at hrun2
          cases hrec2 : s1.getRec target with
          | none =>
            simp only [hrec2] at hrun2
            exact absurd hrun2 (by simp)
          | some record =>
            simp only [hrec2] at hrun2
            cases hfree : record.free with
            | false =>
              rw [hfree] at hrun2
              rw [if_pos Bool.false_ne_true] at hrun2
              exact absurd hrun2 (by simp)
            | true =>
              rw [hfree] at hrun2
              rw [if_neg (not_not_intro rfl)] at hrun2
              rw [Prod.mk.injEq] at hrun2
              obtain ⟨_, hs2⟩ := hrun2
              subst hs2
              refine PoolInv.update_view (fun k => viewEq_rebuild _ k)
                rfl rfl ?_
              have hlt2 : target < s1.blocks.length :=
                getD_some_lt _ _ _ hrec2
              refine PoolInv.update_view ?_ ?_ ?_ hInv1
              · intro k
                unfold viewEq
                simp only [PoolState.getRec, removeFromFreeList_blocks]
                by_cases hkt : k = target
                · subst hkt
                  rw [getD_set_self _ _ _ hlt2]
                  show _ = Option.map recView (s1.getRec k)
                  rw [hrec2]
                  rfl
                · rw [getD_set_ne _ _ _ _ hkt, getD_getRec]
              · rfl
              · rfl
      by_cases hpad : headPadding > 0
      · rw [if_pos hpad] at hrun
        by_cases hpU : headPadding > U32MAX
        · rw [if_pos hpU] at hrun
          exact absurd hrun (by simp)
        · rw [if_neg hpU] at hrun
          rcases hsp1 : PoolState.splitBlockP p.ctx p.ctxCap candidate
            headPadding p.state with ⟨res1, st1⟩
          cases res1 with
          | error e1 =>
            rw [hsp1] at hrun
            exact absurd hrun (by simp)
          | ok t1 =>
            rw [hsp1] at hrun
            exact hcont t1 st1 (splitBlockP_preserves hbound hinv hsp1) hrun
      · rw [if_neg hpad] at hrun
        exact hcont candidate p.state hinv hrun

theorem obind_some {α β : Type} (a : α) (f : α → Option β) :
    (some a).bind f = f a := rfl

/-- A successful `release_block` preserves the pool invariant. -/
theorem releaseBlock_preserves {base capacity : Nat} {p : Pool}
    {handle : Nat} {s' : PoolState}
    (hinv : PoolInv base capacity p.state)
    (hrun : p.releaseBlock handle = (.ok (), s')) :
    PoolInv base capacity s' := by
  unfold Pool.releaseBlock at hrun
  cases hver : p.verifyIntegrity with
  | error e =>
    simp only [hver] at hrun
    exact absurd hrun (by simp)
  | ok u =>
    simp only [hver] at hrun
    cases hrec : p.state.getRec handle with
    | none =>
      simp only [hrec] at hrun
      exact absurd hrun (by simp)
    | some record =>
      simp only [hrec] at hrun
      cases hfree : record.free with
      | true =>
        rw [hfree] at hrun
        rw [if_pos rfl] at hrun
        exact absurd hrun (by simp)
      | false =>
        rw [hfree] at hrun
        rw [if_neg Bool.false_ne_true] at hrun
        have hlt : handle < p.state.blocks.length := getD_some_lt _ _ _ hrec
        have hcont : ∀ (s2 : PoolState), PoolInv base capacity s2 →
            ∀ r1 : BlockRecord, s2.getRec handle = some r1 →
            ((match (match (s2.getRec handle).bind (fun r : BlockRecord => r.prev) with
              | none => ((.ok handle, s2) : Except PoolError Nat × PoolState)
              | some prevHandle =>
                if ((s2.getRec prevHandle).map
                    (fun r : BlockRecord => r.free)).getD false
                then s2.mergeAdjacent prevHandle handle
                else (.ok handle, s2)) with
            | (.error e, s3) =>
              ((.error e, s3) : Except PoolError Unit × PoolState)
            | (.ok current, s3) =>
              match (match (s3.getRec current).bind
                  (fun r : BlockRecord => r.next) with
                | none =>
                  ((.ok current, s3) : Except PoolError Nat × PoolState)
                | some nextHandle =>
                  if ((s3.getRec nextHandle).map
                      (fun r : BlockRecord => r.free)).getD false
                  then s3.mergeAdjacent current nextHandle
                  else (.ok current, s3)) with
              | (.error e, s4) => (.error e, s4)
              | (.ok _, s4) =>
                (.ok (),
                  (s4.insertIntoFreeList current).rebuildBoxLinks)) :
              Except PoolError Unit × PoolState) = (.ok (), s') →
            PoolInv base capacity s' := by
          intro s2 hInv2 r1 hrec1 hrun2
          have hfinish : ∀ (current : Nat) (s4 : PoolState),
              PoolInv base capacity s4 →
              (.ok (), (s4.insertIntoFreeList current).rebuildBoxLinks) =
                ((.ok (), s') : Except PoolError Unit × PoolState) →
              PoolInv base capacity s' := by
            intro current s4 hInv4 hrun4
            rw [Prod.mk.injEq] at hrun4
            obtain ⟨_, hs4⟩ := hrun4
            subst hs4
            refine PoolInv.update_view (fun k => viewEq_rebuild _ k)
              rfl rfl ?_
            refine PoolInv.update_view ?_ ?_ ?_ hInv4
            · intro k
              unfold viewEq
              rw [getRec_insertIntoFreeList]
            · exact (insertIntoFreeList_fields _ _).1
            · exact (insertIntoFreeList_fields _ _).2
          have hright : ∀ (current : Nat) (s3 : PoolState) (nx : Option Nat),
              PoolInv base capacity s3 →
              (∀ nh, nx = some nh →
                ∃ cr, s3.getRec current = some cr ∧ cr.next = some nh) →
              ((match (match nx with
                | none =>
                  ((.ok current, s3) : Except PoolError Nat × PoolState)
                | some nextHandle =>
                  if ((s3.getRec nextHandle).map
                      (fun r : BlockRecord => r.free)).getD false
                  then s3.mergeAdjacent current nextHandle
                  else (.ok current, s3)) with
              | (.error e, s4) =>
                ((.error e, s4) : Except PoolError Unit × PoolState)
              | (.ok _, s4) =>
                (.ok (),
                  (s4.insertIntoFreeList current).rebuildBoxLinks)) :
                Except PoolError Unit × PoolState) = (.ok (), s') →
              PoolInv base capacity s' := by
            intro current s3 nx hInv3 hside hrun3
            cases nx with
            | none =>
              exact hfinish current s3 hInv3 hrun3
            | some nexth =>
              obtain ⟨cr, hcr, hcrn⟩ := hside nexth rfl
              have hrun3b : ((match
                  (if ((s3.getRec nexth).map
                      (fun r : BlockRecord => r.free)).getD false
                    then s3.mergeAdjacent current nexth
                    else ((.ok current, s3) :
                      Except PoolError Nat × PoolState)) with
                | (.error e, s4) =>
                  ((.error e, s4) : Except PoolError Unit × PoolState)
                | (.ok _, s4) =>
                  (.ok (),
                    (s4.insertIntoFreeList current).rebuildBoxLinks)) :
                  Except PoolError Unit × PoolState) = (.ok (), s') := hrun3
              by_cases hnf : ((s3.getRec nexth).map
                  (fun r : BlockRecord => r.free)).getD false = true
              case neg =>
                rw [if_neg hnf] at hrun3b
                exact hfinish current s3 hInv3 hrun3b
              case pos =>
                rw [if_pos hnf] at hrun3b
                rcases hm2 : s3.mergeAdjacent current nexth with ⟨mres2, ms2⟩
                cases mres2 with
                | error e2 =>
                  simp only [hm2] at hrun3b
                  exact absurd hrun3b (by simp)
                | ok cur2 =>
                  simp only [hm2] at hrun3b
                  obtain ⟨hInv4, hcur2⟩ :=
                    mergeAdjacent_preserves hInv3 hcr hcrn hm2
                  exact hfinish current ms2 hInv4 hrun3b
          have hbind_next : ∀ (s3 : PoolState) (c nh : Nat),
              ((s3.getRec c).bind (fun r : BlockRecord => r.next)) = some nh →
              ∃ cr, s3.getRec c = some cr ∧ cr.next = some nh := by
            intro s3 c nh hb
            cases hcr : s3.getRec c with
            | none =>
              rw [hcr] at hb
              exact absurd hb (by simp)
            | some cr =>
              rw [hcr, obind_some] at hb
              exact ⟨cr, rfl, hb⟩
          cases hprev : r1.prev with
          | none =>
            simp only [hrec1, obind_some, hprev] at hrun2
            exact hright handle s2 _ hInv2
              (fun nh hnh => ⟨r1, hrec1, hnh⟩) hrun2
          | some ph =>
            simp only [hrec1, obind_some, hprev] at hrun2
            obtain ⟨ch2, hch2, hcomp2, hfr2, hvc2, hnd2⟩ := hInv2
            have hmem2 : handle ∈ ch2 := (hcomp2 handle).mp (by rw [hrec1]; rfl)
            obtain ⟨rq, hrq, hrqn⟩ := hch2.prev_link
              (by intro q hq; exact absurd hq (by simp)) handle r1 ph hmem2
              hrec1 hprev
            have hInv2x : PoolInv base capacity s2 :=
              ⟨ch2, hch2, hcomp2, hfr2, hvc2, hnd2⟩
            by_cases hqf : ((s2.getRec ph).map
                (fun r : BlockRecord => r.free)).getD false = true
            case neg =>
              rw [if_neg hqf] at hrun2
              exact hright handle s2 _ hInv2x
                (fun nh hnh => hbind_next s2 handle nh hnh) hrun2
            case pos =>
              rw [if_pos hqf] at hrun2
              rcases hm1 : s2.mergeAdjacent ph handle with ⟨mres1, ms1⟩
              cases mres1 with
              | error e1 =>
                simp only [hm1] at hrun2
                exact absurd hrun2 (by simp)
              | ok cur1 =>
                simp only [hm1] at hrun2
                obtain ⟨hInv3, hcur1⟩ :=
                  mergeAdjacent_preserves hInv2x hrq hrqn hm1
                exact hright cur1 ms1 _ hInv3
                  (fun nh hnh => hbind_next ms1 cur1 nh hnh) hrun2
        refine hcont _ ?_
          { record with
            free := true
            block := MemBlock.markFree record.block } ?_ hrun
        · refine PoolInv.update_view ?_ ?_ ?_ hinv
          · intro k
            unfold viewEq
            simp only [PoolState.getRec]
            by_cases hkh : k = handle
            · subst hkh
              rw [getD_set_self _ _ _ hlt]
              show _ = Option.map recView (p.state.getRec k)
              rw [hrec]
              rfl
            · rw [getD_set_ne _ _ _ _ hkh, getD_getRec]
          · rfl
          · rfl
        · simp only [PoolState.getRec]
          rw [getD_set_self _ _ _ hlt]

/-- A successful pool operation preserves the invariant. -/
theorem runOpOk_preserves {base capacity : Nat} {p p1 : Pool} {op : PoolOp}
    (hbound : base + capacity ≤ 2 ^ 64)
    (hinv : PoolInv base capacity p.state)
    (hrun : runOpOk p op = some p1) :
    PoolInv base capacity p1.state := by
  cases op with
  | alloc size alignment =>
    unfold runOpOk at hrun
    rcases halloc : p.allocateBlock size alignment with ⟨res, st⟩
    cases res with
    | error e =>
      simp only [halloc] at hrun
      exact absurd hrun (by simp)
    | ok h =>
      simp only [halloc] at hrun
      injection hrun with hrun
      subst hrun
      exact allocateBlock_preserves hbound hinv halloc
  | release h =>
    unfold runOpOk at hrun
    rcases hrel : p.releaseBlock h with ⟨res, st⟩
    cases res with
    | error e =>
      simp only [hrel] at hrun
      exact absurd hrun (by simp)
    | ok u =>
      simp only [hrel] at hrun
      injection hrun with hrun
      subst hrun
      exact releaseBlock_preserves hinv hrel

/-- Any successful operation sequence preserves the invariant. -/
theorem runOpsOk_preserves {base capacity : Nat} {p p1 : Pool}
    {ops : List PoolOp}
    (hbound : base + capacity ≤ 2 ^ 64)
    (hinv : PoolInv base capacity p.state)
    (hrun : runOpsOk p ops = some p1) :
    PoolInv base capacity p1.state := by
  induction ops generalizing p with
  | nil =>
    unfold runOpsOk at hrun
    injection hrun with hrun
    subst hrun
    exact hinv
  | cons op rest ih =>
    unfold runOpsOk at hrun
    cases hop : runOpOk p op with
    | none =>
      simp only [hop] at hrun
      exact absurd hrun (by simp)
    | some p2 =>
      simp only [hop] at hrun
      exact ih (runOpOk_preserves hbound hinv hop) hrun

/-- C1: for every pool built with capacity `C` and base `B`, after any
sequence of successful `allocate_block`/`release_block` operations the live
blocks form a chain that exactly tiles `[B, B+C)`: the chain carries every
live handle once, consecutive blocks are contiguous in address order from
`B` to `B+C` with correctly wired prev/next links, the block sizes sum to
`C`, and distinct blocks have disjoint extents. -/
theorem pool_tiling_invariant (ctx ctxCap C B A : Nat) (p0 p : Pool)
    (ops : List PoolOp)
    (hbuild : buildPool ctx ctxCap C B A = .ok p0)
    (hbound : B + C ≤ 2 ^ 64)
    (hrun : runOpsOk p0 ops = some p) :
    ∃ chain : List Nat,
      chain.Nodup ∧
      Chain p.state B none chain (B + C) ∧
      (∀ h, (p.state.getRec h).isSome = true ↔ h ∈ chain) ∧
      (chain.map (fun h => ((p.state.getRec h).map
        (fun r => r.sizePlain)).getD 0)).sum = C ∧
      (∀ h1 h2, h1 ∈ chain → h2 ∈ chain → h1 ≠ h2 →
        ∃ r1 r2, p.state.getRec h1 = some r1 ∧ p.state.getRec h2 = some r2 ∧
          (r1.startAddrPlain + r1.sizePlain ≤ r2.startAddrPlain ∨
           r2.startAddrPlain + r2.sizePlain ≤ r1.startAddrPlain)) := by
  have hinv0 := buildPool_inv ctx ctxCap C B A p0 hbuild
  obtain ⟨chain, hch, hcomp, _, _, _⟩ := runOpsOk_preserves hbound hinv0 hrun
  refine ⟨chain, hch.nodup, hch, hcomp, ?_, hch.disjoint⟩
  rw [hch.sum_sizes]
  omega

/-- A small pool for exercising the tiling theorem concretely. -/
def tilingPool0 : Pool := ((buildPool 0 48 4096 4096 16).toOption).getD emptyPool

/-- Allocate one block then free it again. -/
def tilingOps : List PoolOp := [.alloc 32 16, .release 0]

/-- The pool state after running `tilingOps`. -/
def tilingPoolN : Pool := (runOpsOk tilingPool0 tilingOps).getD emptyPool

/-- Witness for C1 at a concrete pool and operation sequence. -/
theorem pool_tiling_invariant_witness :
    ∃ chain : List Nat,
      chain.Nodup ∧
      Chain tilingPoolN.state 4096 none chain (4096 + 4096) ∧
      (∀ h, (tilingPoolN.state.getRec h).isSome = true ↔ h ∈ chain) ∧
      (chain.map (fun h => ((tilingPoolN.state.getRec h).map
        (fun r => r.sizePlain)).getD 0)).sum = 4096 ∧
      (∀ h1 h2, h1 ∈ chain → h2 ∈ chain → h1 ≠ h2 →
        ∃ r1 r2, tilingPoolN.state.getRec h1 = some r1 ∧
          tilingPoolN.state.getRec h2 = some r2 ∧
          (r1.startAddrPlain + r1.sizePlain ≤ r2.startAddrPlain ∨
           r2.startAddrPlain + r2.sizePlain ≤ r1.startAddrPlain)) :=
  pool_tiling_invariant 0 48 4096 4096 16 tilingPool0 tilingPoolN tilingOps
    (by rfl) (by norm_num) (by rfl)

/-- Witness for C4 (amended) on a fresh pool: a zero-size request and an
oversized request both fail without mutating the state. -/
theorem pool_error_no_mutation_witness :
    freshPool.allocateBlock 0 16 = (.error .invalidSize, freshPool.state) ∧
    ((8192 : Nat) ≠ 0 ∧ freshPool.verifyIntegrity = .ok () ∧
      isPow2 (max 16 freshPool.plain.minAlignment) = true ∧
      freshPool.state.findFit 8192 (max 16 freshPool.plain.minAlignment) =
        none) ∧
    freshPool.allocateBlock 8192 16 = (.error .outOfMemory, freshPool.state) :=
  ⟨(pool_error_no_mutation freshPool).1 16,
   ⟨by decide, rfl, rfl, rfl⟩,
   (pool_error_no_mutation freshPool).2.2.1 8192 16 (by decide) rfl rfl rfl⟩

end Cryptmalloc
